import Mathlib

/-! # RoutingAlgorithms: the graph store and the TSP solvers of `src/models/Graph.cpp`

The embedding keeps the pointer structure of the C++ program.

* A `Vertex*` is an address (a natural number) into the memory `Graph.mem`; the null
  pointer is `none`.
* An `Edge*` is the pair (address of the vertex that owns the edge, position of the edge in
  that vertex's adjacency vector): `Vertex::addEdge` allocates one `Edge` object per call and
  appends it to the owner's adjacency.
* `unordered_map<int, Vertex*> vertexSet` is the list of its (key, pointer) entries in the
  order in which a range-for visits them.
* The weight of an edge is an element of a linearly ordered additive monoid `W`; a `double`
  that may hold `INF`, which is the infinity of the type, is an element of `WithTop W`.  The
  solvers only compare weights and add them.
* The addition of the type `double`, which rounds and overflows, is the parameter `add` of the
  solvers; nothing is assumed of it unless a theorem says so.  The `+` of `W` is the exact sum
  and appears in statements only.  `doubleAdd` is the addition of IEEE 754 binary64 on the
  doubles that are natural numbers.
* Dereferencing a null pointer, a write outside a vector, and running out of recursion fuel, is
  the result `none`.
* The queue of `prim` is a parameter: its class is not among the sources; the properties hold
  for every queue whose `extractMin` returns a vertex of smallest `dist`.
* The functions of `<cmath>` and the constant `M_PI` are parameters of `haversineDistance`; its
  properties are stated with the functions of the real numbers.
* A definition whose name ends in `Log` is the loop of the same name that also records the
  calls of the queue; one whose name ends in `Checked` is the function of the same name with
  assertions, a failed assertion being the result `none`.
-/

namespace RoutingAlgorithms

/-! ## Data model -/

/-- Coordinates of a vertex: latitude and longitude, in degrees. -/
structure Coordinates (R : Type) where
  latitude : R
  longitude : R

/-- Pointer to an `Edge` object: the address of the owning vertex and the position of the edge in
the owner's adjacency vector. -/
abbrev EdgePtr := Nat × Nat

/-- Edge object: destination pointer, stored weight, and the pointer to the reverse edge. -/
structure Edge (W : Type) where
  dest : Nat
  distance : W
  reverse : Option EdgePtr
  deriving DecidableEq

/-- Vertex object: immutable id and coordinates, the adjacency vector, and the scratch fields
`visited`, `dist` and `path` that the algorithms overwrite. -/
structure Vertex (W : Type) where
  id : Int
  coords : Coordinates W
  adj : List (Edge W)
  visited : Bool
  dist : WithTop W
  path : Option EdgePtr

/-- Graph object together with the memory its pointers refer to. -/
structure Graph (W : Type) where
  mem : Nat → Vertex W
  vertexSet : List (Int × Nat)

variable {W : Type}

/-- Setter `p->setVisited(b)`. -/
def setVisited (g : Graph W) (p : Nat) (b : Bool) : Graph W :=
  { g with mem := Function.update g.mem p { g.mem p with visited := b } }

/-- Setter `p->setDist(d)`. -/
def setDist (g : Graph W) (p : Nat) (d : WithTop W) : Graph W :=
  { g with mem := Function.update g.mem p { g.mem p with dist := d } }

/-- Setter `p->setPath(e)`. -/
def setPath (g : Graph W) (p : Nat) (e : Option EdgePtr) : Graph W :=
  { g with mem := Function.update g.mem p { g.mem p with path := e } }

/-! ## Graph store (lines 8-55) -/

/-- Lookup `Graph::findVertex`: the pointer stored under key `id`, or null. -/
def findVertex (g : Graph W) (id : Int) : Option Nat :=
  g.vertexSet.lookup id

/-- Insertion `Graph::addVertex`: refuses an id that is already a key, otherwise inserts the entry
`{v->getId(), v}`.  The place of the new entry in the iteration order is not fixed by
`unordered_map`; the entry is put last here. -/
def addVertex (g : Graph W) (v : Nat) : Bool × Graph W :=
  if (findVertex g (g.mem v).id).isSome then (false, g)
  else (true, { g with vertexSet := g.vertexSet ++ [((g.mem v).id, v)] })

/-! ## Distance resolver (lines 252-259) -/

/-- Body of the loop of `Graph::calculateDistance`: returns from the function at the first edge
whose destination pointer is `v2`. -/
def calculateDistanceLoop (v2 : Nat) : List (Edge W) → Option W
  | [] => none
  | e :: rest => if e.dest = v2 then some e.distance else calculateDistanceLoop v2 rest

/-- Resolver `Graph::calculateDistance`, with `haversineDistance` taken as a parameter. -/
def calculateDistance (haversineDistance : Coordinates W → Coordinates W → W)
    (g : Graph W) (v1 v2 : Nat) : W :=
  match calculateDistanceLoop v2 (g.mem v1).adj with
  | some d => d
  | none => haversineDistance (g.mem v1).coords (g.mem v2).coords

/-- Modelled from the spec: `Vertex::addEdge(dest, w)`, whose source is not part of the repository
sources at hand.  It allocates an `Edge` with the given destination and weight and no reverse
reference, appends it to the adjacency of `v1` and returns the pointer to the new edge. -/
def vertexAddEdge (g : Graph W) (v1 v2 : Nat) (w : W) : EdgePtr × Graph W :=
  let e : Edge W := { dest := v2, distance := w, reverse := none }
  let vertex : Vertex W := { g.mem v1 with adj := (g.mem v1).adj ++ [e] }
  ((v1, (g.mem v1).adj.length), { g with mem := Function.update g.mem v1 vertex })

/-- Setter `e->setReverse(r)` on the edge object behind the pointer `e`. -/
def setReverse (g : Graph W) (e : EdgePtr) (r : Option EdgePtr) : Graph W :=
  let adj1 := (g.mem e.1).adj.modify (fun ed => { ed with reverse := r }) e.2
  let vertex : Vertex W := { g.mem e.1 with adj := adj1 }
  { g with mem := Function.update g.mem e.1 vertex }

/-- Mutator `Graph::addEdge`: false on a null endpoint, otherwise one new edge `v1 -> v2`. -/
def addEdge (g : Graph W) (v1 v2 : Option Nat) (distance : W) : Bool × Graph W :=
  match v1, v2 with
  | some p1, some p2 => (true, (vertexAddEdge g p1 p2 distance).2)
  | _, _ => (false, g)

/-- Mutator `Graph::addBidirectionalEdge`: false on a null endpoint, otherwise the two edges
`v1 -> v2` and `v2 -> v1`, each made the reverse of the other. -/
def addBidirectionalEdge (g : Graph W) (v1 v2 : Option Nat) (distance : W) : Bool × Graph W :=
  match v1, v2 with
  | some p1, some p2 =>
    let r1 := vertexAddEdge g p1 p2 distance
    let r2 := vertexAddEdge r1.2 p2 p1 distance
    let g3 := setReverse r2.2 r1.1 (some r2.1)
    let g4 := setReverse g3 r2.1 (some r1.1)
    (true, g4)
  | _, _ => (false, g)

/-- Loop `for (auto v : vertexSet) v.second->setVisited(false)` that opens the three solvers. -/
def clearVisited (g : Graph W) : Graph W :=
  g.vertexSet.foldl (fun acc v => setVisited acc v.2 false) g

/-- Write `path[i] = x` on a `vector<int>`; an index outside the vector is undefined behaviour. -/
def writePath (path : List Int) (i : Nat) (x : Int) : Option (List Int) :=
  if i < path.length then some (path.set i x) else none

/-! ## Backtracking solver (lines 121-169) -/

section Backtracking
variable [LinearOrderedAddCommMonoid W]

/-- What a call of the recursive `tspBacktracking` leaves behind: its return value (`bestSum`
while the call runs), the vector `path` and the memory. -/
structure BtState (W : Type) where
  bestSum : WithTop W
  path : List Int
  g : Graph W

/-- Loop of lines 139-144.  Its body returns from the function on both branches of the `if`, so
the first edge of the adjacency decides; `none` means the loop ended without returning, which
happens for an empty adjacency only.  `add` is the addition of the type `double`. -/
def closeCycleLoop (add : WithTop W → WithTop W → WithTop W) (g : Graph W) (sum : WithTop W)
    (bestSum : WithTop W) : List (Edge W) → Option (WithTop W)
  | [] => none
  | e :: _ =>
    if (g.mem e.dest).id = 0 then some (add sum e.distance)
    else some bestSum

/-- Body of the loop over the edges of the current vertex (lines 153-165) for the candidate
map entry `v`; `rec` is the recursive call and `add` the addition of the type `double`. -/
def btEdgeBody (add : WithTop W → WithTop W → WithTop W)
    (rec : Graph W → List Int → Int → WithTop W → WithTop W → Nat → Option (BtState W))
    (v : Int × Nat) (sum : WithTop W) (step : Nat) (st : BtState W) (e : Edge W) :
    Option (BtState W) :=
  if e.dest = v.2 then
    if add sum e.distance < st.bestSum then
      match rec (setVisited st.g v.2 true) st.path (st.g.mem v.2).id (add sum e.distance)
          st.bestSum (step + 1) with
      | none => none
      | some r =>
        if r.bestSum < st.bestSum then
          match writePath r.path step v.1 with
          | none => none
          | some path1 => some ⟨r.bestSum, path1, setVisited r.g v.2 false⟩
        else some ⟨st.bestSum, r.path, setVisited r.g v.2 false⟩
    else some st
  else some st

/-- Body of the loop over the vertex map (lines 148-166) for the current vertex `vertex`. -/
def btVertexBody (add : WithTop W → WithTop W → WithTop W)
    (rec : Graph W → List Int → Int → WithTop W → WithTop W → Nat → Option (BtState W))
    (vertex : Nat) (sum : WithTop W) (step : Nat) (st : BtState W) (v : Int × Nat) :
    Option (BtState W) :=
  if (st.g.mem v.2).visited then some st
  else (st.g.mem vertex).adj.foldlM (btEdgeBody add rec v sum step) st

/-- Recursive `Graph::tspBacktracking(path, vertexId, sum, bestSum, step)`; the first argument
bounds the nesting depth.  A null `vertex` counts as dereferenced at once; the solver passes ids
of stored vertices only, which are keys of the map in every graph filled by `addVertex`. -/
def tspBacktrackingRec (add : WithTop W → WithTop W → WithTop W) :
    Nat → Graph W → List Int → Int → WithTop W → WithTop W → Nat → Option (BtState W)
  | 0, _, _, _, _, _, _ => none
  | fuel + 1, g, path, vertexId, sum, bestSum, step =>
    match findVertex g vertexId with
    | none => none
    | some vertex =>
      match (if step = g.vertexSet.length then
               closeCycleLoop add g sum bestSum (g.mem vertex).adj
             else none) with
      | some r => some ⟨r, path, g⟩
      | none =>
        g.vertexSet.foldlM (btVertexBody add (tspBacktrackingRec add fuel) vertex sum step)
          ⟨bestSum, path, g⟩

/-- Entry point `Graph::tspBacktracking(path)`: returned cost, final `path`, final memory. -/
def tspBacktracking (add : WithTop W → WithTop W → WithTop W) (g : Graph W) (path : List Int) :
    Option (WithTop W × List Int × Graph W) :=
  let g1 := clearVisited g
  match findVertex g1 0 with
  | none => none
  | some v0 =>
    match tspBacktrackingRec add (g1.vertexSet.length + 1) (setVisited g1 v0 true) path 0 0 ⊤
        1 with
    | none => none
    | some r => some (r.bestSum, r.path ++ [0], r.g)

/-- Body `btEdgeBody` with an assertion before the write `path[step] = v.first`: the index is
one of 1, ..., V - 1, where V is the number of stored vertices.  A failed assertion gives
`none`. -/
def btEdgeBodyChecked (add : WithTop W → WithTop W → WithTop W)
    (rec : Graph W → List Int → Int → WithTop W → WithTop W → Nat → Option (BtState W))
    (v : Int × Nat) (sum : WithTop W) (step : Nat) (st : BtState W) (e : Edge W) :
    Option (BtState W) :=
  if e.dest = v.2 then
    if add sum e.distance < st.bestSum then
      match rec (setVisited st.g v.2 true) st.path (st.g.mem v.2).id (add sum e.distance)
          st.bestSum (step + 1) with
      | none => none
      | some r =>
        if r.bestSum < st.bestSum then
          if 1 ≤ step ∧ step + 1 ≤ r.g.vertexSet.length then
            match writePath r.path step v.1 with
            | none => none
            | some path1 => some ⟨r.bestSum, path1, setVisited r.g v.2 false⟩
          else none
        else some ⟨st.bestSum, r.path, setVisited r.g v.2 false⟩
    else some st
  else some st

/-- Body `btVertexBody` over `btEdgeBodyChecked`. -/
def btVertexBodyChecked (add : WithTop W → WithTop W → WithTop W)
    (rec : Graph W → List Int → Int → WithTop W → WithTop W → Nat → Option (BtState W))
    (vertex : Nat) (sum : WithTop W) (step : Nat) (st : BtState W) (v : Int × Nat) :
    Option (BtState W) :=
  if (st.g.mem v.2).visited then some st
  else (st.g.mem vertex).adj.foldlM (btEdgeBodyChecked add rec v sum step) st

/-- Recursion `tspBacktrackingRec` with an assertion at the entry of every call: the nesting
depth `depth` of the call (1 for the outermost call) is at most the number V of stored
vertices, `1 ≤ step ≤ V`, and `step` is the number of stored vertices that are marked visited.
A failed assertion gives `none`. -/
def tspBacktrackingRecChecked (add : WithTop W → WithTop W → WithTop W) :
    Nat → Nat → Graph W → List Int → Int → WithTop W → WithTop W → Nat → Option (BtState W)
  | 0, _, _, _, _, _, _, _ => none
  | fuel + 1, depth, g, path, vertexId, sum, bestSum, step =>
    if depth ≤ g.vertexSet.length ∧ 1 ≤ step ∧ step ≤ g.vertexSet.length ∧
        (g.vertexSet.filter (fun kv => (g.mem kv.2).visited)).length = step then
      match findVertex g vertexId with
      | none => none
      | some vertex =>
        match (if step = g.vertexSet.length then
                 closeCycleLoop add g sum bestSum (g.mem vertex).adj
               else none) with
        | some r => some ⟨r, path, g⟩
        | none =>
          g.vertexSet.foldlM
            (btVertexBodyChecked add (tspBacktrackingRecChecked add fuel (depth + 1)) vertex sum
              step)
            ⟨bestSum, path, g⟩
    else none

/-- Entry point `tspBacktracking` over `tspBacktrackingRecChecked`. -/
def tspBacktrackingChecked (add : WithTop W → WithTop W → WithTop W) (g : Graph W)
    (path : List Int) : Option (WithTop W × List Int × Graph W) :=
  let g1 := clearVisited g
  match findVertex g1 0 with
  | none => none
  | some v0 =>
    match tspBacktrackingRecChecked add (g1.vertexSet.length + 1) 1 (setVisited g1 v0 true) path
        0 0 ⊤ 1 with
    | none => none
    | some r => some (r.bestSum, r.path ++ [0], r.g)

end Backtracking

/-! ## Nearest-neighbour solver (lines 194-232) -/

section NearestNeighbour
variable [LinearOrderedAddCommMonoid W]

/-- Body of the loop of `Graph::findNearestNeighbour`; the accumulator is (`min`, `nearest`). -/
def nearestBody (haversineDistance : Coordinates W → Coordinates W → W) (g : Graph W)
    (source : Nat) (acc : WithTop W × Option Nat) (v : Int × Nat) : WithTop W × Option Nat :=
  if (g.mem v.2).id = (g.mem source).id ∨ (g.mem v.2).visited = true then acc
  else
    let d := calculateDistance haversineDistance g source v.2
    if (d : WithTop W) < acc.1 then ((d : WithTop W), some v.2) else acc

/-- Scan `Graph::findNearestNeighbour`: null when no candidate beat `INF`. -/
def findNearestNeighbour (haversineDistance : Coordinates W → Coordinates W → W) (g : Graph W)
    (source : Nat) : Option Nat :=
  (g.vertexSet.foldl (nearestBody haversineDistance g source) (⊤, none)).2

/-- Variables of the loop of `Graph::tspNearestNeighbour`. -/
structure NnState (W : Type) where
  v : Nat
  sum : WithTop W
  path : List Int
  g : Graph W

/-- Loop `for (i = 1; i < vertexSet.size(); i++)` of lines 220-226, by the number of iterations
left; `add` is the addition of the type `double`. -/
def nnLoop (add : WithTop W → WithTop W → WithTop W)
    (haversineDistance : Coordinates W → Coordinates W → W) :
    Nat → NnState W → Option (NnState W)
  | 0, st => some st
  | n + 1, st =>
    match findNearestNeighbour haversineDistance st.g st.v with
    | none => none
    | some nearest =>
      let g1 := setVisited st.g nearest true
      nnLoop add haversineDistance n
        { v := nearest
          sum := add st.sum ((calculateDistance haversineDistance g1 st.v nearest : W) :
            WithTop W)
          path := st.path ++ [(g1.mem nearest).id]
          g := g1 }

/-- Entry point `Graph::tspNearestNeighbour(path)`: returned cost, final `path`, final memory. -/
def tspNearestNeighbour (add : WithTop W → WithTop W → WithTop W)
    (haversineDistance : Coordinates W → Coordinates W → W) (g : Graph W)
    (path : List Int) : Option (WithTop W × List Int × Graph W) :=
  let g1 := clearVisited g
  match findVertex g1 0 with
  | none => none
  | some v0 =>
    match nnLoop add haversineDistance (g1.vertexSet.length - 1)
        { v := v0, sum := 0, path := path ++ [0], g := setVisited g1 v0 true } with
    | none => none
    | some st =>
      match findVertex st.g 0 with
      | none => none
      | some p0 =>
        some (add st.sum ((calculateDistance haversineDistance st.g st.v p0 : W) : WithTop W),
          st.path ++ [0], st.g)

end NearestNeighbour

/-! ## Prim (lines 57-98) -/

section Prim
variable [LinearOrderedAddCommMonoid W]

/-- Variables of the loop of `Graph::prim`: the memory and the vertices held by the queue `q`. -/
structure PrimState (W : Type) where
  g : Graph W
  q : List Nat

/-- Loop over the adjacency of the extracted vertex `aux` (lines 76-95); `i` is the position of
the first edge of the list in the adjacency.  `decreaseKey` on a vertex that the queue does not
hold is undefined behaviour. -/
def primEdgeLoop (aux : Nat) : Nat → List (Edge W) → PrimState W → Option (PrimState W)
  | _, [], st => some st
  | i, edge :: rest, st =>
    let dest := edge.dest
    if (st.g.mem dest).visited = false then
      let oldDist := (st.g.mem dest).dist
      if (edge.distance : WithTop W) < oldDist then
        let g1 := setPath (setDist st.g dest edge.distance) dest (some (aux, i))
        if oldDist = ⊤ then primEdgeLoop aux (i + 1) rest { g := g1, q := st.q ++ [dest] }
        else if dest ∈ st.q then primEdgeLoop aux (i + 1) rest { g := g1, q := st.q }
        else none
      else primEdgeLoop aux (i + 1) rest st
    else primEdgeLoop aux (i + 1) rest st

/-- Loop `while (!q.empty())` of lines 72-96; `extractMin` is the queue's operation, which gets
the memory (for the `dist` keys) and the vertices held, and gives the vertex taken out and the
vertices left.  The first argument bounds the number of iterations; `prim` passes the number of
stored vertices, which is enough whenever the edges of stored vertices lead to stored
vertices. -/
def primLoop (extractMin : Graph W → List Nat → Option (Nat × List Nat)) :
    Nat → PrimState W → Option (Graph W)
  | fuel, st =>
    if st.q = [] then some st.g
    else
      match fuel with
      | 0 => none
      | fuel + 1 =>
        match extractMin st.g st.q with
        | none => none
        | some (aux, rest) =>
          let g1 := setVisited st.g aux true
          match primEdgeLoop aux 0 (g1.mem aux).adj { g := g1, q := rest } with
          | none => none
          | some st1 => primLoop extractMin fuel st1

/-- Loop of lines 60-64: every stored vertex gets `dist = INF`, `path = nullptr`, not visited. -/
def primInit (g : Graph W) : Graph W :=
  g.vertexSet.foldl
    (fun acc vert => setVisited (setPath (setDist acc vert.2 ⊤) vert.2 none) vert.2 false) g

/-- Procedure `Graph::prim(v)`. -/
def prim (extractMin : Graph W → List Nat → Option (Nat × List Nat)) (g : Graph W) (v : Nat) :
    Option (Graph W) :=
  if g.vertexSet = [] then some g
  else primLoop extractMin g.vertexSet.length { g := setDist (primInit g) v 0, q := [v] }

/-- Call of an operation of the queue in `prim`, recorded with the state it is called in: for
`extractMin` the memory and the vertices held at the head of the loop, for `insert` and
`decreaseKey` the vertices held and the argument. -/
inductive QueueCall (W : Type) where
  | extractMin (st : PrimState W) : QueueCall W
  | insert (q : List Nat) (v : Nat) : QueueCall W
  | decreaseKey (q : List Nat) (v : Nat) : QueueCall W

/-- Loop `primEdgeLoop` that also appends every call of `insert` and `decreaseKey` to `log`. -/
def primEdgeLoopLog (aux : Nat) :
    Nat → List (Edge W) → PrimState W → List (QueueCall W) →
      Option (PrimState W × List (QueueCall W))
  | _, [], st, log => some (st, log)
  | i, edge :: rest, st, log =>
    let dest := edge.dest
    if (st.g.mem dest).visited = false then
      let oldDist := (st.g.mem dest).dist
      if (edge.distance : WithTop W) < oldDist then
        let g1 := setPath (setDist st.g dest edge.distance) dest (some (aux, i))
        if oldDist = ⊤ then
          primEdgeLoopLog aux (i + 1) rest { g := g1, q := st.q ++ [dest] }
            (log ++ [QueueCall.insert st.q dest])
        else if dest ∈ st.q then
          primEdgeLoopLog aux (i + 1) rest { g := g1, q := st.q }
            (log ++ [QueueCall.decreaseKey st.q dest])
        else none
      else primEdgeLoopLog aux (i + 1) rest st log
    else primEdgeLoopLog aux (i + 1) rest st log

/-- Loop `primLoop` that also appends every call of the queue to `log`. -/
def primLoopLog (extractMin : Graph W → List Nat → Option (Nat × List Nat)) :
    Nat → PrimState W → List (QueueCall W) → Option (Graph W × List (QueueCall W))
  | fuel, st, log =>
    if st.q = [] then some (st.g, log)
    else
      match fuel with
      | 0 => none
      | fuel + 1 =>
        match extractMin st.g st.q with
        | none => none
        | some (aux, rest) =>
          let g1 := setVisited st.g aux true
          match primEdgeLoopLog aux 0 (g1.mem aux).adj { g := g1, q := rest }
              (log ++ [QueueCall.extractMin st]) with
          | none => none
          | some (st1, log1) => primLoopLog extractMin fuel st1 log1

/-- Procedure `prim` that also returns the calls of the queue it makes, in order; the first is
`q.insert(v)` on the empty queue. -/
def primLog (extractMin : Graph W → List Nat → Option (Nat × List Nat)) (g : Graph W) (v : Nat) :
    Option (Graph W × List (QueueCall W)) :=
  if g.vertexSet = [] then some (g, [])
  else primLoopLog extractMin g.vertexSet.length { g := setDist (primInit g) v 0, q := [v] }
    [QueueCall.insert [] v]

/-- Modelled from the spec: `extractMin` of the queue class, whose source is not part of the
repository sources at hand: it removes and returns the vertex with the smallest `dist`.  This is
the law every queue must obey; which of several smallest vertices comes out is left open. -/
def IsExtractMin (extractMin : Graph W → List Nat → Option (Nat × List Nat)) : Prop :=
  ∀ (g : Graph W) (q : List Nat), q ≠ [] →
    ∃ u rest, extractMin g q = some (u, rest) ∧ (u :: rest).Perm q ∧
      ∀ x ∈ q, (g.mem u).dist ≤ (g.mem x).dist

/-- Modelled from the spec: a queue whose `extractMin` takes, among the vertices with the smallest
`dist`, the one that entered first. -/
def extractMinFirst (g : Graph W) : List Nat → Option (Nat × List Nat)
  | [] => none
  | x :: rest =>
    match extractMinFirst g rest with
    | none => some (x, [])
    | some (y, rest1) =>
      if (g.mem y).dist < (g.mem x).dist then some (y, x :: rest1) else some (x, rest)

end Prim

/-! ## Triangular approximation (lines 100-112 and 172-191) -/

section Triangular
variable [LinearOrderedAddCommMonoid W]

/-- Variables of `Graph::preOrderTraversal`: the memory, and the reference arguments `path` and
`pathNum`. -/
structure PreState (W : Type) where
  g : Graph W
  path : List Int
  pathNum : Nat

/-- Loop over the adjacency of `v` (lines 106-111); `i` is the position of the first edge of the
list in the adjacency, so that `(v, i)` is the pointer to that edge; `rec` is the recursive
call. -/
def preEdgeLoop (rec : Nat → PreState W → Option (PreState W)) (v : Nat) :
    Nat → List (Edge W) → PreState W → Option (PreState W)
  | _, [], st => some st
  | i, edge :: rest, st =>
    let dest := edge.dest
    if (st.g.mem dest).visited = false ∧ (st.g.mem dest).path = some (v, i) then
      match rec dest st with
      | none => none
      | some st1 => preEdgeLoop rec v (i + 1) rest st1
    else preEdgeLoop rec v (i + 1) rest st

/-- Recursive `Graph::preOrderTraversal(v, path, pathNum)`; the first argument bounds the
nesting depth. -/
def preOrderTraversal : Nat → Nat → PreState W → Option (PreState W)
  | 0, _, _ => none
  | fuel + 1, v, st =>
    let g1 := setVisited st.g v true
    match writePath st.path st.pathNum (g1.mem v).id with
    | none => none
    | some path1 =>
      preEdgeLoop (preOrderTraversal fuel) v 0 (g1.mem v).adj
        { g := g1, path := path1, pathNum := st.pathNum + 1 }

/-- Loop of lines 186-188: adds the resolver distance of every consecutive pair of `path` to
`cost`, from left to right, with the addition `add` of the type `double`. -/
def pathCostLoop (add : WithTop W → WithTop W → WithTop W)
    (haversineDistance : Coordinates W → Coordinates W → W) (g : Graph W) :
    WithTop W → List Int → Option (WithTop W)
  | cost, a :: b :: rest =>
    match findVertex g a, findVertex g b with
    | some pa, some pb =>
      pathCostLoop add haversineDistance g
        (add cost ((calculateDistance haversineDistance g pa pb : W) : WithTop W)) (b :: rest)
    | _, _ => none
  | cost, _ => some cost

/-- Entry point `Graph::tspTriangularApproximation(path)`: returned cost, final `path`, final
memory. -/
def tspTriangularApproximation (add : WithTop W → WithTop W → WithTop W)
    (extractMin : Graph W → List Nat → Option (Nat × List Nat))
    (haversineDistance : Coordinates W → Coordinates W → W) (g : Graph W) (path : List Int) :
    Option (WithTop W × List Int × Graph W) :=
  match findVertex g 0 with
  | none => none
  | some origin =>
    match prim extractMin g origin with
    | none => none
    | some g1 =>
      match preOrderTraversal (g1.vertexSet.length + 1) origin
          { g := clearVisited g1, path := path, pathNum := 0 } with
      | none => none
      | some st =>
        match pathCostLoop add haversineDistance st.g 0 (st.path ++ [0]) with
        | none => none
        | some cost => some (cost, st.path ++ [0], st.g)

end Triangular

/-! ## Arithmetic of the type `double` -/

/-- Smallest `e`, at or above the given one and within the fuel, with `x / 2 ^ e < 2 ^ 53`: the
binary exponent of the last of the 53 significant bits that a `double` keeps of the natural
number `x`. -/
def doubleExp : Nat → Nat → Nat → Nat
  | 0, e, _ => e
  | fuel + 1, e, x => if x >>> e < 2 ^ 53 then e else doubleExp fuel (e + 1) x

/-- Rounding of a natural number to the nearest `double` (IEEE 754 binary64, which keeps 53
significant bits), ties going to the even significand; the fuel covers every number below
`2 ^ 1100`. -/
def roundDouble (x : Nat) : Nat :=
  let e := doubleExp 1100 0 x
  if e = 0 then x
  else
    let q := x >>> e
    let r := x - (q <<< e)
    let half := 1 <<< (e - 1)
    if r < half then q <<< e
    else if half < r then (q + 1) <<< e
    else if q % 2 = 0 then q <<< e
    else (q + 1) <<< e

/-- Addition of the type `double` on the doubles that are natural numbers, `INF` standing for
the infinity of the type: the exact sum is rounded to the nearest `double`, and a rounded sum
of `2 ^ 1024` or more is infinity. -/
def doubleAdd : WithTop Nat → WithTop Nat → WithTop Nat
  | some a, some b =>
    if roundDouble (a + b) < 1 <<< 1024 then ((roundDouble (a + b) : Nat) : WithTop Nat) else ⊤
  | _, _ => ⊤

/-! ## Helpers (lines 237-250) -/

/-- Intermediate value `a` of `Graph::haversineDistance`, over a field `R`; the functions `sin`
and `cos` of `<cmath>` and the constant `M_PI` are parameters.  `dLat` and `dLon` are taken from
the coordinates in degrees, before the latitudes are converted to radians. -/
def haversineA {R : Type} [Field R] (sin cos : R → R) (pi : R) (c1 c2 : Coordinates R) : R :=
  let dLat := (c2.latitude - c1.latitude) * pi / 180
  let dLon := (c2.longitude - c1.longitude) * pi / 180
  let lat1 := c1.latitude * pi / 180
  let lat2 := c2.latitude * pi / 180
  (sin (dLat / 2)) ^ 2 + (sin (dLon / 2)) ^ 2 * cos lat1 * cos lat2

/-- Function `Graph::haversineDistance`, over a field `R`; the functions `sin`, `cos`, `asin`
and `sqrt` of `<cmath>` and the constant `M_PI` are parameters. -/
def haversineDistance {R : Type} [Field R] (sin cos asin sqrt : R → R) (pi : R)
    (c1 c2 : Coordinates R) : R :=
  let a := haversineA sin cos pi c1 c2
  let rad := 6371000
  let c := 2 * asin (sqrt a)
  rad * c

/-! ## Test graphs -/

/-- Fresh vertex object: no edges, not visited, `dist = INF`, no path edge. -/
def newVertex (id : Int) (c : Coordinates W) : Vertex W :=
  { id := id, coords := c, adj := [], visited := false, dist := ⊤, path := none }

/-- Memory holding fresh vertices with ids `0, 1, 2, ...` at the addresses `0, 1, 2, ...`, all at
coordinates (0, 0), and an empty vertex map. -/
def freshGraph : Graph ℕ :=
  { mem := fun p => newVertex (p : Int) ⟨0, 0⟩, vertexSet := [] }

/-- Calls `addVertex` for the addresses of the list, in order. -/
def addVertices (g : Graph W) (ps : List Nat) : Graph W :=
  ps.foldl (fun acc p => (addVertex acc p).2) g

/-- Calls `addBidirectionalEdge(findVertex a, findVertex b, w)` for the triples of the list, in
order. -/
def addBidirectionalEdges (g : Graph W) (es : List (Int × Int × W)) : Graph W :=
  es.foldl (fun acc e => (addBidirectionalEdge acc (findVertex acc e.1) (findVertex acc e.2.1) e.2.2).2) g

/-- Calls `addEdge(findVertex a, findVertex b, w)` for the triples of the list, in order. -/
def addEdges (g : Graph W) (es : List (Int × Int × W)) : Graph W :=
  es.foldl (fun acc e => (addEdge acc (findVertex acc e.1) (findVertex acc e.2.1) e.2.2).2) g

/-- Same graph with the entries of the vertex map visited in another order. -/
def withOrder (g : Graph W) (vs : List (Int × Nat)) : Graph W :=
  { g with vertexSet := vs }

/-- Triangle 0, 1, 2 whose edge 1-2 is inserted before the edges at vertex 0. -/
def triangleLate : Graph ℕ :=
  addBidirectionalEdges (addVertices freshGraph [0, 1, 2]) [(1, 2, 1), (0, 1, 1), (0, 2, 1)]

/-- Memory of `triangleLate` at the call of the recursive `tspBacktracking` that is reached along
0, 1, 2: every vertex is marked. -/
def triangleLateMarked : Graph ℕ :=
  setVisited (setVisited (setVisited (clearVisited triangleLate) 0 true) 1 true) 2 true

/-- Chain 0 - 1 - 2: vertex 2 has no edge to vertex 0. -/
def chain3 : Graph ℕ :=
  addBidirectionalEdges (addVertices freshGraph [0, 1, 2]) [(0, 1, 1), (1, 2, 1)]

/-- Memory of `chain3` at the call of the recursive `tspBacktracking` that is reached along
0, 1, 2: every vertex is marked. -/
def chain3Marked : Graph ℕ :=
  setVisited (setVisited (setVisited (clearVisited chain3) 0 true) 1 true) 2 true

/-- Graph on 0, 1, 2, 3 in which vertex 1 is nearer to vertex 0 over vertex 2 than directly, and
vertex 3 has no edge. -/
def detour : Graph ℕ :=
  addBidirectionalEdges (addVertices freshGraph [0, 1, 2, 3]) [(0, 1, 5), (0, 2, 1), (2, 1, 1)]

/-- Two vertices with the edge 0 -> 1 of weight `2 ^ 53` and the edge 1 -> 0 of weight 1: both
weights are doubles, their sum `2 ^ 53 + 1` is not. -/
def lopsided : Graph ℕ :=
  addEdges (addVertices freshGraph [0, 1]) [(0, 1, 9007199254740992), (1, 0, 1)]

/-- Triangle with the weights 0.3 (edge 0-1), 0.1 (edge 0-2) and 0.2 (edge 1-2) as doubles, in
units of `2 ^ -55`, the vertex map being iterated in the order 2, 1, 0.  Rounding to 53
significant bits does not depend on the unit. -/
def tenths : Graph ℕ :=
  withOrder
    (addBidirectionalEdges (addVertices freshGraph [0, 1, 2])
      [(0, 1, 10808639105689190), (0, 2, 3602879701896397), (1, 2, 7205759403792794)])
    [(2, 2), (1, 1), (0, 0)]

/-- Triangle with the weights 0.1 (edge 0-1), 0.2 (edge 1-2) and 0.2 (edge 0-2) as doubles, in
units of `2 ^ -55`. -/
def fifths : Graph ℕ :=
  addBidirectionalEdges (addVertices freshGraph [0, 1, 2])
    [(0, 1, 3602879701896397), (1, 2, 7205759403792794), (0, 2, 7205759403792794)]

/-- Complete graph on 0, 1, 2, 3 of the end-to-end scenario, edges inserted in the order given there. -/
def k4 : Graph ℕ :=
  addBidirectionalEdges (addVertices freshGraph [0, 1, 2, 3])
    [(0, 1, 10), (0, 2, 15), (0, 3, 20), (1, 2, 35), (1, 3, 25), (2, 3, 30)]

/-- Invariant of the vertex map: the keys are pairwise different, and every entry stands under
the id of the vertex it points to, as `addVertex` inserts it. -/
def MapOk (g : Graph W) : Prop :=
  (g.vertexSet.map Prod.fst).Nodup ∧ ∀ kv ∈ g.vertexSet, (g.mem kv.2).id = kv.1

/-- Every edge that leaves a stored vertex leads to a stored vertex. -/
def Closed (g : Graph W) : Prop :=
  ∀ kv ∈ g.vertexSet, ∀ e ∈ (g.mem kv.2).adj, e.dest ∈ g.vertexSet.map Prod.snd

instance (g : Graph W) : Decidable (MapOk g) :=
  inferInstanceAs (Decidable ((g.vertexSet.map Prod.fst).Nodup ∧
    ∀ kv ∈ g.vertexSet, (g.mem kv.2).id = kv.1))

instance (g : Graph W) : Decidable (Closed g) :=
  inferInstanceAs (Decidable (∀ kv ∈ g.vertexSet, ∀ e ∈ (g.mem kv.2).adj,
    e.dest ∈ g.vertexSet.map Prod.snd))

/-- The list `es` has one edge per consecutive pair of the id sequence: the edge for the pair
`a, b` is in the adjacency of the stored vertex with id `a`, and its destination is the stored
vertex with id `b`. -/
def EdgesAlong (g : Graph W) : List Int → List (Edge W) → Prop
  | a :: b :: rest, e :: es =>
    (∃ pa, findVertex g a = some pa ∧ e ∈ (g.mem pa).adj ∧ findVertex g b = some e.dest) ∧
      EdgesAlong g (b :: rest) es
  | [_], [] => True
  | _, _ => False

/-- Hamiltonian cycle through vertex 0: the id sequence starts and ends with 0, without its last
entry it lists every stored id exactly once, and `es` are direct edges joining its consecutive
entries. -/
def IsHamiltonianCycle (g : Graph W) (path : List Int) (es : List (Edge W)) : Prop :=
  path.head? = some 0 ∧ path.getLast? = some 0 ∧
    path.dropLast.Perm (g.vertexSet.map Prod.fst) ∧ EdgesAlong g path es

/-- Total weight of a list of edges. -/
def totalWeight [AddMonoid W] (es : List (Edge W)) : W :=
  (es.map (fun e => e.distance)).sum

/-- The weights of a list of edges added one after the other to `sum`, from left to right, with
the addition `add` of the type `double`: the value the program holds after these additions. -/
def pathSum (add : WithTop W → WithTop W → WithTop W) (sum : WithTop W) (es : List (Edge W)) :
    WithTop W :=
  es.foldl (fun acc e => add acc e.distance) sum

/-- The addition `add` is exact on the values up to `B`: it returns the sum of two values
whenever this sum is at most `B`. -/
def ExactUpTo [Add W] [LE W] (add : WithTop W → WithTop W → WithTop W) (B : W) : Prop :=
  ∀ a b : W, a + b ≤ B → add a b = ((a + b : W) : WithTop W)

/-- Every ordered pair of distinct stored vertices has exactly one direct edge. -/
def Complete (g : Graph W) : Prop :=
  ∀ a ∈ g.vertexSet, ∀ b ∈ g.vertexSet, a.2 ≠ b.2 →
    ((g.mem a.2).adj.filter (fun e => e.dest = b.2)).length = 1

instance (g : Graph W) : Decidable (Complete g) :=
  inferInstanceAs (Decidable (∀ a ∈ g.vertexSet, ∀ b ∈ g.vertexSet, a.2 ≠ b.2 →
    ((g.mem a.2).adj.filter (fun e => e.dest = b.2)).length = 1))

/-- Keys of the map entries whose vertex is marked visited, in iteration order. -/
def visitedKeys (g : Graph W) : List Int :=
  (g.vertexSet.filter (fun kv => (g.mem kv.2).visited)).map Prod.fst

/-- Keys of the map entries whose vertex is not marked visited, in iteration order. -/
def unvisitedKeys (g : Graph W) : List Int :=
  (g.vertexSet.filter (fun kv => !(g.mem kv.2).visited)).map Prod.fst

/-- Vertex `p` is a candidate of `findNearestNeighbour(source)`: its id differs from the id of
`source`, and it is not visited. -/
def Candidate (g : Graph W) (source p : Nat) : Prop :=
  (g.mem p).id ≠ (g.mem source).id ∧ (g.mem p).visited = false

instance (g : Graph W) (source p : Nat) : Decidable (Candidate g source p) :=
  inferInstanceAs (Decidable ((g.mem p).id ≠ (g.mem source).id ∧ (g.mem p).visited = false))

/-- The two memories differ in scratch fields (`visited`, `dist`, `path`) only. -/
def SameShape (g g1 : Graph W) : Prop :=
  g1.vertexSet = g.vertexSet ∧
    ∀ p, (g1.mem p).id = (g.mem p).id ∧ (g1.mem p).adj = (g.mem p).adj ∧
      (g1.mem p).coords = (g.mem p).coords

/-- Invariant of the loop of `tspNearestNeighbour` with `n` iterations left, `g` being the graph
at the call: only visited marks changed; `path` lists the visited ids; `n` vertices are not
visited; the current vertex is visited, stored, and its id is the last entry of `path`; `path`
starts with 0; and, in a complete graph, `sum` is what the weights of direct edges along `path`
give when added to 0 one after the other. -/
structure NnInv (add : WithTop W → WithTop W → WithTop W) (g : Graph W) [AddMonoid W] (n : Nat)
    (st : NnState W) : Prop where
  shape : SameShape g st.g
  perm : st.path.Perm (visitedKeys st.g)
  count : (unvisitedKeys st.g).length = n
  cur : ∃ k, (k, st.v) ∈ g.vertexSet ∧ (st.g.mem st.v).visited = true ∧
    st.path.getLast? = some k
  head : st.path.head? = some 0
  cost : Complete g → ∃ es, EdgesAlong g st.path es ∧ pathSum add 0 es = st.sum

/-- The address `p` belongs to a stored vertex. -/
def Stored (g : Graph W) (p : Nat) : Prop :=
  p ∈ g.vertexSet.map Prod.snd

instance (g : Graph W) (p : Nat) : Decidable (Stored g p) :=
  inferInstanceAs (Decidable (p ∈ g.vertexSet.map Prod.snd))

/-- Vertices that can be reached from `start` along direct edges. -/
inductive Reachable (g : Graph W) (start : Nat) : Nat → Prop
  | refl : Reachable g start start
  | step {a : Nat} {e : Edge W} : Reachable g start a → e ∈ (g.mem a).adj →
      Reachable g start e.dest

/-- Rooted tree given by parent edges: `TreeDepth g start par v n` says that following the
parent edges `par` from `v`, each from its destination to the stored vertex that owns it,
arrives at `start` after `n` edges. -/
inductive TreeDepth (g : Graph W) (start : Nat) (par : Nat → Option EdgePtr) : Nat → Nat → Prop
  | root : TreeDepth g start par start 0
  | node {v a i n : Nat} {e : Edge W} : v ≠ start → par v = some (a, i) →
      (g.mem a).adj[i]? = some e → e.dest = v → Stored g a → TreeDepth g start par a n →
      TreeDepth g start par v (n + 1)

/-- The vertices met when the parent edges `par` are followed from `v`, each from its
destination to the stored vertex that owns it, up to `start`: the list begins with `v` and ends
with `start`. -/
inductive TreeChain (g : Graph W) (start : Nat) (par : Nat → Option EdgePtr) :
    Nat → List Nat → Prop
  | root : TreeChain g start par start [start]
  | node {v a i : Nat} {e : Edge W} {chain : List Nat} : v ≠ start → par v = some (a, i) →
      (g.mem a).adj[i]? = some e → e.dest = v → Stored g a → TreeChain g start par a chain →
      TreeChain g start par v (v :: chain)

/-- Every edge that leaves a stored vertex has an opposite edge of the same weight, as have the
two edges that one call of `addBidirectionalEdge` adds. -/
def Symmetric (g : Graph W) : Prop :=
  ∀ kv ∈ g.vertexSet, ∀ e ∈ (g.mem kv.2).adj,
    ∃ e1 ∈ (g.mem e.dest).adj, e1.dest = kv.2 ∧ e1.distance = e.distance

instance [DecidableEq W] (g : Graph W) : Decidable (Symmetric g) :=
  inferInstanceAs (Decidable (∀ kv ∈ g.vertexSet, ∀ e ∈ (g.mem kv.2).adj,
    ∃ e1 ∈ (g.mem e.dest).adj, e1.dest = kv.2 ∧ e1.distance = e.distance))

/-- Spanning tree of the graph, rooted at `start`: parent edges `par` that lead from every stored
vertex to `start`.  In a graph whose edges come in opposite pairs of equal weight, every
spanning tree is given in this way by the edges that enter each vertex from its parent. -/
def IsSpanningTree (g : Graph W) (start : Nat) (par : Nat → Option EdgePtr) : Prop :=
  ∀ kv ∈ g.vertexSet, ∃ n, TreeDepth g start par kv.2 n

/-- Weight of the edge behind the parent pointer of `p`. -/
def parWeight [Zero W] (g : Graph W) (par : Nat → Option EdgePtr) (p : Nat) : W :=
  match par p with
  | some ep =>
    match (g.mem ep.1).adj[ep.2]? with
    | some e => e.distance
    | none => 0
  | none => 0

/-- Sum of the weights of the parent edges of all stored vertices other than `start`. -/
def treeWeight [AddCommMonoid W] (g : Graph W) (start : Nat) (par : Nat → Option EdgePtr) : W :=
  (g.vertexSet.map (fun kv => if kv.2 = start then 0 else parWeight g par kv.2)).sum

/-- Parent edges recorded so far by `prim`: the `path` edge of every visited vertex. -/
def primPar (g : Graph W) (p : Nat) : Option EdgePtr :=
  if Stored g p ∧ (g.mem p).visited = true then (g.mem p).path else none

section PrimNotions
variable [LinearOrderedAddCommMonoid W]

/-- Invariant of the loops of `prim` on the graph `g0` from `start`.  `pend a j` marks the edges
(owner `a`, position `j`) that the running loop over an adjacency has not inspected yet.  The
queue holds exactly the stored vertices that are not visited and have a finite `dist`; such a
vertex has as `path` an edge that enters it from a visited vertex, with `dist` the weight of that
edge; the `path` edges of the visited vertices form a tree rooted at `start`; every inspected
edge that leaves a visited vertex leads to a visited vertex or to one whose `dist` is at most
the weight of the edge; and, when edges come in opposite pairs and addition can be cancelled,
every spanning tree is matched by one that weighs no more and contains the `path` edges of the
visited vertices. -/
structure PrimInv (g0 : Graph W) (start : Nat) (pend : Nat → Nat → Prop) (st : PrimState W) :
    Prop where
  shape : SameShape g0 st.g
  qNodup : st.q.Nodup
  qSpec : ∀ p, p ∈ st.q ↔
    (Stored g0 p ∧ (st.g.mem p).visited = false ∧ (st.g.mem p).dist ≠ ⊤)
  startPath : (st.g.mem start).path = none ∧ (st.g.mem start).dist = 0
  infPath : ∀ p, Stored g0 p → (st.g.mem p).dist = ⊤ →
    (st.g.mem p).path = none ∧ (st.g.mem p).visited = false
  parent : ∀ p, Stored g0 p → p ≠ start → (st.g.mem p).dist ≠ ⊤ →
    ∃ a i e, (st.g.mem p).path = some (a, i) ∧ (g0.mem a).adj[i]? = some e ∧ e.dest = p ∧
      (st.g.mem p).dist = e.distance ∧ Stored g0 a ∧ (st.g.mem a).visited = true
  tree : ∀ p, Stored g0 p → (st.g.mem p).visited = true →
    ∃ n, TreeDepth g0 start (primPar st.g) p n
  edgeOk : ∀ a, Stored g0 a → (st.g.mem a).visited = true →
    ∀ j e, (g0.mem a).adj[j]? = some e →
      pend a j ∨ (st.g.mem e.dest).visited = true ∨ (st.g.mem e.dest).dist ≤ e.distance
  startVis : (st.g.mem start).visited = true ∨
    (st.q = [start] ∧ ∀ p, Stored g0 p → (st.g.mem p).visited = false)
  promise : Symmetric g0 → (∀ a b c : W, a + c ≤ b + c → a ≤ b) →
    ∀ A, IsSpanningTree g0 start A →
      ∃ B, IsSpanningTree g0 start B ∧ treeWeight g0 start B ≤ treeWeight g0 start A ∧
        ∀ p, Stored g0 p → p ≠ start → (st.g.mem p).visited = true → B p = (st.g.mem p).path

/-- The call of the queue is within the contract of the queue, and the vertices held at the
head of the loop are exactly the stored vertices that are not visited and have a finite `dist`:
`extractMin` is called on a queue that is not empty, `insert` with a vertex the queue does not
hold, `decreaseKey` with a vertex the queue holds. -/
def QueueCall.Legal (g0 : Graph W) : QueueCall W → Prop
  | QueueCall.extractMin st => st.q ≠ [] ∧ st.q.Nodup ∧
      ∀ p, p ∈ st.q ↔ (Stored g0 p ∧ (st.g.mem p).visited = false ∧ (st.g.mem p).dist ≠ ⊤)
  | QueueCall.insert q v => v ∉ q
  | QueueCall.decreaseKey q v => v ∈ q

end PrimNotions

/-- Triangle inequality for the weights of direct edges between three different vertices. -/
def TriangleInequality [Add W] [LE W] (g : Graph W) : Prop :=
  ∀ a ∈ g.vertexSet, ∀ eab ∈ (g.mem a.2).adj, ∀ ebc ∈ (g.mem eab.dest).adj,
    ∀ eac ∈ (g.mem a.2).adj, a.2 ≠ eab.dest → eab.dest ≠ ebc.dest → a.2 ≠ ebc.dest →
      eac.dest = ebc.dest → eac.distance ≤ eab.distance + ebc.distance

instance [LinearOrderedAddCommMonoid W] (g : Graph W) : Decidable (TriangleInequality g) :=
  inferInstanceAs (Decidable (∀ a ∈ g.vertexSet, ∀ eab ∈ (g.mem a.2).adj,
    ∀ ebc ∈ (g.mem eab.dest).adj, ∀ eac ∈ (g.mem a.2).adj, a.2 ≠ eab.dest →
      eab.dest ≠ ebc.dest → a.2 ≠ ebc.dest → eac.dest = ebc.dest →
        eac.distance ≤ eab.distance + ebc.distance))

/-- No edge of a stored vertex has a negative weight. -/
def NonNegative [Zero W] [LE W] (g : Graph W) : Prop :=
  ∀ a ∈ g.vertexSet, ∀ e ∈ (g.mem a.2).adj, 0 ≤ e.distance

instance [LinearOrderedAddCommMonoid W] (g : Graph W) : Decidable (NonNegative g) :=
  inferInstanceAs (Decidable (∀ a ∈ g.vertexSet, ∀ e ∈ (g.mem a.2).adj, 0 ≤ e.distance))

/-- Complete graph with symmetric, non-negative weights that satisfy the triangle inequality. -/
structure Metric [LinearOrderedAddCommMonoid W] (g : Graph W) : Prop where
  complete : Complete g
  symmetric : Symmetric g
  triangle : TriangleInequality g
  nonneg : NonNegative g

/-- Resolver distance between the stored vertices with the ids `a` and `b`. -/
def idDistance [Zero W] (haversineDistance : Coordinates W → Coordinates W → W) (g : Graph W)
    (a b : Int) : W :=
  match findVertex g a, findVertex g b with
  | some pa, some pb => calculateDistance haversineDistance g pa pb
  | _, _ => 0

/-- Sum of the distances `D` between the consecutive entries of a list of ids. -/
def walkCost [AddMonoid W] (D : Int → Int → W) : List Int → W
  | a :: b :: rest => D a b + walkCost D (b :: rest)
  | _ => 0

/-- Last entry of the list `v :: body`. -/
def lastOr (v : Int) (body : List Int) : Int :=
  body.getLast?.getD v

/-- Cost of walking along `v :: body` and back to `v`. -/
def tourCost [AddMonoid W] (D : Int → Int → W) (v : Int) (body : List Int) : W :=
  walkCost D (v :: body) + (if lastOr v body = v then 0 else D (lastOr v body) v)

/-- Weight of the parent edge of the stored vertex with id `k`. -/
def idParWeight [Zero W] (g : Graph W) (par : Nat → Option EdgePtr) (k : Int) : W :=
  match findVertex g k with
  | some p => parWeight g par p
  | none => 0

/-- The entries that `preOrderTraversal` has written from index `n0` on start with the id of
`v`, and walking along them and back to `v` costs at most twice the weight of the parent edges
of the entries after the first. -/
def SegCost [LinearOrderedAddCommMonoid W] (haversineDistance : Coordinates W → Coordinates W → W)
    (g0 : Graph W) (par : Nat → Option EdgePtr) (n0 : Nat) (v : Nat) (st : PreState W) : Prop :=
  ∃ body, (st.path.take st.pathNum).drop n0 = (g0.mem v).id :: body ∧
    tourCost (idDistance haversineDistance g0) (g0.mem v).id body ≤
      (body.map (idParWeight g0 par)).sum + (body.map (idParWeight g0 par)).sum

/-- Invariant of `preOrderTraversal` on the graph `g0` whose `path` edges are `par`: only the
visited marks and the vector changed, the vector keeps its length, and its first `pathNum`
entries list the ids of the visited vertices. -/
structure PreInv (g0 : Graph W) (par : Nat → Option EdgePtr) (st : PreState W) : Prop where
  shape : SameShape g0 st.g
  paths : ∀ p, (st.g.mem p).path = par p
  len : st.path.length = g0.vertexSet.length
  written : (st.path.take st.pathNum).Perm (visitedKeys st.g)
  num : st.pathNum = (visitedKeys st.g).length

/-- What a call of `preOrderTraversal`, or a run of its loop, changes between the states `st` and
`st1`: marks only appear, entries below the old `pathNum` stay, and every vertex marked in
between has all its tree children marked. -/
structure PrePost (g0 : Graph W) (par : Nat → Option EdgePtr) (st st1 : PreState W) : Prop where
  inv : PreInv g0 par st1
  mono : ∀ p, (st.g.mem p).visited = true → (st1.g.mem p).visited = true
  keep : st1.path.take st.pathNum = st.path.take st.pathNum
  numLe : st.pathNum ≤ st1.pathNum
  closed : ∀ p, Stored g0 p → (st1.g.mem p).visited = true → (st.g.mem p).visited = false →
    ∀ i e, (g0.mem p).adj[i]? = some e → par e.dest = some (p, i) →
      (st1.g.mem e.dest).visited = true

section BacktrackingNotions
variable [LinearOrderedAddCommMonoid W]

/-- Part of a complete tour that a call of the recursive `tspBacktracking` has written: `path`
is untouched below index `step`, from there on it lists the ids that were not visited at the
call, and direct edges lead from the current vertex `uid` through these ids and on to vertex 0,
their weights adding up, on top of `sum`, to `bestSum`. -/
def BtTail (add : WithTop W → WithTop W → WithTop W) (g : Graph W) (path0 : List Int)
    (uid : Int) (sum : WithTop W) (step : Nat) (st : BtState W) : Prop :=
  st.path.take step = path0.take step ∧ (st.path.drop step).Perm (unvisitedKeys g) ∧
    ∃ es, EdgesAlong g (uid :: st.path.drop step ++ [0]) es ∧ pathSum add sum es = st.bestSum

/-- What a call of the recursive `tspBacktracking` on memory `g`, vector `path0`, current id
`uid` and the arguments `sum`, `best`, `step` leaves behind: the memory as it was, a vector of
the same length, which is a complete tour when the returned value beats `best` and is untouched
otherwise. -/
structure BtPost (add : WithTop W → WithTop W → WithTop W) (g : Graph W) (path0 : List Int)
    (uid : Int) (sum : WithTop W) (best : WithTop W) (step : Nat) (st : BtState W) : Prop where
  mem : st.g = g
  len : st.path.length = path0.length
  improved : st.bestSum < best → BtTail add g path0 uid sum step st
  same : ¬ st.bestSum < best → st.path = path0

/-- Invariant of the two loops of the recursive `tspBacktracking`: the postcondition, and
`bestSum` has not grown. -/
structure BtInv (add : WithTop W → WithTop W → WithTop W) (g : Graph W) (path0 : List Int)
    (uid : Int) (sum : WithTop W) (best : WithTop W) (step : Nat) (st : BtState W)
    extends BtPost add g path0 uid sum best step st : Prop where
  le : st.bestSum ≤ best

end BacktrackingNotions

/-! # Properties -/

/-! ## Setters and the shape of the graph -/

@[simp] theorem setVisited_vertexSet (g : Graph W) (p : Nat) (b : Bool) :
    (setVisited g p b).vertexSet = g.vertexSet := rfl

@[simp] theorem setVisited_id (g : Graph W) (p : Nat) (b : Bool) (q : Nat) :
    ((setVisited g p b).mem q).id = (g.mem q).id := by
  unfold setVisited
  by_cases h : q = p
  · subst h; simp
  · simp [Function.update_noteq h]

@[simp] theorem setVisited_adj (g : Graph W) (p : Nat) (b : Bool) (q : Nat) :
    ((setVisited g p b).mem q).adj = (g.mem q).adj := by
  unfold setVisited
  by_cases h : q = p
  · subst h; simp
  · simp [Function.update_noteq h]

@[simp] theorem setVisited_coords (g : Graph W) (p : Nat) (b : Bool) (q : Nat) :
    ((setVisited g p b).mem q).coords = (g.mem q).coords := by
  unfold setVisited
  by_cases h : q = p
  · subst h; simp
  · simp [Function.update_noteq h]

@[simp] theorem setVisited_dist (g : Graph W) (p : Nat) (b : Bool) (q : Nat) :
    ((setVisited g p b).mem q).dist = (g.mem q).dist := by
  unfold setVisited
  by_cases h : q = p
  · subst h; simp
  · simp [Function.update_noteq h]

@[simp] theorem setVisited_path (g : Graph W) (p : Nat) (b : Bool) (q : Nat) :
    ((setVisited g p b).mem q).path = (g.mem q).path := by
  unfold setVisited
  by_cases h : q = p
  · subst h; simp
  · simp [Function.update_noteq h]

theorem setVisited_visited (g : Graph W) (p : Nat) (b : Bool) (q : Nat) :
    ((setVisited g p b).mem q).visited = if q = p then b else (g.mem q).visited := by
  unfold setVisited
  by_cases h : q = p
  · subst h; simp
  · simp [Function.update_noteq h, h]

@[simp] theorem setVisited_visited_self (g : Graph W) (p : Nat) (b : Bool) :
    ((setVisited g p b).mem p).visited = b := by
  simp [setVisited_visited]

theorem setVisited_visited_other (g : Graph W) (p : Nat) (b : Bool) (q : Nat) (h : q ≠ p) :
    ((setVisited g p b).mem q).visited = (g.mem q).visited := by
  simp [setVisited_visited, h]

@[simp] theorem findVertex_setVisited (g : Graph W) (p : Nat) (b : Bool) (id : Int) :
    findVertex (setVisited g p b) id = findVertex g id := rfl

theorem setVisited_undo (g : Graph W) (p : Nat) (h : (g.mem p).visited = false) :
    setVisited (setVisited g p true) p false = g := by
  unfold setVisited
  cases g with
  | mk mem vs =>
    simp only [Function.update_same, Function.update_idem, Graph.mk.injEq, and_true]
    funext q
    by_cases hq : q = p
    · subst hq
      simp only [Function.update_same]
      simp only at h
      cases hm : mem q with
      | mk id c adj vis d pa =>
        rw [hm] at h
        simp only at h
        simp [h]
    · simp [Function.update_noteq hq]

theorem SameShape.same (g : Graph W) : SameShape g g :=
  ⟨rfl, fun _ => ⟨rfl, rfl, rfl⟩⟩

theorem SameShape.comp {g g1 g2 : Graph W} (h1 : SameShape g g1) (h2 : SameShape g1 g2) :
    SameShape g g2 :=
  ⟨h2.1.trans h1.1, fun p =>
    ⟨((h2.2 p).1).trans (h1.2 p).1, ((h2.2 p).2.1).trans (h1.2 p).2.1,
      ((h2.2 p).2.2).trans (h1.2 p).2.2⟩⟩

theorem SameShape.of_setVisited (g : Graph W) (p : Nat) (b : Bool) :
    SameShape g (setVisited g p b) :=
  ⟨rfl, fun q => ⟨by simp, by simp, by simp⟩⟩

theorem SameShape.findVertex_eq {g g1 : Graph W} (h : SameShape g g1) (id : Int) :
    findVertex g1 id = findVertex g id := by
  unfold RoutingAlgorithms.findVertex
  rw [h.1]

theorem SameShape.mapOk {g g1 : Graph W} (h : SameShape g g1) (hm : MapOk g) : MapOk g1 := by
  refine ⟨by rw [h.1]; exact hm.1, fun kv hkv => ?_⟩
  rw [(h.2 kv.2).1]
  exact hm.2 kv (by rw [← h.1]; exact hkv)

theorem clearVisited_aux (vs : List (Int × Nat)) (g : Graph W) :
    SameShape g (vs.foldl (fun acc v => setVisited acc v.2 false) g) ∧
    ∀ p, ((vs.foldl (fun acc v => setVisited acc v.2 false) g).mem p).visited =
      if p ∈ vs.map Prod.snd then false else (g.mem p).visited := by
  induction vs generalizing g with
  | nil => exact ⟨SameShape.same g, fun p => by simp⟩
  | cons v vs ih =>
    obtain ⟨h1, h2⟩ := ih (setVisited g v.2 false)
    refine ⟨(SameShape.of_setVisited g v.2 false).comp h1, fun p => ?_⟩
    simp only [List.foldl_cons, List.map_cons, List.mem_cons]
    rw [h2 p]
    by_cases hp : p ∈ vs.map Prod.snd
    · simp [hp]
    · by_cases hpv : p = v.2
      · simp [hpv]
      · simp [hp, hpv, setVisited_visited]

theorem clearVisited_sameShape (g : Graph W) : SameShape g (clearVisited g) :=
  (clearVisited_aux g.vertexSet g).1

theorem clearVisited_visited (g : Graph W) (kv : Int × Nat) (h : kv ∈ g.vertexSet) :
    ((clearVisited g).mem kv.2).visited = false := by
  have := (clearVisited_aux g.vertexSet g).2 kv.2
  unfold clearVisited
  rw [this]
  have hmem : kv.2 ∈ g.vertexSet.map Prod.snd := List.mem_map_of_mem _ h
  simp [hmem]


@[simp] theorem setDist_vertexSet (g : Graph W) (p : Nat) (d : WithTop W) :
    (setDist g p d).vertexSet = g.vertexSet := rfl

@[simp] theorem setDist_id (g : Graph W) (p : Nat) (d : WithTop W) (q : Nat) :
    ((setDist g p d).mem q).id = (g.mem q).id := by
  unfold setDist
  by_cases h : q = p
  · subst h; simp
  · simp [Function.update_noteq h]

@[simp] theorem setDist_adj (g : Graph W) (p : Nat) (d : WithTop W) (q : Nat) :
    ((setDist g p d).mem q).adj = (g.mem q).adj := by
  unfold setDist
  by_cases h : q = p
  · subst h; simp
  · simp [Function.update_noteq h]

@[simp] theorem setDist_coords (g : Graph W) (p : Nat) (d : WithTop W) (q : Nat) :
    ((setDist g p d).mem q).coords = (g.mem q).coords := by
  unfold setDist
  by_cases h : q = p
  · subst h; simp
  · simp [Function.update_noteq h]

@[simp] theorem setDist_visited (g : Graph W) (p : Nat) (d : WithTop W) (q : Nat) :
    ((setDist g p d).mem q).visited = (g.mem q).visited := by
  unfold setDist
  by_cases h : q = p
  · subst h; simp
  · simp [Function.update_noteq h]

@[simp] theorem setDist_path (g : Graph W) (p : Nat) (d : WithTop W) (q : Nat) :
    ((setDist g p d).mem q).path = (g.mem q).path := by
  unfold setDist
  by_cases h : q = p
  · subst h; simp
  · simp [Function.update_noteq h]

theorem setDist_dist (g : Graph W) (p : Nat) (d : WithTop W) (q : Nat) :
    ((setDist g p d).mem q).dist = if q = p then d else (g.mem q).dist := by
  unfold setDist
  by_cases h : q = p
  · subst h; simp
  · simp [Function.update_noteq h, h]

@[simp] theorem setPath_vertexSet (g : Graph W) (p : Nat) (x : Option EdgePtr) :
    (setPath g p x).vertexSet = g.vertexSet := rfl

@[simp] theorem setPath_id (g : Graph W) (p : Nat) (x : Option EdgePtr) (q : Nat) :
    ((setPath g p x).mem q).id = (g.mem q).id := by
  unfold setPath
  by_cases h : q = p
  · subst h; simp
  · simp [Function.update_noteq h]

@[simp] theorem setPath_adj (g : Graph W) (p : Nat) (x : Option EdgePtr) (q : Nat) :
    ((setPath g p x).mem q).adj = (g.mem q).adj := by
  unfold setPath
  by_cases h : q = p
  · subst h; simp
  · simp [Function.update_noteq h]

@[simp] theorem setPath_coords (g : Graph W) (p : Nat) (x : Option EdgePtr) (q : Nat) :
    ((setPath g p x).mem q).coords = (g.mem q).coords := by
  unfold setPath
  by_cases h : q = p
  · subst h; simp
  · simp [Function.update_noteq h]

@[simp] theorem setPath_visited (g : Graph W) (p : Nat) (x : Option EdgePtr) (q : Nat) :
    ((setPath g p x).mem q).visited = (g.mem q).visited := by
  unfold setPath
  by_cases h : q = p
  · subst h; simp
  · simp [Function.update_noteq h]

@[simp] theorem setPath_dist (g : Graph W) (p : Nat) (x : Option EdgePtr) (q : Nat) :
    ((setPath g p x).mem q).dist = (g.mem q).dist := by
  unfold setPath
  by_cases h : q = p
  · subst h; simp
  · simp [Function.update_noteq h]

theorem setPath_path (g : Graph W) (p : Nat) (x : Option EdgePtr) (q : Nat) :
    ((setPath g p x).mem q).path = if q = p then x else (g.mem q).path := by
  unfold setPath
  by_cases h : q = p
  · subst h; simp
  · simp [Function.update_noteq h, h]

theorem SameShape.of_setDist (g : Graph W) (p : Nat) (d : WithTop W) :
    SameShape g (setDist g p d) :=
  ⟨rfl, fun q => ⟨by simp, by simp, by simp⟩⟩

theorem SameShape.of_setPath (g : Graph W) (p : Nat) (x : Option EdgePtr) :
    SameShape g (setPath g p x) :=
  ⟨rfl, fun q => ⟨by simp, by simp, by simp⟩⟩

theorem SameShape.stored_iff {g g1 : Graph W} (h : SameShape g g1) (p : Nat) :
    Stored g1 p ↔ Stored g p := by
  unfold Stored
  rw [h.1]

theorem SameShape.closed {g g1 : Graph W} (h : SameShape g g1) (hc : Closed g) : Closed g1 := by
  intro kv hkv e he
  rw [h.1] at hkv ⊢
  rw [(h.2 kv.2).2.1] at he
  exact hc kv hkv e he

theorem Stored.exists {g : Graph W} {p : Nat} (h : Stored g p) :
    ∃ kv ∈ g.vertexSet, kv.2 = p := by
  obtain ⟨kv, hkv, hp⟩ := List.mem_map.mp h
  exact ⟨kv, hkv, hp⟩

theorem Stored.of_mem {g : Graph W} {kv : Int × Nat} (h : kv ∈ g.vertexSet) : Stored g kv.2 :=
  List.mem_map_of_mem _ h

theorem Closed.stored {g : Graph W} (hc : Closed g) {p : Nat} (hp : Stored g p) {e : Edge W}
    (he : e ∈ (g.mem p).adj) : Stored g e.dest := by
  obtain ⟨kv, hkv, rfl⟩ := hp.exists
  exact hc kv hkv e he

/-! ## The vertex map and the visited marks -/

theorem lookup_mem (l : List (Int × Nat)) (id : Int) (p : Nat) (h : l.lookup id = some p) :
    (id, p) ∈ l := by
  induction l with
  | nil => simp [List.lookup] at h
  | cons kv rest ih =>
    obtain ⟨k, q⟩ := kv
    by_cases hk : id = k
    · subst hk
      simp [List.lookup] at h
      simp [h]
    · have : (id == k) = false := by simpa using hk
      simp only [List.lookup, this] at h
      exact List.mem_cons_of_mem _ (ih h)

theorem lookup_of_nodup (l : List (Int × Nat)) (hnd : (l.map Prod.fst).Nodup)
    (kv : Int × Nat) (h : kv ∈ l) : l.lookup kv.1 = some kv.2 := by
  induction l with
  | nil => simp at h
  | cons x rest ih =>
    obtain ⟨k, q⟩ := x
    simp only [List.map_cons, List.nodup_cons] at hnd
    rcases List.mem_cons.mp h with h1 | h1
    · subst h1; simp [List.lookup]
    · have hne : kv.1 ≠ k := by
        intro hk
        exact hnd.1 (hk ▸ List.mem_map_of_mem Prod.fst h1)
      have : (kv.1 == k) = false := by simpa using hne
      simp only [List.lookup, this]
      exact ih hnd.2 h1

theorem findVertex_mem (g : Graph W) (id : Int) (p : Nat) (h : findVertex g id = some p) :
    (id, p) ∈ g.vertexSet :=
  lookup_mem g.vertexSet id p h

theorem MapOk.findVertex_entry {g : Graph W} (hm : MapOk g) (kv : Int × Nat)
    (h : kv ∈ g.vertexSet) : findVertex g kv.1 = some kv.2 :=
  lookup_of_nodup g.vertexSet hm.1 kv h

theorem MapOk.ptr_inj {g : Graph W} (hm : MapOk g) (a b : Int × Nat) (ha : a ∈ g.vertexSet)
    (hb : b ∈ g.vertexSet) (h : a.2 = b.2) : a = b := by
  have hk : a.1 = b.1 := by rw [← hm.2 a ha, ← hm.2 b hb, h]
  exact Prod.ext hk h

theorem MapOk.nodup {g : Graph W} (hm : MapOk g) : g.vertexSet.Nodup :=
  List.Nodup.of_map Prod.fst hm.1

theorem filter_flip_perm {α : Type} [DecidableEq α] (l : List α) (hnd : l.Nodup) (a : α)
    (ha : a ∈ l) (P Q : α → Bool) (hQ : Q a = true) (hP : P a = false)
    (hrest : ∀ x ∈ l, x ≠ a → Q x = P x) : (l.filter Q).Perm (a :: l.filter P) := by
  induction l with
  | nil => simp at ha
  | cons x l ih =>
    rw [List.nodup_cons] at hnd
    by_cases hx : x = a
    · subst hx
      have hsame : l.filter Q = l.filter P := by
        apply List.filter_congr
        intro y hy
        exact hrest y (List.mem_cons_of_mem _ hy) (fun h => hnd.1 (h ▸ hy))
      simp [List.filter_cons, hQ, hP, hsame]
    · have hal : a ∈ l := by
        rcases List.mem_cons.mp ha with h | h
        · exact absurd h.symm hx
        · exact h
      have ih1 := ih hnd.2 hal (fun y hy => hrest y (List.mem_cons_of_mem _ hy))
      have hxe := hrest x (List.mem_cons_self _ _) hx
      cases hpx : P x with
      | true =>
        rw [hpx] at hxe
        simp only [List.filter_cons, hxe, hpx, if_true]
        exact (List.Perm.cons x ih1).trans (List.Perm.swap a x _)
      | false =>
        rw [hpx] at hxe
        simp only [List.filter_cons, hxe, hpx]
        simpa using ih1

theorem unvisitedKeys_mark (g : Graph W) (hm : MapOk g) (kv : Int × Nat)
    (hkv : kv ∈ g.vertexSet) (hv : (g.mem kv.2).visited = false) :
    (unvisitedKeys g).Perm (kv.1 :: unvisitedKeys (setVisited g kv.2 true)) := by
  unfold unvisitedKeys
  have := filter_flip_perm g.vertexSet hm.nodup kv hkv
    (fun x => !((setVisited g kv.2 true).mem x.2).visited) (fun x => !(g.mem x.2).visited)
    (by simp [hv]) (by simp)
    (by
      intro x hmem hx
      have hne : x.2 ≠ kv.2 := fun h => hx (hm.ptr_inj x kv hmem hkv h)
      simp [setVisited_visited, hne])
  simpa using this.map Prod.fst

theorem visitedKeys_mark (g : Graph W) (hm : MapOk g) (kv : Int × Nat)
    (hkv : kv ∈ g.vertexSet) (hv : (g.mem kv.2).visited = false) :
    (visitedKeys (setVisited g kv.2 true)).Perm (kv.1 :: visitedKeys g) := by
  unfold visitedKeys
  have := filter_flip_perm g.vertexSet hm.nodup kv hkv
    (fun x => (g.mem x.2).visited) (fun x => ((setVisited g kv.2 true).mem x.2).visited)
    (by simp) (by simp [hv])
    (by
      intro x hmem hx
      have hne : x.2 ≠ kv.2 := fun h => hx (hm.ptr_inj x kv hmem hkv h)
      simp [setVisited_visited, hne])
  simpa using this.map Prod.fst

theorem unvisitedKeys_congr (g g1 : Graph W) (hv : g1.vertexSet = g.vertexSet)
    (h : ∀ p, (g1.mem p).visited = (g.mem p).visited) : unvisitedKeys g1 = unvisitedKeys g := by
  unfold unvisitedKeys
  rw [hv]
  congr 1
  apply List.filter_congr
  intro x _
  rw [h]

theorem visitedKeys_congr (g g1 : Graph W) (hv : g1.vertexSet = g.vertexSet)
    (h : ∀ p, (g1.mem p).visited = (g.mem p).visited) : visitedKeys g1 = visitedKeys g := by
  unfold visitedKeys
  rw [hv]
  congr 1
  apply List.filter_congr
  intro x _
  rw [h]

theorem visitedKeys_unvisitedKeys_length (g : Graph W) :
    (visitedKeys g).length + (unvisitedKeys g).length = g.vertexSet.length := by
  unfold visitedKeys unvisitedKeys
  simp only [List.length_map]
  induction g.vertexSet with
  | nil => rfl
  | cons x l ih =>
    cases h : (g.mem x.2).visited <;> simp [List.filter_cons, h] <;> omega

theorem visitedKeys_all (g : Graph W) (h : unvisitedKeys g = []) :
    visitedKeys g = g.vertexSet.map Prod.fst := by
  unfold visitedKeys unvisitedKeys at *
  congr 1
  rw [List.filter_eq_self]
  intro a ha
  by_contra hc
  have : a ∈ g.vertexSet.filter (fun kv => !(g.mem kv.2).visited) := by
    simp [List.mem_filter, ha, hc]
  simp only [List.map_eq_nil_iff] at h
  rw [h] at this
  simp at this


/-! ## Graph store -/

theorem findVertex_append_single (g : Graph W) (k : Int) (p : Nat) (id : Int) :
    findVertex { g with vertexSet := g.vertexSet ++ [(k, p)] } id =
      (findVertex g id).or (if id = k then some p else none) := by
  unfold findVertex
  simp only
  induction g.vertexSet with
  | nil =>
    by_cases h : id = k
    · subst h; simp [List.lookup]
    · have : (id == k) = false := by simpa using h
      simp [List.lookup, this, h]
  | cons kv rest ih =>
    obtain ⟨k1, p1⟩ := kv
    by_cases h : id = k1
    · subst h; simp [List.lookup]
    · have : (id == k1) = false := by simpa using h
      simp [List.lookup, this, ih]

/-- Claim C10: `addVertex(v)` returns true exactly when no vertex is stored under the id of `v`;
when it returns false nothing changes; when it returns true the vertex map has one entry more,
`findVertex` of the id of `v` gives `v`, and `findVertex` of every other id gives what it gave
before. -/
theorem addVertex_spec (g : Graph W) (v : Nat) :
    ((addVertex g v).1 = true ↔ findVertex g (g.mem v).id = none) ∧
    ((addVertex g v).1 = false → (addVertex g v).2 = g) ∧
    ((addVertex g v).1 = true →
      (addVertex g v).2.vertexSet.length = g.vertexSet.length + 1 ∧
      findVertex (addVertex g v).2 (g.mem v).id = some v ∧
      ∀ id, id ≠ (g.mem v).id → findVertex (addVertex g v).2 id = findVertex g id) := by
  unfold addVertex
  cases h : findVertex g (g.mem v).id with
  | some p => simp
  | none =>
    simp only [Option.isSome_none, Bool.false_eq_true, if_false, true_iff, true_and,
      false_implies, forall_true_left, reduceCtorEq]
    refine ⟨by simp, ?_, ?_⟩
    · rw [findVertex_append_single, h]; simp
    · intro id hid
      rw [findVertex_append_single]
      simp [hid]

/-- Insertion with `addVertex` keeps the invariant of the vertex map. -/
theorem addVertex_mapOk (g : Graph W) (v : Nat) (h : MapOk g) : MapOk (addVertex g v).2 := by
  unfold addVertex
  cases hf : findVertex g (g.mem v).id with
  | some p => simpa using h
  | none =>
    simp only [Option.isSome_none, Bool.false_eq_true, if_false]
    refine ⟨?_, ?_⟩
    · simp only [List.map_append, List.map_cons, List.map_nil]
      rw [List.nodup_append]
      refine ⟨h.1, List.nodup_singleton _, ?_⟩
      intro k hk hk1
      rw [List.mem_singleton] at hk1
      obtain ⟨kv, hkv, hkk⟩ := List.mem_map.mp hk
      have := h.findVertex_entry kv hkv
      rw [hkk, hk1, hf] at this
      exact absurd this (by simp)
    · intro kv hkv
      rcases List.mem_append.mp hkv with h1 | h1
      · exact h.2 kv h1
      · rw [List.mem_singleton] at h1
        rw [h1]

/-- Insertion of a vertex without edges keeps the edges of stored vertices among stored
vertices. -/
theorem addVertex_closed (g : Graph W) (v : Nat) (hv : (g.mem v).adj = []) (h : Closed g) :
    Closed (addVertex g v).2 := by
  unfold addVertex
  split
  · exact h
  · intro kv hkv e he
    simp only [List.map_append, List.mem_append]
    rcases List.mem_append.mp hkv with h1 | h1
    · exact Or.inl (h kv h1 e he)
    · rw [List.mem_singleton] at h1
      rw [h1] at he
      simp only [hv, List.not_mem_nil] at he

/-- Insertion of a vertex without edges keeps the edges in opposite pairs. -/
theorem addVertex_symmetric (g : Graph W) (v : Nat) (hv : (g.mem v).adj = [])
    (h : Symmetric g) : Symmetric (addVertex g v).2 := by
  unfold addVertex
  split
  · exact h
  · intro kv hkv e he
    rcases List.mem_append.mp hkv with h1 | h1
    · exact h kv h1 e he
    · rw [List.mem_singleton] at h1
      rw [h1] at he
      simp only [hv, List.not_mem_nil] at he

theorem map_modify_reverse (l : List (Edge W)) (r : Option EdgePtr) (n : Nat) :
    (l.modify (fun ed => { ed with reverse := r }) n).map (fun e => (e.dest, e.distance)) =
      l.map (fun e => (e.dest, e.distance)) := by
  apply List.ext_getElem?
  intro i
  simp only [List.getElem?_map, List.getElem?_modify]
  cases l[i]? with
  | none => rfl
  | some a => by_cases h : n = i <;> simp [h]

/-- Setter `setReverse` changes neither destinations nor weights. -/
theorem setReverse_keys (g : Graph W) (e : EdgePtr) (r : Option EdgePtr) (p : Nat) :
    ((setReverse g e r).mem p).adj.map (fun e => (e.dest, e.distance)) =
      (g.mem p).adj.map (fun e => (e.dest, e.distance)) := by
  unfold setReverse
  by_cases h : p = e.1
  · subst h
    simp only [Function.update_same]
    exact map_modify_reverse _ _ _
  · simp only [Function.update_noteq h]

/-- One call of `Vertex::addEdge` appends one edge to the adjacency of `v1`. -/
theorem vertexAddEdge_keys (g : Graph W) (v1 v2 : Nat) (w : W) (p : Nat) :
    (((vertexAddEdge g v1 v2 w).2).mem p).adj.map (fun e => (e.dest, e.distance)) =
      (g.mem p).adj.map (fun e => (e.dest, e.distance)) ++
        (if p = v1 then [(v2, w)] else []) := by
  unfold vertexAddEdge
  by_cases h : p = v1
  · subst h
    simp
  · simp [Function.update_noteq h, h]

/-- Destinations and weights after `addBidirectionalEdge` on two vertex objects: the edge
`p1 -> p2` is appended to the adjacency of `p1`, the edge `p2 -> p1` to that of `p2`. -/
theorem addBidirectionalEdge_keys (g : Graph W) (p1 p2 : Nat) (w : W) (p : Nat) :
    (((addBidirectionalEdge g (some p1) (some p2) w).2).mem p).adj.map
        (fun e => (e.dest, e.distance)) =
      (g.mem p).adj.map (fun e => (e.dest, e.distance)) ++
        (if p = p1 then [(p2, w)] else []) ++ (if p = p2 then [(p1, w)] else []) := by
  simp only [addBidirectionalEdge]
  rw [setReverse_keys, setReverse_keys, vertexAddEdge_keys, vertexAddEdge_keys]

theorem setReverse_id (g : Graph W) (e : EdgePtr) (r : Option EdgePtr) (p : Nat) :
    ((setReverse g e r).mem p).id = (g.mem p).id := by
  unfold setReverse
  by_cases h : p = e.1
  · subst h
    simp only [Function.update_same]
  · simp only [Function.update_noteq h]

theorem vertexAddEdge_id (g : Graph W) (v1 v2 : Nat) (w : W) (p : Nat) :
    (((vertexAddEdge g v1 v2 w).2).mem p).id = (g.mem p).id := by
  unfold vertexAddEdge
  by_cases h : p = v1
  · subst h
    simp only [Function.update_same]
  · simp only [Function.update_noteq h]

/-- Mutator `addBidirectionalEdge` leaves the vertex map and the ids alone. -/
theorem addBidirectionalEdge_frame (g : Graph W) (v1 v2 : Option Nat) (w : W) :
    (addBidirectionalEdge g v1 v2 w).2.vertexSet = g.vertexSet ∧
      ∀ p, ((addBidirectionalEdge g v1 v2 w).2.mem p).id = (g.mem p).id := by
  cases v1 with
  | none => exact ⟨rfl, fun _ => rfl⟩
  | some p1 =>
    cases v2 with
    | none => exact ⟨rfl, fun _ => rfl⟩
    | some p2 =>
      refine ⟨rfl, fun p => ?_⟩
      simp only [addBidirectionalEdge]
      rw [setReverse_id, setReverse_id, vertexAddEdge_id, vertexAddEdge_id]

theorem mem_keys {l : List (Edge W)} {a : Nat} {d : W} :
    (a, d) ∈ l.map (fun e => (e.dest, e.distance)) ↔ ∃ e ∈ l, e.dest = a ∧ e.distance = d := by
  simp only [List.mem_map, Prod.mk.injEq]

/-- Well-formedness is kept by `addBidirectionalEdge` between stored vertices: the vertex map
stays as it is, edges of stored vertices lead to stored vertices, and edges come in opposite
pairs of equal weight. -/
theorem addBidirectionalEdge_wellFormed (g : Graph W) (v1 v2 : Option Nat) (w : W)
    (h1 : ∀ p, v1 = some p → Stored g p) (h2 : ∀ p, v2 = some p → Stored g p)
    (hm : MapOk g) (hc : Closed g) (hs : Symmetric g) :
    MapOk (addBidirectionalEdge g v1 v2 w).2 ∧ Closed (addBidirectionalEdge g v1 v2 w).2 ∧
      Symmetric (addBidirectionalEdge g v1 v2 w).2 := by
  obtain ⟨hv, hid⟩ := addBidirectionalEdge_frame g v1 v2 w
  cases v1 with
  | none => exact ⟨hm, hc, hs⟩
  | some p1 =>
    cases v2 with
    | none => exact ⟨hm, hc, hs⟩
    | some p2 =>
      have hk := addBidirectionalEdge_keys g p1 p2 w
      have hp1 := h1 p1 rfl
      have hp2 := h2 p2 rfl
      refine ⟨⟨by rw [hv]; exact hm.1, fun kv hkv => ?_⟩, fun kv hkv e he => ?_,
        fun kv hkv e he => ?_⟩
      · rw [hid]
        exact hm.2 kv (by rw [← hv]; exact hkv)
      · rw [hv] at hkv ⊢
        have hmem := List.mem_map_of_mem (fun e => (e.dest, e.distance)) he
        rw [hk, List.mem_append, List.mem_append] at hmem
        rcases hmem with (hmem | hmem) | hmem
        · obtain ⟨e0, he0, hd, _⟩ := mem_keys.mp hmem
          rw [← hd]
          exact hc kv hkv e0 he0
        · split_ifs at hmem with hq
          · rw [List.mem_singleton, Prod.mk.injEq] at hmem
            rw [hmem.1]
            exact hp2
          · exact absurd hmem (List.not_mem_nil _)
        · split_ifs at hmem with hq
          · rw [List.mem_singleton, Prod.mk.injEq] at hmem
            rw [hmem.1]
            exact hp1
          · exact absurd hmem (List.not_mem_nil _)
      · rw [hv] at hkv
        have hmem := List.mem_map_of_mem (fun e => (e.dest, e.distance)) he
        apply mem_keys.mp
        rw [hk, List.mem_append, List.mem_append] at hmem ⊢
        rcases hmem with (hmem | hmem) | hmem
        · obtain ⟨e0, he0, hd, hw⟩ := mem_keys.mp hmem
          obtain ⟨e1, he1, hd1, hw1⟩ := hs kv hkv e0 he0
          rw [← hd, ← hw]
          exact Or.inl (Or.inl (mem_keys.mpr ⟨e1, he1, hd1, hw1⟩))
        · split_ifs at hmem with hq
          · rw [List.mem_singleton, Prod.mk.injEq] at hmem
            rw [hmem.1, hmem.2, hq]
            exact Or.inr (by simp)
          · exact absurd hmem (List.not_mem_nil _)
        · split_ifs at hmem with hq
          · rw [List.mem_singleton, Prod.mk.injEq] at hmem
            rw [hmem.1, hmem.2, hq]
            exact Or.inl (Or.inr (by simp))
          · exact absurd hmem (List.not_mem_nil _)

/-- Witness for claim C10: a fresh id is accepted, a second vertex object with a stored id is
refused. -/
theorem addVertex_spec_witness :
    ((addVertex (freshGraph) 5).1 = true ∧
      findVertex (addVertex (freshGraph) 5).2 5 = some 5) ∧
    ((addVertex (addVertices freshGraph [0, 1]) 1).1 = false ∧
      (addVertex (addVertices freshGraph [0, 1]) 1).2 = addVertices freshGraph [0, 1]) :=
  ⟨⟨by decide, ((addVertex_spec freshGraph 5).2.2 (by decide)).2.1⟩,
   ⟨by decide, (addVertex_spec (addVertices freshGraph [0, 1]) 1).2.1 (by decide)⟩⟩

/-! ## Distance resolver -/

theorem calculateDistanceLoop_first (v2 : Nat) (pre : List (Edge W)) (e : Edge W)
    (post : List (Edge W)) (hpre : ∀ x ∈ pre, x.dest ≠ v2) (he : e.dest = v2) :
    calculateDistanceLoop v2 (pre ++ e :: post) = some e.distance := by
  induction pre with
  | nil => simp [calculateDistanceLoop, he]
  | cons x pre ih =>
    have hx : x.dest ≠ v2 := hpre x (by simp)
    simp only [List.cons_append, calculateDistanceLoop, hx, if_false]
    exact ih (fun y hy => hpre y (by simp [hy]))

theorem calculateDistanceLoop_none (v2 : Nat) (adj : List (Edge W))
    (h : ∀ x ∈ adj, x.dest ≠ v2) : calculateDistanceLoop v2 adj = none := by
  induction adj with
  | nil => rfl
  | cons x adj ih =>
    have hx : x.dest ≠ v2 := h x (by simp)
    simp only [calculateDistanceLoop, hx, if_false]
    exact ih (fun y hy => h y (by simp [hy]))

/-- Claim C9: when the adjacency of `v1` has an edge whose destination is `v2`,
`calculateDistance(v1, v2)` is the stored weight of the first such edge in adjacency order,
whatever the coordinates are; when it has none, it is `haversineDistance` of the two
coordinates. -/
theorem calculateDistance_spec (haversineDistance : Coordinates W → Coordinates W → W)
    (g : Graph W) (v1 v2 : Nat) :
    (∀ (pre : List (Edge W)) (e : Edge W) (post : List (Edge W)),
      (g.mem v1).adj = pre ++ e :: post → (∀ x ∈ pre, x.dest ≠ v2) → e.dest = v2 →
      calculateDistance haversineDistance g v1 v2 = e.distance) ∧
    ((∀ x ∈ (g.mem v1).adj, x.dest ≠ v2) →
      calculateDistance haversineDistance g v1 v2 =
        haversineDistance (g.mem v1).coords (g.mem v2).coords) := by
  constructor
  · intro pre e post hadj hpre he
    unfold calculateDistance
    rw [hadj, calculateDistanceLoop_first v2 pre e post hpre he]
  · intro h
    unfold calculateDistance
    rw [calculateDistanceLoop_none v2 _ h]

/-- Witness for claim C9: in the four-vertex scenario the edge 1-3 of weight 25 wins over the
haversine value 7, and two vertices without an edge get the haversine value 7. -/
theorem calculateDistance_spec_witness :
    calculateDistance (fun _ _ => 7) k4 1 3 = 25 ∧
    calculateDistance (fun _ _ => 7) (addVertices freshGraph [0, 1]) 0 1 = 7 :=
  ⟨(calculateDistance_spec (fun _ _ => 7) k4 1 3).1
      [⟨0, 10, some (0, 0)⟩, ⟨2, 35, some (2, 1)⟩] ⟨3, 25, some (3, 1)⟩ [] (by decide)
      (by decide) rfl,
   (calculateDistance_spec (fun _ _ => 7) (addVertices freshGraph [0, 1]) 0 1).2 (by decide)⟩

theorem visitedKeys_clearVisited (g : Graph W) : visitedKeys (clearVisited g) = [] := by
  unfold visitedKeys
  rw [(clearVisited_sameShape g).1]
  have : g.vertexSet.filter (fun kv => ((clearVisited g).mem kv.2).visited) = [] := by
    rw [List.filter_eq_nil_iff]
    intro a ha
    simp [clearVisited_visited g a ha]
  rw [this]
  rfl

theorem unvisitedKeys_clearVisited (g : Graph W) :
    unvisitedKeys (clearVisited g) = g.vertexSet.map Prod.fst := by
  unfold unvisitedKeys
  rw [(clearVisited_sameShape g).1]
  congr 1
  rw [List.filter_eq_self]
  intro a ha
  simp [clearVisited_visited g a ha]

/-- State in which the three solvers start: all marks cleared, then vertex 0 marked. -/
theorem start_marks (g : Graph W) (hm : MapOk g) (v0 : Nat) (h0 : findVertex g 0 = some v0) :
    SameShape g (setVisited (clearVisited g) v0 true) ∧
    (visitedKeys (setVisited (clearVisited g) v0 true)).Perm [0] ∧
    (g.vertexSet.map Prod.fst).Perm (0 :: unvisitedKeys (setVisited (clearVisited g) v0 true)) ∧
    ((setVisited (clearVisited g) v0 true).mem v0).visited = true := by
  have hs := clearVisited_sameShape g
  have hm1 : MapOk (clearVisited g) := hs.mapOk hm
  have hmem : ((0 : Int), v0) ∈ (clearVisited g).vertexSet := by
    rw [hs.1]; exact findVertex_mem g 0 v0 h0
  have hv : ((clearVisited g).mem v0).visited = false :=
    clearVisited_visited g (0, v0) (findVertex_mem g 0 v0 h0)
  refine ⟨hs.comp (SameShape.of_setVisited _ _ _), ?_, ?_, by simp⟩
  · have := visitedKeys_mark (clearVisited g) hm1 (0, v0) hmem hv
    rw [visitedKeys_clearVisited] at this
    exact this
  · have := unvisitedKeys_mark (clearVisited g) hm1 (0, v0) hmem hv
    rw [unvisitedKeys_clearVisited] at this
    exact this

/-! ## Edge sequences -/

theorem SameShape.symm {g g1 : Graph W} (h : SameShape g g1) : SameShape g1 g :=
  ⟨h.1.symm, fun p => ⟨(h.2 p).1.symm, (h.2 p).2.1.symm, (h.2 p).2.2.symm⟩⟩

theorem EdgesAlong.of_sameShape {g g1 : Graph W} (h : SameShape g g1) :
    ∀ (path : List Int) (es : List (Edge W)), EdgesAlong g path es → EdgesAlong g1 path es
  | [], _, he => by simp [EdgesAlong] at he
  | [_], [], _ => by simp [EdgesAlong]
  | [_], _ :: _, he => by simp [EdgesAlong] at he
  | _ :: _ :: _, [], he => by simp [EdgesAlong] at he
  | a :: b :: rest, e :: es, he => by
    simp only [EdgesAlong] at he ⊢
    obtain ⟨⟨pa, h1, h2, h3⟩, h4⟩ := he
    refine ⟨⟨pa, ?_, ?_, ?_⟩, EdgesAlong.of_sameShape h (b :: rest) es h4⟩
    · rw [h.findVertex_eq]; exact h1
    · rw [(h.2 pa).2.1]; exact h2
    · rw [h.findVertex_eq]; exact h3

theorem EdgesAlong.snoc (g : Graph W) (b : Int) (e : Edge W) :
    ∀ (path : List Int) (es : List (Edge W)) (k : Int) (pa : Nat),
      EdgesAlong g path es → path.getLast? = some k → findVertex g k = some pa →
      e ∈ (g.mem pa).adj → findVertex g b = some e.dest →
      EdgesAlong g (path ++ [b]) (es ++ [e])
  | [], _, _, _, he, _, _, _, _ => by simp [EdgesAlong] at he
  | [a], [], k, pa, _, hl, hk, hmem, hb => by
    simp only [List.getLast?_singleton, Option.some.injEq] at hl
    subst hl
    simp only [List.singleton_append, List.nil_append, EdgesAlong, and_true]
    exact ⟨pa, hk, hmem, hb⟩
  | [_], _ :: _, _, _, he, _, _, _, _ => by simp [EdgesAlong] at he
  | _ :: _ :: _, [], _, _, he, _, _, _, _ => by simp [EdgesAlong] at he
  | a :: a1 :: rest, e0 :: es, k, pa, he, hl, hk, hmem, hb => by
    simp only [EdgesAlong] at he
    simp only [List.cons_append, EdgesAlong]
    refine ⟨he.1, ?_⟩
    have := EdgesAlong.snoc g b e (a1 :: rest) es k pa he.2 (by simpa using hl) hk hmem hb
    simpa using this

theorem EdgesAlong.length (g : Graph W) :
    ∀ (path : List Int) (es : List (Edge W)), EdgesAlong g path es →
      es.length + 1 = path.length
  | [], _, he => by simp [EdgesAlong] at he
  | [_], [], _ => rfl
  | [_], _ :: _, he => by simp [EdgesAlong] at he
  | _ :: _ :: _, [], he => by simp [EdgesAlong] at he
  | _ :: b :: rest, _ :: es, he => by
    simp only [EdgesAlong] at he
    have := EdgesAlong.length g (b :: rest) es he.2
    simp only [List.length_cons] at this ⊢
    omega

theorem totalWeight_append [AddMonoid W] (es es1 : List (Edge W)) :
    totalWeight (es ++ es1) = totalWeight es + totalWeight es1 := by
  simp [totalWeight, List.sum_append]

theorem totalWeight_cons [AddMonoid W] (e : Edge W) (es : List (Edge W)) :
    totalWeight (e :: es) = e.distance + totalWeight es := by
  simp [totalWeight]

theorem calculateDistanceLoop_some (v2 : Nat) (adj : List (Edge W)) (e0 : Edge W)
    (h0 : e0 ∈ adj) (hd : e0.dest = v2) :
    ∃ e ∈ adj, e.dest = v2 ∧ calculateDistanceLoop v2 adj = some e.distance := by
  induction adj with
  | nil => simp at h0
  | cons x adj ih =>
    by_cases hx : x.dest = v2
    · exact ⟨x, by simp, hx, by simp [calculateDistanceLoop, hx]⟩
    · have h1 : e0 ∈ adj := by
        rcases List.mem_cons.mp h0 with h | h
        · exact absurd (h ▸ hd) hx
        · exact h
      obtain ⟨e, he, hed, hc⟩ := ih h1
      exact ⟨e, List.mem_cons_of_mem _ he, hed, by simp [calculateDistanceLoop, hx, hc]⟩

theorem calculateDistance_edge (haversineDistance : Coordinates W → Coordinates W → W)
    (g : Graph W) (v1 v2 : Nat) (e0 : Edge W) (h0 : e0 ∈ (g.mem v1).adj) (hd : e0.dest = v2) :
    ∃ e ∈ (g.mem v1).adj, e.dest = v2 ∧
      calculateDistance haversineDistance g v1 v2 = e.distance := by
  obtain ⟨e, he, hed, hc⟩ := calculateDistanceLoop_some v2 (g.mem v1).adj e0 h0 hd
  exact ⟨e, he, hed, by simp [calculateDistance, hc]⟩

theorem calculateDistance_sameShape (haversineDistance : Coordinates W → Coordinates W → W)
    {g g1 : Graph W} (h : SameShape g g1) (v1 v2 : Nat) :
    calculateDistance haversineDistance g1 v1 v2 =
      calculateDistance haversineDistance g v1 v2 := by
  unfold calculateDistance
  rw [(h.2 v1).2.1, (h.2 v1).2.2, (h.2 v2).2.2]

theorem Complete.edge {g : Graph W} (hc : Complete g) (a b : Int × Nat) (ha : a ∈ g.vertexSet)
    (hb : b ∈ g.vertexSet) (hne : a.2 ≠ b.2) : ∃ e ∈ (g.mem a.2).adj, e.dest = b.2 := by
  have h := hc a ha b hb hne
  cases hf : (g.mem a.2).adj.filter (fun e => e.dest = b.2) with
  | nil => rw [hf] at h; simp at h
  | cons e rest =>
    have he : e ∈ (g.mem a.2).adj.filter (fun e => e.dest = b.2) := by rw [hf]; simp
    rw [List.mem_filter] at he
    exact ⟨e, he.1, by simpa using he.2⟩

/-! ## Sums formed with the addition of doubles -/

theorem pathSum_append (add : WithTop W → WithTop W → WithTop W) (sum : WithTop W)
    (es : List (Edge W)) (e : Edge W) :
    pathSum add sum (es ++ [e]) = add (pathSum add sum es) e.distance := by
  unfold pathSum
  rw [List.foldl_append]
  rfl

section PathSums
variable [LinearOrderedAddCommMonoid W]

/-- Edges along a sequence of stored ids have a total weight that is not negative when no
weight is. -/
theorem totalWeight_nonneg (g : Graph W) (hnn : NonNegative g) :
    ∀ (path : List Int) (es : List (Edge W)), EdgesAlong g path es → 0 ≤ totalWeight es
  | _, [], _ => by simp [totalWeight]
  | [], _ :: _, h => by simp [EdgesAlong] at h
  | [_], _ :: _, h => by simp [EdgesAlong] at h
  | a :: b :: rest, e :: es, h => by
    simp only [EdgesAlong] at h
    obtain ⟨⟨pa, hpa, he, _⟩, hrest⟩ := h
    rw [totalWeight_cons]
    exact add_nonneg (hnn (a, pa) (findVertex_mem g a pa hpa) e he)
      (totalWeight_nonneg g hnn (b :: rest) es hrest)

/-- Where the addition is exact up to `B`, weights that are not negative and add up to at most
`B` are added without error. -/
theorem pathSum_exact (add : WithTop W → WithTop W → WithTop W) (B : W)
    (hB : ExactUpTo add B) (g : Graph W) (hnn : NonNegative g) :
    ∀ (s : W) (path : List Int) (es : List (Edge W)), EdgesAlong g path es →
      s + totalWeight es ≤ B →
      pathSum add (s : WithTop W) es = ((s + totalWeight es : W) : WithTop W)
  | s, _, [], _, _ => by simp [pathSum, totalWeight]
  | _, [], _ :: _, h, _ => by simp [EdgesAlong] at h
  | _, [_], _ :: _, h, _ => by simp [EdgesAlong] at h
  | s, a :: b :: rest, e :: es, h, hle => by
    simp only [EdgesAlong] at h
    obtain ⟨_, hrest⟩ := h
    have hnn1 := totalWeight_nonneg g hnn (b :: rest) es hrest
    rw [totalWeight_cons, ← add_assoc] at hle
    have hstep : s + e.distance ≤ B := le_trans (le_add_of_nonneg_right hnn1) hle
    have ih := pathSum_exact add B hB g hnn (s + e.distance) (b :: rest) es hrest hle
    show pathSum add (add s e.distance) es = _
    rw [hB s e.distance hstep, ih, totalWeight_cons, add_assoc]

end PathSums

/-! ## Nearest-neighbour solver -/

section NearestNeighbourProofs
variable [LinearOrderedAddCommMonoid W]

theorem nearest_fold (haversineDistance : Coordinates W → Coordinates W → W) (g : Graph W)
    (source : Nat) (Q : Nat → Prop) :
    ∀ (vs : List (Int × Nat)) (acc : WithTop W × Option Nat),
      (∀ kv ∈ vs, (g.mem kv.2).id ≠ (g.mem source).id → (g.mem kv.2).visited = false → Q kv.2) →
      (acc.1 ≠ ⊤ → ∃ p, acc.2 = some p ∧ Q p) →
      ((vs.foldl (nearestBody haversineDistance g source) acc).1 ≠ ⊤ →
        ∃ p, (vs.foldl (nearestBody haversineDistance g source) acc).2 = some p ∧ Q p) ∧
      (acc.1 ≠ ⊤ → (vs.foldl (nearestBody haversineDistance g source) acc).1 ≠ ⊤) ∧
      ((∃ kv ∈ vs, (g.mem kv.2).id ≠ (g.mem source).id ∧ (g.mem kv.2).visited = false) →
        (vs.foldl (nearestBody haversineDistance g source) acc).1 ≠ ⊤)
  | [], acc, _, hacc => ⟨hacc, fun h => h, fun ⟨_, h, _⟩ => by simp at h⟩
  | v :: vs, acc, hQ, hacc => by
    simp only [List.foldl_cons]
    have hQ1 : ∀ kv ∈ vs, (g.mem kv.2).id ≠ (g.mem source).id →
        (g.mem kv.2).visited = false → Q kv.2 :=
      fun kv hkv => hQ kv (List.mem_cons_of_mem _ hkv)
    by_cases hskip : (g.mem v.2).id = (g.mem source).id ∨ (g.mem v.2).visited = true
    · have hb : nearestBody haversineDistance g source acc v = acc := by
        simp [nearestBody, hskip]
      rw [hb]
      obtain ⟨h1, h2, h3⟩ := nearest_fold haversineDistance g source Q vs acc hQ1 hacc
      refine ⟨h1, h2, ?_⟩
      rintro ⟨kv, hkv, hc1, hc2⟩
      rcases List.mem_cons.mp hkv with h | h
      · subst h
        rcases hskip with h | h
        · exact absurd h hc1
        · rw [hc2] at h; exact absurd h (by simp)
      · exact h3 ⟨kv, h, hc1, hc2⟩
    · have hcand : (g.mem v.2).id ≠ (g.mem source).id ∧ (g.mem v.2).visited = false := by
        constructor
        · exact fun h => hskip (Or.inl h)
        · cases hv : (g.mem v.2).visited with
          | false => rfl
          | true => exact absurd (Or.inr hv) hskip
      have hacc1 : (nearestBody haversineDistance g source acc v).1 ≠ ⊤ := by
        simp only [nearestBody, hskip, if_false]
        split
        · exact WithTop.coe_ne_top
        · rename_i hlt
          intro htop
          exact hlt (htop ▸ WithTop.coe_lt_top _)
      have hacc2 : (nearestBody haversineDistance g source acc v).1 ≠ ⊤ →
          ∃ p, (nearestBody haversineDistance g source acc v).2 = some p ∧ Q p := by
        intro _
        simp only [nearestBody, hskip, if_false]
        split
        · exact ⟨v.2, rfl, hQ v (List.mem_cons_self _ _) hcand.1 hcand.2⟩
        · rename_i hlt
          apply hacc
          intro htop
          exact hlt (htop ▸ WithTop.coe_lt_top _)
      obtain ⟨h1, h2, _⟩ := nearest_fold haversineDistance g source Q vs _ hQ1 hacc2
      exact ⟨h1, fun _ => h2 hacc1, fun _ => h2 hacc1⟩

theorem findNearestNeighbour_some (haversineDistance : Coordinates W → Coordinates W → W)
    (g : Graph W) (source : Nat) (c : Int × Nat) (hc : c ∈ g.vertexSet)
    (hid : (g.mem c.2).id ≠ (g.mem source).id) (hv : (g.mem c.2).visited = false) :
    ∃ kv ∈ g.vertexSet, findNearestNeighbour haversineDistance g source = some kv.2 ∧
      (g.mem kv.2).id ≠ (g.mem source).id ∧ (g.mem kv.2).visited = false := by
  obtain ⟨h1, _, h3⟩ := nearest_fold haversineDistance g source
    (fun p => ∃ kv ∈ g.vertexSet, kv.2 = p ∧ (g.mem kv.2).id ≠ (g.mem source).id ∧
      (g.mem kv.2).visited = false) g.vertexSet (⊤, none)
    (fun kv hkv h1 h2 => ⟨kv, hkv, rfl, h1, h2⟩) (fun h => absurd rfl h)
  obtain ⟨p, hp, kv, hkv, hkp, hq⟩ := h1 (h3 ⟨c, hc, hid, hv⟩)
  exact ⟨kv, hkv, by rw [hkp]; exact hp, hq⟩

theorem nnLoop_inv (add : WithTop W → WithTop W → WithTop W)
    (haversineDistance : Coordinates W → Coordinates W → W) (g : Graph W)
    (hm : MapOk g) :
    ∀ (n : Nat) (st : NnState W), NnInv add g n st →
      ∃ st1, nnLoop add haversineDistance n st = some st1 ∧ NnInv add g 0 st1
  | 0, st, h => ⟨st, rfl, h⟩
  | n + 1, st, h => by
    have hm1 : MapOk st.g := h.shape.mapOk hm
    obtain ⟨k, hk, hkvis, hklast⟩ := h.cur
    have hk1 : (k, st.v) ∈ st.g.vertexSet := by rw [h.shape.1]; exact hk
    -- some vertex is not visited yet
    have hex : ∃ c ∈ st.g.vertexSet, (st.g.mem c.2).visited = false := by
      have hlen := h.count
      cases hu : st.g.vertexSet.filter (fun kv => !(st.g.mem kv.2).visited) with
      | nil => simp [unvisitedKeys, hu] at hlen
      | cons c rest =>
        have hc : c ∈ st.g.vertexSet.filter (fun kv => !(st.g.mem kv.2).visited) := by
          rw [hu]; simp
        rw [List.mem_filter] at hc
        exact ⟨c, hc.1, by simpa using hc.2⟩
    obtain ⟨c, hc, hcv⟩ := hex
    have hcid : (st.g.mem c.2).id ≠ (st.g.mem st.v).id := by
      intro hid
      have hkeq : c.1 = k := by
        have h1 := hm1.2 c hc
        have h2 : (st.g.mem st.v).id = k := hm1.2 (k, st.v) hk1
        rw [← h1, ← h2]; exact hid
      have h1 : findVertex st.g k = some c.2 := hkeq ▸ hm1.findVertex_entry c hc
      have h2 : findVertex st.g k = some st.v := hm1.findVertex_entry (k, st.v) hk1
      have hceq : c.2 = st.v := Option.some.inj (h1.symm.trans h2)
      rw [hceq] at hcv
      rw [hcv] at hkvis
      exact absurd hkvis (by simp)
    obtain ⟨kv, hkv, hfind, hkvid, hkvv⟩ :=
      findNearestNeighbour_some haversineDistance st.g st.v c hc hcid hcv
    have hkv0 : kv ∈ g.vertexSet := by rw [← h.shape.1]; exact hkv
    have hne : st.v ≠ kv.2 := by
      intro heq
      rw [← heq] at hkvv
      rw [hkvv] at hkvis
      exact absurd hkvis (by simp)
    have hshape1 : SameShape g (setVisited st.g kv.2 true) :=
      h.shape.comp (SameShape.of_setVisited st.g kv.2 true)
    have hidkv : (st.g.mem kv.2).id = kv.1 := hm1.2 kv hkv
    have hpne : st.path ≠ [] := by
      intro hnil
      have := h.head
      rw [hnil] at this
      simp at this
    simp only [nnLoop, hfind]
    apply nnLoop_inv add haversineDistance g hm n
    refine ⟨hshape1, ?_, ?_, ⟨kv.1, hkv0, by simp, by simp [hidkv]⟩, ?_, ?_⟩
    · simp only [setVisited_id, hidkv]
      have h1 := visitedKeys_mark st.g hm1 kv hkv hkvv
      have h2 : (st.path ++ [kv.1]).Perm (kv.1 :: st.path) := List.perm_append_singleton _ _
      exact h2.trans ((List.Perm.cons kv.1 h.perm).trans h1.symm)
    · show (unvisitedKeys (setVisited st.g kv.2 true)).length = n
      have h1 := (unvisitedKeys_mark st.g hm1 kv hkv hkvv).length_eq
      have h2 := h.count
      simp only [List.length_cons] at h1
      omega
    · simp only [List.head?_append, h.head, Option.or_some]
    · intro hcomp
      obtain ⟨es, hes, hw⟩ := h.cost hcomp
      obtain ⟨e0, he0, hd0⟩ := hcomp.edge (k, st.v) kv hk hkv0 hne
      obtain ⟨e, he, hed, hdist⟩ :=
        calculateDistance_edge haversineDistance g st.v kv.2 e0 he0 hd0
      refine ⟨es ++ [e], ?_, ?_⟩
      · simp only [setVisited_id, hidkv]
        refine EdgesAlong.snoc g kv.1 e st.path es k st.v hes hklast (hm.findVertex_entry (k, st.v) hk)
          he ?_
        rw [hed]
        exact hm.findVertex_entry kv hkv0
      · show pathSum add 0 (es ++ [e]) = add st.sum _
        rw [pathSum_append, hw, calculateDistance_sameShape haversineDistance hshape1, hdist]

theorem tspNearestNeighbour_run (add : WithTop W → WithTop W → WithTop W)
    (haversineDistance : Coordinates W → Coordinates W → W)
    (g : Graph W) (hm : MapOk g) (v0 : Nat) (h0 : findVertex g 0 = some v0) :
    ∃ st, NnInv add g 0 st ∧
      tspNearestNeighbour add haversineDistance g [] =
        some (add st.sum ((calculateDistance haversineDistance st.g st.v v0 : W) : WithTop W),
          st.path ++ [0], st.g) := by
  obtain ⟨hs, hvis, hunv, hv0⟩ := start_marks g hm v0 h0
  have h01 : findVertex (clearVisited g) 0 = some v0 := by
    rw [(clearVisited_sameShape g).findVertex_eq]; exact h0
  have hinv : NnInv add g ((clearVisited g).vertexSet.length - 1)
      { v := v0, sum := 0, path := [] ++ [0], g := setVisited (clearVisited g) v0 true } := by
    refine ⟨hs, by simpa using hvis.symm, ?_, ⟨0, findVertex_mem g 0 v0 h0, hv0, rfl⟩, rfl, ?_⟩
    · show (unvisitedKeys (setVisited (clearVisited g) v0 true)).length = _
      have := hunv.length_eq
      rw [(clearVisited_sameShape g).1]
      simp only [List.length_map, List.length_cons] at this
      omega
    · intro _
      exact ⟨[], by simp [EdgesAlong], rfl⟩
  obtain ⟨st, hrun, hst⟩ := nnLoop_inv add haversineDistance g hm _ _ hinv
  refine ⟨st, hst, ?_⟩
  have h02 : findVertex st.g 0 = some v0 := by rw [hst.shape.findVertex_eq]; exact h0
  simp only [tspNearestNeighbour, h01, hrun, h02]

theorem NnInv.final {add : WithTop W → WithTop W → WithTop W} {g : Graph W} {st : NnState W}
    (h : NnInv add g 0 st) :
    st.path.Perm (g.vertexSet.map Prod.fst) := by
  have h1 : unvisitedKeys st.g = [] := List.length_eq_zero.mp h.count
  have h2 := visitedKeys_all st.g h1
  rw [h.shape.1] at h2
  rw [← h2]
  exact h.perm

/-- Claim C7: in a graph that stores vertex 0, `tspNearestNeighbour` called with an empty `path`
returns, and afterwards `path` has one entry more than there are vertices, starts and ends with
0, and without its last entry lists every stored id exactly once. -/
theorem tspNearestNeighbour_path (add : WithTop W → WithTop W → WithTop W)
    (haversineDistance : Coordinates W → Coordinates W → W)
    (g : Graph W) (hm : MapOk g) (h0 : (findVertex g 0).isSome = true) :
    ∃ c path1 g1, tspNearestNeighbour add haversineDistance g [] = some (c, path1, g1) ∧
      path1.length = g.vertexSet.length + 1 ∧ path1.head? = some 0 ∧
      path1.getLast? = some 0 ∧ path1.dropLast.Perm (g.vertexSet.map Prod.fst) := by
  obtain ⟨v0, hv0⟩ := Option.isSome_iff_exists.mp h0
  obtain ⟨st, hst, hrun⟩ := tspNearestNeighbour_run add haversineDistance g hm v0 hv0
  refine ⟨_, _, _, hrun, ?_, ?_, by simp, ?_⟩
  · have := hst.final.length_eq
    simp only [List.length_map] at this
    simp [this]
  · simp [hst.head]
  · simpa using hst.final

/-- Witness for claim C7: the four-vertex scenario. -/
theorem tspNearestNeighbour_path_witness :
    ∃ c path1 g1, tspNearestNeighbour doubleAdd (fun _ _ => 0) k4 [] = some (c, path1, g1) ∧
      path1.length = k4.vertexSet.length + 1 ∧ path1.head? = some 0 ∧
      path1.getLast? = some 0 ∧ path1.dropLast.Perm (k4.vertexSet.map Prod.fst) :=
  tspNearestNeighbour_path doubleAdd (fun _ _ => 0) k4 (by decide) (by decide)

theorem head_ne_getLast {α : Type} (l : List α) (hnd : l.Nodup) (h2 : 2 ≤ l.length) (a b : α)
    (ha : l.head? = some a) (hb : l.getLast? = some b) : a ≠ b := by
  match l, hnd, h2, ha, hb with
  | x :: y :: rest, hnd, _, ha, hb =>
    simp only [List.head?_cons, Option.some.injEq] at ha
    subst ha
    rw [List.getLast?_cons_cons] at hb
    have hmem : b ∈ y :: rest := List.mem_of_getLast?_eq_some hb
    rw [List.nodup_cons] at hnd
    exact fun h => hnd.1 (h ▸ hmem)

/-- Claim C8, as the code behaves: in a graph with at least two vertices that stores vertex 0
and has exactly one direct edge for every ordered pair of distinct vertices,
`tspNearestNeighbour` returns, and the returned cost is what the weights of a Hamiltonian cycle
through vertex 0 made of direct edges (the one written to `path`) give when added to 0 one after
the other, in the order of the path, with the addition of the type `double`; so it is at least
every lower bound of the sums that are formed in this way along the Hamiltonian cycles.  When
this addition is exact up to a bound that the total weight of every Hamiltonian cycle keeps, and
no weight is negative, the returned cost is the total weight of the cycle written to `path`, and
so at least the minimum total weight over all Hamiltonian cycles. -/
theorem tspNearestNeighbour_cost (add : WithTop W → WithTop W → WithTop W)
    (haversineDistance : Coordinates W → Coordinates W → W)
    (g : Graph W) (hm : MapOk g) (hc : Complete g) (h0 : (findVertex g 0).isSome = true)
    (h2 : 2 ≤ g.vertexSet.length) :
    ∃ c path1 g1, tspNearestNeighbour add haversineDistance g [] = some (c, path1, g1) ∧
      (∃ es, IsHamiltonianCycle g path1 es ∧ pathSum add 0 es = c) ∧
      (∀ m : WithTop W, (∀ p es, IsHamiltonianCycle g p es → m ≤ pathSum add 0 es) → m ≤ c) ∧
      ∀ B : W, ExactUpTo add B → NonNegative g →
        (∀ p es, IsHamiltonianCycle g p es → totalWeight es ≤ B) →
        (∃ es, IsHamiltonianCycle g path1 es ∧ c = ((totalWeight es : W) : WithTop W)) ∧
        ∀ m : W, (∀ p es, IsHamiltonianCycle g p es → m ≤ totalWeight es) →
          (m : WithTop W) ≤ c := by
  obtain ⟨v0, hv0⟩ := Option.isSome_iff_exists.mp h0
  obtain ⟨st, hst, hrun⟩ := tspNearestNeighbour_run add haversineDistance g hm v0 hv0
  have hcyc : ∃ es, IsHamiltonianCycle g (st.path ++ [0]) es ∧
      pathSum add 0 es =
        add st.sum ((calculateDistance haversineDistance st.g st.v v0 : W) : WithTop W) := by
    obtain ⟨es, hes, hw⟩ := hst.cost hc
    obtain ⟨k, hk, _, hklast⟩ := hst.cur
    have hnd : st.path.Nodup := hst.final.nodup_iff.mpr hm.1
    have hlen : 2 ≤ st.path.length := by
      have := hst.final.length_eq
      simp only [List.length_map] at this
      omega
    have hk0 : (0 : Int) ≠ k := head_ne_getLast st.path hnd hlen 0 k hst.head hklast
    have hne : st.v ≠ v0 := by
      intro heq
      have := hm.ptr_inj (k, st.v) (0, v0) hk (findVertex_mem g 0 v0 hv0) heq
      exact hk0 (Prod.ext_iff.mp this).1.symm
    obtain ⟨e0, he0, hd0⟩ := hc.edge (k, st.v) (0, v0) hk (findVertex_mem g 0 v0 hv0) hne
    obtain ⟨e, he, hed, hdist⟩ := calculateDistance_edge haversineDistance g st.v v0 e0 he0 hd0
    refine ⟨es ++ [e], ⟨by simp [hst.head], by simp, by simpa using hst.final, ?_⟩, ?_⟩
    · refine EdgesAlong.snoc g 0 e st.path es k st.v hes hklast
        (hm.findVertex_entry (k, st.v) hk) he ?_
      rw [hed]; exact hv0
    · rw [pathSum_append, hw, calculateDistance_sameShape haversineDistance hst.shape, hdist]
  obtain ⟨es, hes, hw⟩ := hcyc
  refine ⟨_, _, _, hrun, ⟨es, hes, hw⟩, fun m hmin => ?_, fun B hB hnn hbound => ?_⟩
  · rw [← hw]
    exact hmin _ es hes
  · have hex := pathSum_exact add B hB g hnn 0 (st.path ++ [0]) es hes.2.2.2
      (by rw [zero_add]; exact hbound _ es hes)
    rw [WithTop.coe_zero, zero_add, hw] at hex
    refine ⟨⟨es, hes, hex⟩, fun m hmin => ?_⟩
    rw [hex]
    exact WithTop.coe_le_coe.mpr (hmin _ es hes)

/-- Witness for claim C8: the four-vertex scenario with the addition of doubles. -/
theorem tspNearestNeighbour_cost_witness :
    ∃ c path1 g1, tspNearestNeighbour doubleAdd (fun _ _ => 0) k4 [] = some (c, path1, g1) ∧
      (∃ es, IsHamiltonianCycle k4 path1 es ∧ pathSum doubleAdd 0 es = c) ∧
      (∀ m : WithTop ℕ, (∀ p es, IsHamiltonianCycle k4 p es → m ≤ pathSum doubleAdd 0 es) →
        m ≤ c) ∧
      ∀ B : ℕ, ExactUpTo doubleAdd B → NonNegative k4 →
        (∀ p es, IsHamiltonianCycle k4 p es → totalWeight es ≤ B) →
        (∃ es, IsHamiltonianCycle k4 path1 es ∧ c = ((totalWeight es : ℕ) : WithTop ℕ)) ∧
        ∀ m : ℕ, (∀ p es, IsHamiltonianCycle k4 p es → m ≤ totalWeight es) →
          (m : WithTop ℕ) ≤ c :=
  tspNearestNeighbour_cost doubleAdd (fun _ _ => 0) k4 (by decide) (by decide) (by decide)
    (by decide)

end NearestNeighbourProofs

/-! ## Backtracking solver -/

theorem foldlM_option_inv {α β : Type} (f : β → α → Option β) (P : β → Prop) :
    ∀ (l : List α) (b : β), P b → (∀ b a, a ∈ l → P b → ∃ b1, f b a = some b1 ∧ P b1) →
      ∃ b1, l.foldlM f b = some b1 ∧ P b1
  | [], b, hb, _ => ⟨b, rfl, hb⟩
  | a :: l, b, hb, hstep => by
    obtain ⟨b1, hf, hb1⟩ := hstep b a (List.mem_cons_self _ _) hb
    obtain ⟨b2, hl, hb2⟩ := foldlM_option_inv f P l b1 hb1
      (fun b a ha => hstep b a (List.mem_cons_of_mem _ ha))
    exact ⟨b2, by simp [List.foldlM_cons, hf, hl], hb2⟩

theorem take_set_self {α : Type} (x : α) : ∀ (l : List α) (n : Nat),
    (l.set n x).take n = l.take n
  | [], _ => by simp
  | _ :: _, 0 => by simp
  | a :: l, n + 1 => by simp [take_set_self x l n]

theorem drop_set_self {α : Type} (x : α) : ∀ (l : List α) (n : Nat), n < l.length →
    (l.set n x).drop n = x :: l.drop (n + 1)
  | [], _, h => by simp at h
  | _ :: _, 0, _ => by simp
  | a :: l, n + 1, h => by
    simp only [List.length_cons, Nat.add_lt_add_iff_right] at h
    simp [drop_set_self x l n h]

theorem take_of_take_succ {α : Type} (l l1 : List α) (n : Nat)
    (h : l.take (n + 1) = l1.take (n + 1)) : l.take n = l1.take n := by
  have h1 := congrArg (List.take n) h
  rw [List.take_take, List.take_take] at h1
  simpa using h1

section BacktrackingProofs
variable [LinearOrderedAddCommMonoid W]

theorem BtInv.take {add : WithTop W → WithTop W → WithTop W} {g : Graph W} {path0 : List Int}
    {uid : Int} {sum : WithTop W} {best : WithTop W}
    {step : Nat} {st : BtState W} (h : BtInv add g path0 uid sum best step st) :
    st.path.take step = path0.take step := by
  by_cases hlt : st.bestSum < best
  · exact (h.improved hlt).1
  · rw [h.same hlt]

/-- One pass of the body of the edge loop keeps the invariant, given that the recursive call
meets its postcondition on the memory with one more vertex marked. -/
theorem btEdgeBody_inv (add : WithTop W → WithTop W → WithTop W)
    (rec : Graph W → List Int → Int → WithTop W → WithTop W → Nat → Option (BtState W))
    (g : Graph W) (hm : MapOk g) (path0 : List Int) (uid : Int) (u : Nat) (sum : WithTop W)
    (best : WithTop W) (step : Nat) (v : Int × Nat)
    (hu : findVertex g uid = some u) (hlen : path0.length = g.vertexSet.length)
    (hstep : step + (unvisitedKeys g).length = g.vertexSet.length)
    (hv : v ∈ g.vertexSet) (hvis : (g.mem v.2).visited = false)
    (hrec : ∀ (path : List Int) (s : WithTop W) (b : WithTop W),
      path.length = g.vertexSet.length →
      ∃ r, rec (setVisited g v.2 true) path v.1 s b (step + 1) = some r ∧
        BtPost add (setVisited g v.2 true) path v.1 s b (step + 1) r)
    (st : BtState W) (e : Edge W) (he : e ∈ (g.mem u).adj)
    (hst : BtInv add g path0 uid sum best step st) :
    ∃ st1, btEdgeBody add rec v sum step st e = some st1 ∧
      BtInv add g path0 uid sum best step st1 := by
  unfold btEdgeBody
  by_cases hd : e.dest = v.2
  swap
  · exact ⟨st, by rw [if_neg hd], hst⟩
  rw [if_pos hd]
  by_cases hlt : add sum e.distance < st.bestSum
  swap
  · exact ⟨st, by rw [if_neg hlt], hst⟩
  rw [if_pos hlt]
  have hid : (st.g.mem v.2).id = v.1 := by rw [hst.mem]; exact hm.2 v hv
  have hplen : st.path.length = g.vertexSet.length := hst.len.trans hlen
  obtain ⟨r, hr, hpost⟩ := hrec st.path (add sum e.distance) st.bestSum hplen
  have hunv := unvisitedKeys_mark g hm v hv hvis
  have hundo : setVisited r.g v.2 false = g := by
    rw [hpost.mem]; exact setVisited_undo g v.2 hvis
  rw [hid, hst.mem, hr]
  simp only []
  by_cases himp : r.bestSum < st.bestSum
  · have hrlen : r.path.length = g.vertexSet.length := hpost.len.trans hplen
    have hsl : step < r.path.length := by
      have := hunv.length_eq
      simp only [List.length_cons] at this
      omega
    obtain ⟨htake, hperm, es, hes, hsum⟩ := hpost.improved himp
    rw [if_pos himp]
    simp only [writePath, hsl, if_true, hundo]
    refine ⟨_, rfl, ⟨⟨rfl, ?_, fun _ => ⟨?_, ?_, e :: es, ?_, ?_⟩, ?_⟩, ?_⟩⟩
    · simp only [List.length_set]
      exact hrlen.trans hlen.symm
    · show (r.path.set step v.1).take step = path0.take step
      rw [take_set_self, take_of_take_succ _ _ _ htake]
      exact hst.take
    · show ((r.path.set step v.1).drop step).Perm (unvisitedKeys g)
      rw [drop_set_self _ _ _ hsl]
      exact (List.Perm.cons v.1 hperm).trans hunv.symm
    · show EdgesAlong g (uid :: (r.path.set step v.1).drop step ++ [0]) (e :: es)
      rw [drop_set_self _ _ _ hsl]
      simp only [List.cons_append, EdgesAlong]
      refine ⟨⟨u, hu, he, ?_⟩, ?_⟩
      · rw [hd]; exact hm.findVertex_entry v hv
      · have := EdgesAlong.of_sameShape (SameShape.of_setVisited g v.2 true).symm _ _ hes
        simpa using this
    · show pathSum add sum (e :: es) = r.bestSum
      rw [← hsum]
      rfl
    · intro hnot
      exact absurd (lt_of_lt_of_le himp hst.le) hnot
    · exact le_of_lt (lt_of_lt_of_le himp hst.le)
  · have hsame : r.path = st.path := hpost.same himp
    rw [if_neg himp]
    simp only [hundo, hsame]
    exact ⟨_, rfl, ⟨⟨rfl, hst.len, hst.improved, hst.same⟩, hst.le⟩⟩

/-- One pass of the body of the loop over the vertex map keeps the invariant. -/
theorem btVertexBody_inv (add : WithTop W → WithTop W → WithTop W)
    (rec : Graph W → List Int → Int → WithTop W → WithTop W → Nat → Option (BtState W))
    (g : Graph W) (hm : MapOk g) (path0 : List Int) (uid : Int) (u : Nat) (sum : WithTop W)
    (best : WithTop W) (step : Nat)
    (hu : findVertex g uid = some u) (hlen : path0.length = g.vertexSet.length)
    (hstep : step + (unvisitedKeys g).length = g.vertexSet.length)
    (hrec : ∀ v ∈ g.vertexSet, (g.mem v.2).visited = false →
      ∀ (path : List Int) (s : WithTop W) (b : WithTop W), path.length = g.vertexSet.length →
      ∃ r, rec (setVisited g v.2 true) path v.1 s b (step + 1) = some r ∧
        BtPost add (setVisited g v.2 true) path v.1 s b (step + 1) r)
    (st : BtState W) (v : Int × Nat) (hv : v ∈ g.vertexSet)
    (hst : BtInv add g path0 uid sum best step st) :
    ∃ st1, btVertexBody add rec u sum step st v = some st1 ∧
      BtInv add g path0 uid sum best step st1 := by
  unfold btVertexBody
  cases hvis : (g.mem v.2).visited with
  | true => exact ⟨st, by rw [hst.mem, hvis]; rfl, hst⟩
  | false =>
    rw [hst.mem, hvis]
    simp only [Bool.false_eq_true, if_false]
    exact foldlM_option_inv _ _ _ st hst (fun b e he hb =>
      btEdgeBody_inv add rec g hm path0 uid u sum best step v hu hlen hstep hv hvis
        (hrec v hv hvis) b e he hb)

/-- The recursive `tspBacktracking` returns and meets its postcondition whenever `step` counts
the visited vertices and the fuel exceeds the number of vertices not visited. -/
theorem tspBacktrackingRec_post (add : WithTop W → WithTop W → WithTop W) :
    ∀ (fuel : Nat) (g : Graph W) (path : List Int) (uid : Int) (u : Nat) (sum : WithTop W)
      (best : WithTop W) (step : Nat), MapOk g → Closed g → findVertex g uid = some u →
      path.length = g.vertexSet.length →
      step + (unvisitedKeys g).length = g.vertexSet.length →
      (unvisitedKeys g).length < fuel →
      ∃ r, tspBacktrackingRec add fuel g path uid sum best step = some r ∧
        BtPost add g path uid sum best step r
  | 0, _, _, _, _, _, _, _, _, _, _, _, _, hf => absurd hf (Nat.not_lt_zero _)
  | fuel + 1, g, path, uid, u, sum, best, step, hm, hcl, hu, hlen, hstep, hf => by
    have hrec : ∀ v ∈ g.vertexSet, (g.mem v.2).visited = false →
        ∀ (path : List Int) (s : WithTop W) (b : WithTop W),
        path.length = g.vertexSet.length →
        ∃ r, tspBacktrackingRec add fuel (setVisited g v.2 true) path v.1 s b (step + 1) =
            some r ∧
          BtPost add (setVisited g v.2 true) path v.1 s b (step + 1) r := by
      intro v hv hvis path1 s b hl
      have hunv := (unvisitedKeys_mark g hm v hv hvis).length_eq
      simp only [List.length_cons] at hunv
      have hs := SameShape.of_setVisited g v.2 true
      exact tspBacktrackingRec_post add fuel (setVisited g v.2 true) path1 v.1 v.2 s b
        (step + 1)
        (hs.mapOk hm) (hs.closed hcl) (hm.findVertex_entry v hv) hl
        (by simp only [setVisited_vertexSet]; omega) (by omega)
    have hinit : BtInv add g path uid sum best step ⟨best, path, g⟩ :=
      ⟨⟨rfl, rfl, fun h => absurd h (lt_irrefl _), fun _ => rfl⟩, le_refl _⟩
    obtain ⟨st1, hloop, hst1⟩ := foldlM_option_inv
      (btVertexBody add (tspBacktrackingRec add fuel) u sum step)
      (BtInv add g path uid sum best step)
      g.vertexSet ⟨best, path, g⟩ hinit
      (fun b v hv hb => btVertexBody_inv add (tspBacktrackingRec add fuel) g hm path uid u sum
        best step hu hlen hstep hrec b v hv hb)
    simp only [tspBacktrackingRec, hu]
    generalize hc : (if step = g.vertexSet.length then
      closeCycleLoop add g sum best (g.mem u).adj else none) = c
    cases c with
    | none => exact ⟨st1, hloop, hst1.toBtPost⟩
    | some r =>
      refine ⟨_, rfl, ⟨rfl, rfl, ?_, fun _ => rfl⟩⟩
      intro hlt
      by_cases hterm : step = g.vertexSet.length
      swap
      · rw [if_neg hterm] at hc; exact absurd hc (by simp)
      rw [if_pos hterm] at hc
      have hnil : unvisitedKeys g = [] := List.length_eq_zero.mp (by omega)
      have hdrop : path.drop step = [] := List.drop_eq_nil_of_le (by omega)
      cases hadj : (g.mem u).adj with
      | nil => rw [hadj] at hc; simp [closeCycleLoop] at hc
      | cons e rest =>
        rw [hadj] at hc
        simp only [closeCycleLoop] at hc
        by_cases hid : (g.mem e.dest).id = 0
        swap
        · rw [if_neg hid] at hc
          have : r = best := (Option.some.inj hc).symm
          rw [this] at hlt
          exact absurd hlt (lt_irrefl _)
        rw [if_pos hid] at hc
        have hr : r = add sum e.distance := (Option.some.inj hc).symm
        have he : e ∈ (g.mem u).adj := by rw [hadj]; simp
        have hdest := hcl (uid, u) (findVertex_mem g uid u hu) e he
        obtain ⟨kv, hkv, hkd⟩ := List.mem_map.mp hdest
        have hk0 : kv.1 = 0 := by rw [← hm.2 kv hkv, hkd]; exact hid
        have hf0 : findVertex g 0 = some e.dest := by
          rw [← hk0, ← hkd]; exact hm.findVertex_entry kv hkv
        refine ⟨rfl, ?_, [e], ?_, ?_⟩
        · show (path.drop step).Perm (unvisitedKeys g)
          rw [hdrop, hnil]
        · show EdgesAlong g (uid :: path.drop step ++ [0]) [e]
          rw [hdrop]
          simp only [List.cons_append, List.nil_append, EdgesAlong, and_true]
          exact ⟨u, hu, he, hf0⟩
        · show pathSum add sum [e] = r
          rw [hr]
          rfl

/-- Claim C2, as the code behaves: in a well-formed graph that stores vertex 0, with `path`
pre-sized to the number of vertices and `path[0] = 0`, `tspBacktracking(path)` returns; and when
the returned cost `c` is finite, `path` afterwards has one entry more than there are vertices,
starts and ends with 0, without its last entry lists every stored id exactly once, and there
are direct edges joining its consecutive entries whose weights, added to 0 one after the other
in the order of the path with the addition of the type `double`, give exactly `c`.  When this
addition is exact up to a bound that the total weight of every Hamiltonian cycle keeps, and no
weight is negative, the weights of these edges sum to exactly `c`. -/
theorem tspBacktracking_path (add : WithTop W → WithTop W → WithTop W) (g : Graph W)
    (path : List Int) (hm : MapOk g) (hcl : Closed g)
    (h0 : (findVertex g 0).isSome = true) (hlen : path.length = g.vertexSet.length)
    (hp0 : path.head? = some 0) :
    ∃ c path1 g1, tspBacktracking add g path = some (c, path1, g1) ∧
      (c ≠ ⊤ → path1.length = g.vertexSet.length + 1 ∧
        ∃ es, IsHamiltonianCycle g path1 es ∧ pathSum add 0 es = c ∧
          ∀ B : W, ExactUpTo add B → NonNegative g →
            (∀ p es1, IsHamiltonianCycle g p es1 → totalWeight es1 ≤ B) →
            c = ((totalWeight es : W) : WithTop W)) := by
  obtain ⟨v0, hv0⟩ := Option.isSome_iff_exists.mp h0
  obtain ⟨hs, _, hunv, _⟩ := start_marks g hm v0 hv0
  have hcs := clearVisited_sameShape g
  have h01 : findVertex (clearVisited g) 0 = some v0 := by rw [hcs.findVertex_eq]; exact hv0
  have hul := hunv.length_eq
  simp only [List.length_map, List.length_cons] at hul
  obtain ⟨r, hr, hpost⟩ := tspBacktrackingRec_post add ((clearVisited g).vertexSet.length + 1)
    (setVisited (clearVisited g) v0 true) path 0 v0 0 ⊤ 1 (hs.mapOk hm) (hs.closed hcl)
    (by rw [hs.findVertex_eq]; exact hv0) (by rw [hs.1]; exact hlen)
    (by rw [hs.1]; omega) (by rw [hcs.1]; omega)
  refine ⟨r.bestSum, r.path ++ [0], r.g, by simp only [tspBacktracking, h01, hr], ?_⟩
  intro hfin
  have hlt : r.bestSum < ⊤ := lt_top_iff_ne_top.mpr hfin
  obtain ⟨htake, hperm, es, hes, hsum⟩ := hpost.improved hlt
  have hrl : r.path.length = g.vertexSet.length := hpost.len.trans hlen
  have hpath : r.path = 0 :: r.path.drop 1 := by
    have h1 : path.take 1 = [0] := by
      cases path with
      | nil => simp at hp0
      | cons a rest =>
        simp only [List.head?_cons, Option.some.injEq] at hp0
        simp [hp0]
    have h2 := List.take_append_drop 1 r.path
    rw [htake, h1] at h2
    exact h2.symm
  have hham : IsHamiltonianCycle g (r.path ++ [0]) es := by
    refine ⟨?_, by simp, ?_, ?_⟩
    · rw [hpath]; rfl
    · rw [List.dropLast_concat, hpath]
      exact (List.Perm.cons 0 hperm).trans hunv.symm
    · have := EdgesAlong.of_sameShape hs.symm _ _ hes
      rw [hpath]
      simpa using this
  refine ⟨by simp [hrl], es, hham, hsum, fun B hB hnn hbound => ?_⟩
  rw [← hsum]
  have := pathSum_exact add B hB g hnn 0 (r.path ++ [0]) es hham.2.2.2
    (by rw [zero_add]; exact hbound _ es hham)
  rw [WithTop.coe_zero] at this
  rw [this, zero_add]

/-- Witness for claim C2: the four-vertex scenario with the addition of doubles. -/
theorem tspBacktracking_path_witness :
    ∃ c path1 g1, tspBacktracking doubleAdd k4 [0, 0, 0, 0] = some (c, path1, g1) ∧
      (c ≠ ⊤ → path1.length = k4.vertexSet.length + 1 ∧
        ∃ es, IsHamiltonianCycle k4 path1 es ∧ pathSum doubleAdd 0 es = c ∧
          ∀ B : ℕ, ExactUpTo doubleAdd B → NonNegative k4 →
            (∀ p es1, IsHamiltonianCycle k4 p es1 → totalWeight es1 ≤ B) →
            c = ((totalWeight es : ℕ) : WithTop ℕ)) :=
  tspBacktracking_path doubleAdd k4 [0, 0, 0, 0] (by decide) (by decide) (by decide)
    (by decide) (by decide)

end BacktrackingProofs

/-! ## Spanning trees -/

theorem treeDepth_sameShape {g g1 : Graph W} (hs : SameShape g g1) {start : Nat}
    {par : Nat → Option EdgePtr} {v n : Nat} (h : TreeDepth g start par v n) :
    TreeDepth g1 start par v n := by
  induction h with
  | root => exact TreeDepth.root
  | node hne hp he hd hst _ ih =>
    exact TreeDepth.node hne hp (by rw [(hs.2 _).2.1]; exact he) hd
      ((hs.stored_iff _).mpr hst) ih

theorem TreeDepth.mono {g : Graph W} {start : Nat} {par par1 : Nat → Option EdgePtr}
    (h : ∀ p x, par p = some x → par1 p = some x) {v n : Nat}
    (hv : TreeDepth g start par v n) : TreeDepth g start par1 v n := by
  induction hv with
  | root => exact TreeDepth.root
  | node hne hp he hd hs _ ih => exact TreeDepth.node hne (h _ _ hp) he hd hs ih

theorem TreeDepth.unique {g : Graph W} {start : Nat} {par : Nat → Option EdgePtr} {v n : Nat}
    (h : TreeDepth g start par v n) : ∀ {m : Nat}, TreeDepth g start par v m → n = m := by
  induction h with
  | root =>
    intro m hm
    cases hm with
    | root => rfl
    | node hne _ _ _ _ _ => exact absurd rfl hne
  | node hne hp _ _ _ _ ih =>
    intro m hm
    cases hm with
    | root => exact absurd rfl hne
    | node _ hp1 _ _ _ h1 =>
      rw [hp] at hp1
      cases hp1
      rw [ih h1]

theorem TreeDepth.reparent {g : Graph W} {start : Nat} {B : Nat → Option EdgePtr}
    {x b i : Nat} {e : Edge W} (hx : x ≠ start) (he : (g.mem b).adj[i]? = some e)
    (hd : e.dest = x) (hb : Stored g b)
    (havoid : ∃ n, TreeDepth g start (Function.update B x none) b n) {v n : Nat}
    (hv : TreeDepth g start B v n) :
    ∃ m, TreeDepth g start (Function.update B x (some (b, i))) v m := by
  obtain ⟨nb, hnb⟩ := havoid
  have hb1 : TreeDepth g start (Function.update B x (some (b, i))) b nb := by
    refine hnb.mono ?_
    intro p y hp
    by_cases hpx : p = x
    · subst hpx; simp at hp
    · rw [Function.update_noteq hpx] at hp ⊢
      exact hp
  induction hv with
  | root => exact ⟨0, TreeDepth.root⟩
  | @node v a j n e1 hne hp he1 hd1 hs _ ih =>
    obtain ⟨m, hm⟩ := ih
    by_cases hvx : v = x
    · subst hvx
      exact ⟨nb + 1, TreeDepth.node hx (by simp) he hd hb hb1⟩
    · exact ⟨m + 1, TreeDepth.node hne (by rw [Function.update_noteq hvx]; exact hp) he1 hd1
        hs hm⟩

theorem sum_map_update {ι M : Type} [AddCommMonoid M] (f f1 : ι → M) (a : ι) :
    ∀ (l : List ι), l.Nodup → (∀ b ∈ l, b ≠ a → f1 b = f b) →
      (a ∈ l → (l.map f1).sum + f a = (l.map f).sum + f1 a) ∧
      (a ∉ l → (l.map f1).sum = (l.map f).sum)
  | [], _, _ => ⟨fun h => by simp at h, fun _ => rfl⟩
  | b :: l, hnd, hf => by
    rw [List.nodup_cons] at hnd
    obtain ⟨h1, h2⟩ := sum_map_update f f1 a l hnd.2
      (fun c hc => hf c (List.mem_cons_of_mem _ hc))
    have hfb := hf b (List.mem_cons_self _ _)
    constructor
    · intro ha
      by_cases hba : b = a
      · subst hba
        have := h2 hnd.1
        simp only [List.map_cons, List.sum_cons, this]
        abel
      · have hal : a ∈ l := by
          rcases List.mem_cons.mp ha with h | h
          · exact absurd h.symm hba
          · exact h
        simp only [List.map_cons, List.sum_cons, hfb hba]
        rw [add_assoc, h1 hal, add_assoc]
    · intro ha
      have hba : b ≠ a := fun h => ha (h ▸ List.mem_cons_self _ _)
      have hal : a ∉ l := fun h => ha (List.mem_cons_of_mem _ h)
      simp only [List.map_cons, List.sum_cons, hfb hba, h2 hal]

theorem parWeight_update_other [Zero W] (g : Graph W) (B : Nat → Option EdgePtr) (x : Nat)
    (ep : Option EdgePtr) (p : Nat) (hp : p ≠ x) :
    parWeight g (Function.update B x ep) p = parWeight g B p := by
  unfold parWeight
  rw [Function.update_noteq hp]

theorem parWeight_edge [Zero W] (g : Graph W) (B : Nat → Option EdgePtr) (p a i : Nat)
    (e : Edge W) (hp : B p = some (a, i)) (he : (g.mem a).adj[i]? = some e) :
    parWeight g B p = e.distance := by
  unfold parWeight
  rw [hp]
  simp only [he]

theorem treeWeight_update [AddCommMonoid W] (g : Graph W) (hm : MapOk g) (start : Nat)
    (B : Nat → Option EdgePtr) (x : Nat) (hx : Stored g x) (hxs : x ≠ start)
    (ep : Option EdgePtr) :
    treeWeight g start (Function.update B x ep) + parWeight g B x =
      treeWeight g start B + parWeight g (Function.update B x ep) x := by
  obtain ⟨kv, hkv, hkx⟩ := hx.exists
  have := (sum_map_update (fun kv => if kv.2 = start then 0 else parWeight g B kv.2)
    (fun kv => if kv.2 = start then 0 else parWeight g (Function.update B x ep) kv.2) kv
    g.vertexSet hm.nodup (by
      intro b hbm hb
      by_cases hbs : b.2 = start
      · simp [hbs]
      · simp only [hbs, if_false]
        have hbx : b.2 ≠ x := by
          intro hc
          exact hb (hm.ptr_inj b kv hbm hkv (hc.trans hkx.symm))
        exact parWeight_update_other g B x ep b.2 hbx)).1 hkv
  simp only [hkx, hxs, if_false] at this
  exact this

/-- Exchange along a tree path.  `A` is a spanning tree, `S` a set of vertices containing
`start`, `w` a weight that no edge from `S` to a vertex outside `S` undercuts.  `B` is a spanning
tree that differs from `A` at vertices at least as deep as `x` only, `x` lies outside `S`, and
the weight of `B` together with the edge of `A` that enters `x` is the weight of `A` together
with `w`.  Then some spanning tree weighs no more than `A` and agrees with `B` on `S` and at
`u`, a vertex at least as deep as `x`. -/
theorem exchange_climb [LinearOrderedAddCommMonoid W] (g : Graph W) (hm : MapOk g)
    (hsym : Symmetric g) (hcancel : ∀ a b c : W, a + c ≤ b + c → a ≤ b) (start : Nat)
    (S : Nat → Prop) (hS : S start) (A : Nat → Option EdgePtr) (u : Nat) (w : W)
    (hmin : ∀ y, Stored g y → S y → ∀ (j : Nat) (ec : Edge W),
      (g.mem y).adj[j]? = some ec → ¬ S ec.dest → w ≤ ec.distance) :
    ∀ (k : Nat) (B : Nat → Option EdgePtr) (x : Nat),
      (∀ v, Stored g v → ∃ n, TreeDepth g start B v n) →
      TreeDepth g start A x k → Stored g x → ¬ S x →
      (∀ v m, TreeDepth g start A v m → m < k → B v = A v) →
      (∀ m, TreeDepth g start A u m → k ≤ m) →
      treeWeight g start B + parWeight g A x = treeWeight g start A + w →
      (∃ C n, TreeDepth g start C x n ∧ ∀ p z, C p = some z →
        B p = some z ∧ (S p ∨ ∀ m, TreeDepth g start A p m → k ≤ m)) →
      ∃ B1, (∀ v, Stored g v → ∃ n, TreeDepth g start B1 v n) ∧
        treeWeight g start B1 ≤ treeWeight g start A ∧ ∀ v, (S v ∨ v = u) → B1 v = B v := by
  intro k
  induction k with
  | zero =>
    intro B x _ hx _ hxS _ _ _ _
    cases hx with
    | root => exact absurd hS hxS
  | succ k ih =>
    intro B x hvalid hx hxs hxS hunch hu hw havoid
    cases hx with
    | @node _ y i _ ec hne hp he hd hy hyd =>
      have hpx : parWeight g A x = ec.distance := parWeight_edge g A x y i ec hp he
      rw [hpx] at hw
      by_cases hyS : S y
      · refine ⟨B, hvalid, ?_, fun _ _ => rfl⟩
        apply hcancel _ _ ec.distance
        rw [hw]
        exact add_le_add_left (hmin y hy hyS i ec he (by rw [hd]; exact hxS)) _
      · have hys : y ≠ start := fun hc => hyS (hc ▸ hS)
        obtain ⟨kv, hkv, hky⟩ := hy.exists
        have hecm : ec ∈ (g.mem kv.2).adj := by rw [hky]; exact List.getElem?_mem he
        obtain ⟨e1, he1m, he1d, he1w⟩ := hsym kv hkv ec hecm
        rw [hd] at he1m
        rw [hky] at he1d
        obtain ⟨i1, hi1⟩ := List.getElem?_of_mem he1m
        have hyk : ∀ m, TreeDepth g start A y m → m = k := fun m hm1 => (hm1.unique hyd)
        have hynotR : ¬ (S y ∨ ∀ m, TreeDepth g start A y m → k + 1 ≤ m) := by
          rintro (h | h)
          · exact hyS h
          · have := h k hyd
            omega
        obtain ⟨C, n, hC, hCB⟩ := havoid
        have hCy : ∀ p z, C p = some z → p ≠ y := by
          intro p z hpz hc
          exact hynotR (hc ▸ (hCB p z hpz).2)
        have hBy : B y = A y := hunch y k hyd (Nat.lt_succ_self k)
        have hvalid1 : ∀ v, Stored g v →
            ∃ n, TreeDepth g start (Function.update B y (some (x, i1))) v n := by
          intro v hv
          obtain ⟨nv, hnv⟩ := hvalid v hv
          refine TreeDepth.reparent hys hi1 he1d hxs ⟨n, hC.mono ?_⟩ hnv
          intro p z hpz
          rw [Function.update_noteq (hCy p z hpz)]
          exact (hCB p z hpz).1
        obtain ⟨B1, hB1, hB1w, hB1a⟩ := ih (Function.update B y (some (x, i1))) y hvalid1 hyd hy
          hyS
          (by
            intro v m hvm hmk
            have hvy : v ≠ y := by
              intro hc
              rw [hc] at hvm
              have := hyk m hvm
              omega
            rw [Function.update_noteq hvy]
            exact hunch v m hvm (by omega))
          (fun m hum => by have := hu m hum; omega)
          (by
            have h1 := treeWeight_update g hm start B y hy hys (some (x, i1))
            have h2 : parWeight g (Function.update B y (some (x, i1))) y = e1.distance :=
              parWeight_edge g _ y x i1 e1 (by simp) hi1
            have h3 : parWeight g B y = parWeight g A y := by
              unfold parWeight
              rw [hBy]
            rw [h2, h3, he1w] at h1
            rw [h1, hw])
          ⟨Function.update C y (some (x, i1)), n + 1,
            TreeDepth.node hys (by simp) hi1 he1d hxs (hC.mono (by
              intro p z hpz
              rw [Function.update_noteq (hCy p z hpz)]
              exact hpz)), by
            intro p z hpz
            by_cases hpy : p = y
            · subst hpy
              rw [Function.update_same] at hpz ⊢
              refine ⟨hpz, Or.inr ?_⟩
              intro m hm1
              rw [hyk m hm1]
            · rw [Function.update_noteq hpy] at hpz ⊢
              obtain ⟨h1, h2⟩ := hCB p z hpz
              refine ⟨h1, ?_⟩
              rcases h2 with h2 | h2
              · exact Or.inl h2
              · exact Or.inr (fun m hm1 => by have := h2 m hm1; omega)⟩
        refine ⟨B1, hB1, hB1w, fun v hv => ?_⟩
        rw [hB1a v hv]
        have hvy : v ≠ y := by
          rintro rfl
          rcases hv with h | h
          · exact hyS h
          · rw [h] at hyd
            have := hu k hyd
            omega
        exact Function.update_noteq hvy _ _

/-- Exchange step of Prim's algorithm on trees given by parent edges.  `S` is a set of vertices
containing `start` whose parent edges `P` form a tree inside `S` (witnessed by `Ps`), `A` is a
spanning tree that contains these edges, and the edge `e` at `(a, i)` leads from `S` to the
vertex `u` outside `S` and is not undercut by any edge that leaves `S`.  Then a spanning tree
that weighs no more than `A` contains the parent edges of `S` and has `(a, i)` as the parent
edge of `u`. -/
theorem exchange [LinearOrderedAddCommMonoid W] (g : Graph W) (hm : MapOk g)
    (hsym : Symmetric g) (hcancel : ∀ a b c : W, a + c ≤ b + c → a ≤ b) (start : Nat)
    (S : Nat → Prop) (hS : S start) (P Ps : Nat → Option EdgePtr)
    (hPs : ∀ p z, Ps p = some z → S p ∧ Stored g p ∧ p ≠ start ∧ P p = some z)
    (hPtree : ∀ p, Stored g p → S p → ∃ n, TreeDepth g start Ps p n)
    (A : Nat → Option EdgePtr) (hA : ∀ v, Stored g v → ∃ n, TreeDepth g start A v n)
    (hagree : ∀ p, Stored g p → p ≠ start → S p → A p = P p)
    (u a i : Nat) (e : Edge W) (hu : Stored g u) (huS : ¬ S u) (ha : Stored g a) (haS : S a)
    (he : (g.mem a).adj[i]? = some e) (hd : e.dest = u)
    (hmin : ∀ y, Stored g y → S y → ∀ (j : Nat) (ec : Edge W),
      (g.mem y).adj[j]? = some ec → ¬ S ec.dest → e.distance ≤ ec.distance) :
    ∃ B, (∀ v, Stored g v → ∃ n, TreeDepth g start B v n) ∧
      treeWeight g start B ≤ treeWeight g start A ∧
      (∀ p, Stored g p → p ≠ start → S p → B p = P p) ∧ B u = some (a, i) := by
  have hus : u ≠ start := fun hc => huS (hc ▸ hS)
  obtain ⟨k, hk⟩ := hA u hu
  obtain ⟨na, hna⟩ := hPtree a ha haS
  have hPsA : ∀ p z, Ps p = some z → A p = some z ∧ p ≠ u := by
    intro p z hpz
    obtain ⟨h1, h2, h3, h4⟩ := hPs p z hpz
    exact ⟨(hagree p h2 h3 h1).trans h4, fun hc => huS (hc ▸ h1)⟩
  have hvalid0 : ∀ v, Stored g v →
      ∃ n, TreeDepth g start (Function.update A u (some (a, i))) v n := by
    intro v hv
    obtain ⟨nv, hnv⟩ := hA v hv
    refine TreeDepth.reparent hus he hd ha ⟨na, hna.mono ?_⟩ hnv
    intro p z hpz
    rw [Function.update_noteq (hPsA p z hpz).2]
    exact (hPsA p z hpz).1
  obtain ⟨B1, hB1, hB1w, hB1a⟩ := exchange_climb g hm hsym hcancel start S hS A u e.distance
    hmin k (Function.update A u (some (a, i))) u hvalid0 hk hu huS
    (by
      intro v m hvm hmk
      have hvu : v ≠ u := by
        intro hc
        rw [hc] at hvm
        have := hvm.unique hk
        omega
      exact Function.update_noteq hvu _ _)
    (fun m hum => le_of_eq (hk.unique hum))
    (by
      have h1 := treeWeight_update g hm start A u hu hus (some (a, i))
      have h2 : parWeight g (Function.update A u (some (a, i))) u = e.distance :=
        parWeight_edge g _ u a i e (by simp) he
      rw [h2] at h1
      exact h1)
    ⟨Function.update Ps u (some (a, i)), na + 1,
      TreeDepth.node hus (by simp) he hd ha (hna.mono (by
        intro p z hpz
        rw [Function.update_noteq (hPsA p z hpz).2]
        exact hpz)), by
      intro p z hpz
      by_cases hpu : p = u
      · subst hpu
        rw [Function.update_same] at hpz ⊢
        exact ⟨hpz, Or.inr (fun m hum => le_of_eq (hk.unique hum))⟩
      · rw [Function.update_noteq hpu] at hpz ⊢
        exact ⟨(hPsA p z hpz).1, Or.inl (hPs p z hpz).1⟩⟩
  refine ⟨B1, hB1, hB1w, fun p hp hps hpS => ?_, ?_⟩
  · rw [hB1a p (Or.inl hpS)]
    have hpu : p ≠ u := fun hc => huS (hc ▸ hpS)
    rw [Function.update_noteq hpu]
    exact hagree p hp hps hpS
  · rw [hB1a u (Or.inr rfl)]
    simp

/-! ## Hamiltonian cycles as spanning trees -/

theorem EdgesAlong.dropLast (g : Graph W) (b : Int) :
    ∀ (l : List Int) (es : List (Edge W)), l ≠ [] → EdgesAlong g (l ++ [b]) es →
      ∃ es1 e, es = es1 ++ [e] ∧ EdgesAlong g l es1 ∧
        ∃ k pa, l.getLast? = some k ∧ findVertex g k = some pa ∧ e ∈ (g.mem pa).adj
  | [], _, h, _ => absurd rfl h
  | [a], es, _, he => by
    match es, he with
    | [e], he =>
      simp only [List.singleton_append, EdgesAlong, and_true] at he
      obtain ⟨pa, h1, h2, _⟩ := he
      exact ⟨[], e, rfl, by simp [EdgesAlong], a, pa, rfl, h1, h2⟩
    | e :: e1 :: rest, he => simp [EdgesAlong] at he
    | [], he => simp [EdgesAlong] at he
  | a :: a1 :: rest, es, _, he => by
    match es, he with
    | [], he => simp [EdgesAlong] at he
    | e :: es1, he =>
      simp only [List.cons_append, EdgesAlong] at he
      obtain ⟨es2, e2, h1, h2, k, pa, h3, h4, h5⟩ :=
        EdgesAlong.dropLast g b (a1 :: rest) es1 (by simp) (by simpa using he.2)
      refine ⟨e :: es2, e2, by rw [h1]; rfl, ?_, k, pa, ?_, h4, h5⟩
      · simp only [EdgesAlong]
        exact ⟨he.1, h2⟩
      · rw [List.getLast?_cons_cons]; exact h3

theorem treeWeight_none [AddCommMonoid W] (g : Graph W) (start : Nat) :
    treeWeight g start (fun _ => none) = 0 := by
  unfold treeWeight
  have : (fun kv : Int × Nat => if kv.2 = start then (0 : W)
      else parWeight g (fun _ => none) kv.2) = fun _ => 0 := by
    funext kv
    simp [parWeight]
  rw [this]
  simp

theorem ham_path_tree [AddCommMonoid W] (g : Graph W) (hm : MapOk g) (start : Nat) :
    ∀ (ids : List Int) (es : List (Edge W)) (a : Int) (pa : Nat) (A : Nat → Option EdgePtr)
      (n : Nat), EdgesAlong g (a :: ids) es → findVertex g a = some pa →
      TreeDepth g start A pa n → (a :: ids).Nodup →
      (∀ k ∈ ids, ∀ p, findVertex g k = some p → A p = none ∧ p ≠ start) →
      ∃ A1, (∀ p m, TreeDepth g start A p m → TreeDepth g start A1 p m) ∧
        (∀ k ∈ ids, ∃ p m, findVertex g k = some p ∧ TreeDepth g start A1 p m) ∧
        treeWeight g start A1 = treeWeight g start A + totalWeight es
  | [], es, a, pa, A, n, he, _, _, _, _ => by
    match es, he with
    | [], _ => exact ⟨A, fun _ _ h => h, fun k hk => by simp at hk, by simp [totalWeight]⟩
    | _ :: _, he => simp [EdgesAlong] at he
  | b :: rest, es, a, pa, A, n, he, hpa, hd, hnd, hfree => by
    match es, he with
    | [], he => simp [EdgesAlong] at he
    | e :: es1, he =>
      simp only [EdgesAlong] at he
      obtain ⟨⟨pa1, h1, h2, h3⟩, h4⟩ := he
      rw [hpa] at h1
      cases Option.some.inj h1
      obtain ⟨i, hi⟩ := List.getElem?_of_mem h2
      obtain ⟨hAb, hbs⟩ := hfree b (List.mem_cons_self _ _) e.dest h3
      have hsa : Stored g pa := Stored.of_mem (findVertex_mem g a pa hpa)
      have hsb : Stored g e.dest := Stored.of_mem (findVertex_mem g b e.dest h3)
      have hmono : ∀ p z, A p = some z →
          Function.update A e.dest (some (pa, i)) p = some z := by
        intro p z hpz
        have : p ≠ e.dest := by
          intro hc; rw [hc, hAb] at hpz; exact absurd hpz (by simp)
        rw [Function.update_noteq this]
        exact hpz
      have hdb : TreeDepth g start (Function.update A e.dest (some (pa, i))) e.dest (n + 1) :=
        TreeDepth.node hbs (by simp) hi rfl hsa (hd.mono hmono)
      rw [List.nodup_cons] at hnd
      obtain ⟨A1, hA1, hA1m, hA1w⟩ := ham_path_tree g hm start rest es1 b e.dest
        (Function.update A e.dest (some (pa, i))) (n + 1) h4 h3 hdb hnd.2 (by
          intro k hk p hp
          have hkb : k ≠ b := by
            intro hc
            rw [hc] at hk
            exact (List.nodup_cons.mp hnd.2).1 hk
          have hpne : p ≠ e.dest := by
            intro hc
            rw [hc] at hp
            have := hm.ptr_inj (k, e.dest) (b, e.dest) (findVertex_mem g k _ hp)
              (findVertex_mem g b _ h3) rfl
            exact hkb (congrArg Prod.fst this)
          rw [Function.update_noteq hpne]
          exact hfree k (List.mem_cons_of_mem _ hk) p hp)
      refine ⟨A1, fun p m h => hA1 p m (h.mono hmono), ?_, ?_⟩
      · intro k hk
        rcases List.mem_cons.mp hk with h | h
        · rw [h]
          exact ⟨e.dest, n + 1, h3, hA1 _ _ hdb⟩
        · exact hA1m k h
      · rw [hA1w]
        have hw := treeWeight_update g hm start A e.dest hsb hbs (some (pa, i))
        have hp0 : parWeight g A e.dest = 0 := by
          unfold parWeight
          rw [hAb]
        have hp1 : parWeight g (Function.update A e.dest (some (pa, i))) e.dest = e.distance :=
          parWeight_edge g _ e.dest pa i e (by simp) hi
        rw [hp0, hp1, add_zero] at hw
        rw [hw, totalWeight_cons, add_assoc]

/-- The edges of a Hamiltonian cycle through vertex 0, without the closing one, form a spanning
tree rooted at vertex 0; with non-negative weights it weighs at most as much as the cycle. -/
theorem IsHamiltonianCycle.tree [LinearOrderedAddCommMonoid W] {g : Graph W} (hm : MapOk g)
    (hnn : NonNegative g) (v0 : Nat) (h0 : findVertex g 0 = some v0) {path : List Int}
    {es : List (Edge W)} (h : IsHamiltonianCycle g path es) :
    ∃ A, IsSpanningTree g v0 A ∧ treeWeight g v0 A ≤ totalWeight es := by
  obtain ⟨hhead, hlast, hperm, hes⟩ := h
  obtain ⟨l, hl⟩ := List.getLast?_eq_some_iff.mp hlast
  subst hl
  rw [List.dropLast_concat] at hperm
  have hmem0 : ((0 : Int), v0) ∈ g.vertexSet := findVertex_mem g 0 v0 h0
  have hlne : l ≠ [] := by
    intro hc
    rw [hc] at hperm
    have := hperm.length_eq
    rw [List.length_map] at this
    rw [List.eq_nil_of_length_eq_zero this.symm] at hmem0
    simp at hmem0
  obtain ⟨es1, e, he1, he2, k, pk, _, hk2, hk3⟩ := EdgesAlong.dropLast g 0 l es hlne hes
  match l, hhead, hperm, hlne, he2 with
  | a :: ids, hhead, hperm, _, he2 =>
    simp only [List.cons_append, List.head?_cons, Option.some.injEq] at hhead
    subst hhead
    have hnd : ((0 : Int) :: ids).Nodup := hperm.nodup_iff.mpr hm.1
    obtain ⟨A, _, hA2, hA3⟩ := ham_path_tree g hm v0 ids es1 0 v0 (fun _ => none) 0 he2 h0
      TreeDepth.root hnd (by
        intro k1 hk1 p hp
        refine ⟨rfl, ?_⟩
        intro hc
        rw [hc] at hp
        have := hm.ptr_inj (k1, v0) (0, v0) (findVertex_mem g k1 _ hp) hmem0 rfl
        have hk0 : k1 = 0 := congrArg Prod.fst this
        rw [hk0] at hk1
        exact (List.nodup_cons.mp hnd).1 hk1)
    have hA1 : ∀ p m, TreeDepth g v0 (fun _ => none) p m → TreeDepth g v0 A p m :=
      fun p m hpm => hpm.mono (fun _ _ hc => absurd hc (by simp))
    refine ⟨A, ?_, ?_⟩
    · intro kv hkv
      have hk : kv.1 ∈ (0 : Int) :: ids := hperm.symm.subset (List.mem_map_of_mem _ hkv)
      rcases List.mem_cons.mp hk with h | h
      · have := hm.findVertex_entry kv hkv
        rw [h, h0] at this
        rw [← Option.some.inj this]
        exact ⟨0, hA1 _ _ TreeDepth.root⟩
      · obtain ⟨p, m, hp, hpm⟩ := hA2 kv.1 h
        rw [hm.findVertex_entry kv hkv] at hp
        rw [Option.some.inj hp]
        exact ⟨m, hpm⟩
    · rw [hA3, treeWeight_none, zero_add, he1, totalWeight_append]
      have hnn1 : 0 ≤ e.distance := hnn (k, pk) (findVertex_mem g k pk hk2) e hk3
      calc totalWeight es1 = totalWeight es1 + 0 := (add_zero _).symm
        _ ≤ totalWeight es1 + totalWeight [e] := by
          apply add_le_add_left
          simpa [totalWeight] using hnn1

/-! ## Prim -/

theorem primInit_aux (vs : List (Int × Nat)) (g : Graph W) :
    SameShape g (vs.foldl (fun acc vert =>
      setVisited (setPath (setDist acc vert.2 ⊤) vert.2 none) vert.2 false) g) ∧
    ∀ p, p ∈ vs.map Prod.snd →
      ((vs.foldl (fun acc vert =>
        setVisited (setPath (setDist acc vert.2 ⊤) vert.2 none) vert.2 false) g).mem p).dist = ⊤ ∧
      ((vs.foldl (fun acc vert =>
        setVisited (setPath (setDist acc vert.2 ⊤) vert.2 none) vert.2 false) g).mem p).path = none ∧
      ((vs.foldl (fun acc vert =>
        setVisited (setPath (setDist acc vert.2 ⊤) vert.2 none) vert.2 false) g).mem p).visited =
          false := by
  induction vs using List.reverseRecOn with
  | nil => exact ⟨SameShape.same g, fun p hp => by simp at hp⟩
  | append_singleton vs v ih =>
    obtain ⟨h1, h2⟩ := ih
    simp only [List.foldl_append, List.foldl_cons, List.foldl_nil]
    refine ⟨h1.comp (((SameShape.of_setDist _ _ _).comp (SameShape.of_setPath _ _ _)).comp
      (SameShape.of_setVisited _ _ _)), fun p hp => ?_⟩
    by_cases hpv : p = v.2
    · subst hpv
      simp [setDist_dist, setPath_path]
    · have hp1 : p ∈ vs.map Prod.snd := by
        simp only [List.map_append, List.map_cons, List.map_nil, List.mem_append,
          List.mem_singleton] at hp
        rcases hp with h | h
        · exact h
        · exact absurd h hpv
      obtain ⟨h3, h4, h5⟩ := h2 p hp1
      simp [setDist_dist, setPath_path, setVisited_visited, hpv, h3, h4, h5]

theorem primInit_spec (g : Graph W) :
    SameShape g (primInit g) ∧
    ∀ p, Stored g p → ((primInit g).mem p).dist = ⊤ ∧ ((primInit g).mem p).path = none ∧
      ((primInit g).mem p).visited = false :=
  primInit_aux g.vertexSet g

section PrimProofs
variable [LinearOrderedAddCommMonoid W]

theorem PrimInv.skip {g0 : Graph W} {start u i : Nat} {st : PrimState W}
    (h : PrimInv g0 start (fun a j => a = u ∧ i ≤ j) st) (e : Edge W)
    (he : (g0.mem u).adj[i]? = some e)
    (hok : (st.g.mem e.dest).visited = true ∨ (st.g.mem e.dest).dist ≤ e.distance) :
    PrimInv g0 start (fun a j => a = u ∧ i + 1 ≤ j) st := by
  refine ⟨h.shape, h.qNodup, h.qSpec, h.startPath, h.infPath, h.parent, h.tree, ?_, h.startVis,
    h.promise⟩
  intro a ha hav j e2 he2
  rcases h.edgeOk a ha hav j e2 he2 with ⟨hau, hij⟩ | h1
  · by_cases hji : j = i
    · subst hji
      subst hau
      rw [he] at he2
      cases Option.some.inj he2
      exact Or.inr hok
    · exact Or.inl ⟨hau, by omega⟩
  · exact Or.inr h1

theorem PrimInv.relaxed {g0 : Graph W} {start u i : Nat} {st : PrimState W}
    (h : PrimInv g0 start (fun a j => a = u ∧ i ≤ j) st) (hu : Stored g0 u)
    (huv : (st.g.mem u).visited = true) (hsv : (st.g.mem start).visited = true) (e : Edge W)
    (he : (g0.mem u).adj[i]? = some e) (hd : Stored g0 e.dest)
    (hvis : (st.g.mem e.dest).visited = false)
    (hlt : (e.distance : WithTop W) < (st.g.mem e.dest).dist) :
    PrimInv g0 start (fun a j => a = u ∧ i + 1 ≤ j)
      { g := setPath (setDist st.g e.dest e.distance) e.dest (some (u, i))
        q := if (st.g.mem e.dest).dist = ⊤ then st.q ++ [e.dest] else st.q } := by
  have hds : e.dest ≠ start := by
    intro hc; rw [hc] at hvis; rw [hvis] at hsv; exact absurd hsv (by simp)
  have hpar : primPar (setPath (setDist st.g e.dest e.distance) e.dest (some (u, i))) =
      primPar st.g := by
    funext p
    unfold primPar
    by_cases hp : p = e.dest
    · subst hp; simp [hvis]
    · simp only [Stored, setPath_vertexSet, setDist_vertexSet, setPath_visited, setDist_visited,
        setPath_path, setDist_path, hp, if_false]
  have hmemq : (st.g.mem e.dest).dist ≠ ⊤ → e.dest ∈ st.q := fun hne =>
    (h.qSpec e.dest).mpr ⟨hd, hvis, hne⟩
  refine ⟨(h.shape.comp (SameShape.of_setDist _ _ _)).comp (SameShape.of_setPath _ _ _), ?_, ?_, ?_,
    ?_, ?_, ?_, ?_, ?_, ?_⟩
  · show (if (st.g.mem e.dest).dist = ⊤ then st.q ++ [e.dest] else st.q).Nodup
    split
    · rename_i htop
      rw [List.nodup_append]
      refine ⟨h.qNodup, List.nodup_singleton _, ?_⟩
      intro x hx hx1
      rw [List.mem_singleton] at hx1
      rw [hx1] at hx
      exact ((h.qSpec e.dest).mp hx).2.2 htop
    · exact h.qNodup
  · intro p
    show p ∈ (if (st.g.mem e.dest).dist = ⊤ then st.q ++ [e.dest] else st.q) ↔ _
    simp only [setPath_visited, setDist_visited, setPath_dist, setDist_dist]
    by_cases hp : p = e.dest
    · subst hp
      simp only [if_true]
      constructor
      · intro _
        exact ⟨hd, hvis, WithTop.coe_ne_top⟩
      · intro _
        by_cases htop : (st.g.mem e.dest).dist = ⊤
        · rw [if_pos htop]; simp
        · rw [if_neg htop]
          exact hmemq htop
    · simp only [hp, if_false]
      rw [← h.qSpec p]
      split
      · simp [hp]
      · rfl
  · simp only [setPath_path, setPath_dist, setDist_dist, setDist_path, Ne.symm hds, if_false]
    exact h.startPath
  · intro p hp
    simp only [setPath_path, setPath_dist, setDist_dist, setDist_path, setPath_visited,
      setDist_visited]
    by_cases hpd : p = e.dest
    · subst hpd
      simp only [if_true]
      intro hc
      exact absurd hc WithTop.coe_ne_top
    · simp only [hpd, if_false]
      exact h.infPath p hp
  · intro p hp hps
    simp only [setPath_path, setPath_dist, setDist_dist, setDist_path, setPath_visited,
      setDist_visited]
    by_cases hpd : p = e.dest
    · subst hpd
      simp only [if_true]
      intro _
      exact ⟨u, i, e, rfl, he, rfl, rfl, hu, huv⟩
    · simp only [hpd, if_false]
      exact h.parent p hp hps
  · intro p hp
    simp only [setPath_visited, setDist_visited]
    rw [hpar]
    exact h.tree p hp
  · intro a ha
    simp only [setPath_visited, setDist_visited, setPath_dist, setDist_dist]
    intro hav j e2 he2
    rcases h.edgeOk a ha hav j e2 he2 with ⟨hau, hij⟩ | h1 | h1
    · by_cases hji : j = i
      · subst hji; subst hau
        rw [he] at he2
        cases Option.some.inj he2
        refine Or.inr (Or.inr ?_)
        simp
      · exact Or.inl ⟨hau, by omega⟩
    · exact Or.inr (Or.inl h1)
    · refine Or.inr (Or.inr ?_)
      by_cases hed : e2.dest = e.dest
      · simp only [hed, if_true]
        rw [hed] at h1
        exact le_of_lt (lt_of_lt_of_le hlt h1)
      · simp only [hed, if_false]
        exact h1
  · left
    simp only [setPath_visited, setDist_visited]
    exact hsv
  · intro hsym hcancel A hA
    obtain ⟨B, hB, hBw, hBa⟩ := h.promise hsym hcancel A hA
    refine ⟨B, hB, hBw, fun p hp hps hpv => ?_⟩
    simp only [setPath_visited, setDist_visited] at hpv
    have hpd : p ≠ e.dest := by
      intro hc; rw [hc, hvis] at hpv; exact absurd hpv (by simp)
    simp only [setPath_path, setDist_path, hpd, if_false]
    exact hBa p hp hps hpv

theorem primEdgeLoop_inv (g0 : Graph W) (hcl : Closed g0) (start u : Nat) (hu : Stored g0 u) :
    ∀ (es : List (Edge W)) (i : Nat) (st : PrimState W), (g0.mem u).adj.drop i = es →
      PrimInv g0 start (fun a j => a = u ∧ i ≤ j) st → (st.g.mem u).visited = true →
      (st.g.mem start).visited = true →
      ∃ st1, primEdgeLoop u i es st = some st1 ∧
        PrimInv g0 start (fun a j => a = u ∧ i + es.length ≤ j) st1 ∧
        ∀ p, (st1.g.mem p).visited = (st.g.mem p).visited
  | [], i, st, _, h, _, _ => ⟨st, rfl, by simpa using h, fun _ => rfl⟩
  | e :: rest, i, st, hes, h, huv, hsv => by
    have he : (g0.mem u).adj[i]? = some e := by
      have := List.getElem?_drop (g0.mem u).adj i 0
      rw [hes] at this
      simpa using this.symm
    have hrest : (g0.mem u).adj.drop (i + 1) = rest := by
      have := congrArg (List.drop 1) hes
      rw [List.drop_drop] at this
      simpa [Nat.add_comm] using this
    have hmem : e ∈ (g0.mem u).adj := List.getElem?_mem he
    have hd : Stored g0 e.dest := hcl.stored hu hmem
    have hlen : i + (e :: rest).length = (i + 1) + rest.length := by
      simp only [List.length_cons]; omega
    rw [hlen]
    rw [primEdgeLoop]
    simp only []
    cases hvis : (st.g.mem e.dest).visited with
    | true =>
      simp only [Bool.true_eq_false, if_false]
      exact primEdgeLoop_inv g0 hcl start u hu rest (i + 1) st hrest
        (h.skip e he (Or.inl hvis)) huv hsv
    | false =>
      simp only [if_true]
      by_cases hlt : (e.distance : WithTop W) < (st.g.mem e.dest).dist
      swap
      · rw [if_neg hlt]
        exact primEdgeLoop_inv g0 hcl start u hu rest (i + 1) st hrest
          (h.skip e he (Or.inr (not_lt.mp hlt))) huv hsv
      rw [if_pos hlt]
      have hnew := h.relaxed hu huv hsv e he hd hvis hlt
      by_cases htop : (st.g.mem e.dest).dist = ⊤
      · rw [if_pos htop]
        rw [if_pos htop] at hnew
        obtain ⟨st1, h1, h2, h3⟩ := primEdgeLoop_inv g0 hcl start u hu rest (i + 1) _ hrest
          hnew (by simpa using huv) (by simpa using hsv)
        exact ⟨st1, h1, h2, fun p => by rw [h3 p]; simp⟩
      · rw [if_neg htop]
        rw [if_neg htop] at hnew
        have hq : e.dest ∈ st.q := (h.qSpec e.dest).mpr ⟨hd, hvis, htop⟩
        rw [if_pos hq]
        obtain ⟨st1, h1, h2, h3⟩ := primEdgeLoop_inv g0 hcl start u hu rest (i + 1) _ hrest
          hnew (by simpa using huv) (by simpa using hsv)
        exact ⟨st1, h1, h2, fun p => by rw [h3 p]; simp⟩

theorem PrimInv.extract {g0 : Graph W} {start : Nat} {st : PrimState W}
    (h : PrimInv g0 start (fun _ _ => False) st) (hm : MapOk g0) (hcl : Closed g0) (u : Nat)
    (rest : List Nat) (hperm : (u :: rest).Perm st.q)
    (hminq : ∀ x ∈ st.q, (st.g.mem u).dist ≤ (st.g.mem x).dist) :
    PrimInv g0 start (fun a j => a = u ∧ 0 ≤ j) { g := setVisited st.g u true, q := rest } ∧
      ((setVisited st.g u true).mem start).visited = true := by
  have huq : u ∈ st.q := hperm.subset (List.mem_cons_self _ _)
  obtain ⟨hus, huv, hud⟩ := (h.qSpec u).mp huq
  have hnd : (u :: rest).Nodup := hperm.nodup_iff.mpr h.qNodup
  rw [List.nodup_cons] at hnd
  have hsv : ((setVisited st.g u true).mem start).visited = true := by
    rcases h.startVis with h1 | ⟨h1, _⟩
    · rw [setVisited_visited]; split
      · rfl
      · exact h1
    · rw [h1] at hperm
      have : u = start := by
        have := hperm.subset (List.mem_cons_self _ _)
        simpa using this
      rw [this]; simp
  have hmono : ∀ p x, primPar st.g p = some x → primPar (setVisited st.g u true) p = some x := by
    intro p x hp
    unfold primPar at hp ⊢
    by_cases hpv : Stored st.g p ∧ (st.g.mem p).visited = true
    · rw [if_pos hpv] at hp
      have : Stored (setVisited st.g u true) p ∧
          ((setVisited st.g u true).mem p).visited = true := by
        refine ⟨hpv.1, ?_⟩
        rw [setVisited_visited]; split
        · rfl
        · exact hpv.2
      rw [if_pos this]
      simpa using hp
    · rw [if_neg hpv] at hp
      exact absurd hp (by simp)
  refine ⟨⟨h.shape.comp (SameShape.of_setVisited _ _ _), hnd.2, ?_, ?_, ?_, ?_, ?_, ?_, Or.inl hsv,
    ?_⟩, hsv⟩
  · intro p
    simp only [setVisited_dist]
    by_cases hp : p = u
    · subst hp
      simp only [setVisited_visited_self, Bool.true_eq_false, false_and, and_false, iff_false]
      exact hnd.1
    · rw [setVisited_visited_other _ _ _ _ hp, ← h.qSpec p]
      constructor
      · intro hpr; exact hperm.subset (List.mem_cons_of_mem _ hpr)
      · intro hpq
        have := hperm.symm.subset hpq
        rcases List.mem_cons.mp this with h1 | h1
        · exact absurd h1 hp
        · exact h1
  · simpa using h.startPath
  · intro p hp hpd
    simp only [setVisited_dist, setVisited_path] at hpd ⊢
    have := h.infPath p hp hpd
    refine ⟨this.1, ?_⟩
    have hpu : p ≠ u := fun hc => hud (hc ▸ hpd)
    rw [setVisited_visited_other _ _ _ _ hpu]
    exact this.2
  · intro p hp hps hpd
    simp only [setVisited_dist, setVisited_path] at hpd ⊢
    obtain ⟨a, i, e, h1, h2, h3, h4, h5, h6⟩ := h.parent p hp hps hpd
    refine ⟨a, i, e, h1, h2, h3, h4, h5, ?_⟩
    rw [setVisited_visited]; split
    · rfl
    · exact h6
  · intro p hp hpv
    by_cases hpu : p = u
    · subst hpu
      by_cases hps : p = start
      · subst hps; exact ⟨0, TreeDepth.root⟩
      · obtain ⟨a, i, e, h1, h2, h3, _, h5, h6⟩ := h.parent p hp hps hud
        obtain ⟨n, hn⟩ := h.tree a h5 h6
        refine ⟨n + 1, TreeDepth.node hps ?_ h2 h3 h5 (hn.mono hmono)⟩
        unfold primPar
        have hst : Stored (setVisited st.g p true) p := (h.shape.stored_iff p).mpr hp
        simp [h1, hst]
    · rw [setVisited_visited_other _ _ _ _ hpu] at hpv
      obtain ⟨n, hn⟩ := h.tree p hp hpv
      exact ⟨n, hn.mono hmono⟩
  · intro a ha hav j e he
    by_cases hau : a = u
    · exact Or.inl ⟨hau, Nat.zero_le _⟩
    · rw [setVisited_visited_other _ _ _ _ hau] at hav
      rcases h.edgeOk a ha hav j e he with h1 | h1 | h1
      · exact absurd h1 id
      · refine Or.inr (Or.inl ?_)
        rw [setVisited_visited]; split
        · rfl
        · exact h1
      · exact Or.inr (Or.inr (by simpa using h1))
  · intro hsym hcancel A hA
    obtain ⟨B, hB, hBw, hBa⟩ := h.promise hsym hcancel A hA
    by_cases hus1 : u = start
    · refine ⟨B, hB, hBw, fun p hp hps hpv => ?_⟩
      have hpu : p ≠ u := fun hc => hps (hc.trans hus1)
      rw [setVisited_visited_other _ _ _ _ hpu] at hpv
      simp only [setVisited_path]
      exact hBa p hp hps hpv
    · have hsv0 : (st.g.mem start).visited = true := by
        rcases h.startVis with h1 | ⟨h1, _⟩
        · exact h1
        · rw [h1] at huq
          exact absurd (List.mem_singleton.mp huq) hus1
      obtain ⟨a, i, e, h1, h2, h3, h4, h5, h6⟩ := h.parent u hus hus1 hud
      have hvalidB : ∀ v, Stored g0 v → ∃ n, TreeDepth g0 start B v n := by
        intro v hv
        obtain ⟨kv, hkv, hkp⟩ := hv.exists
        rw [← hkp]
        exact hB kv hkv
      obtain ⟨B1, hB1, hB1w, hB1a, hB1u⟩ := exchange g0 hm hsym hcancel start
        (fun p => (st.g.mem p).visited = true) hsv0 (fun p => (st.g.mem p).path) (primPar st.g)
        (by
          intro p z hpz
          unfold primPar at hpz
          split at hpz
          · rename_i hc
            refine ⟨hc.2, (h.shape.stored_iff p).mp hc.1, ?_, hpz⟩
            intro hps
            rw [hps, h.startPath.1] at hpz
            exact absurd hpz (by simp)
          · exact absurd hpz (by simp))
        (fun p hp hpv => h.tree p hp hpv) B hvalidB hBa u a i e hus
        (by show ¬ (st.g.mem u).visited = true; rw [huv]; simp) h5 h6 h2 h3
        (by
          intro y hy hyv j ec hec hnv
          have hnv1 : (st.g.mem ec.dest).visited = false := by simpa using hnv
          have hds : Stored g0 ec.dest := hcl.stored hy (List.getElem?_mem hec)
          rcases h.edgeOk y hy hyv j ec hec with h7 | h7 | h7
          · exact absurd h7 id
          · rw [hnv1] at h7; exact absurd h7 (by simp)
          · have hne : (st.g.mem ec.dest).dist ≠ ⊤ := by
              intro hc
              rw [hc] at h7
              exact absurd (top_le_iff.mp h7) WithTop.coe_ne_top
            have hq := hminq ec.dest ((h.qSpec ec.dest).mpr ⟨hds, hnv1, hne⟩)
            rw [h4] at hq
            exact WithTop.coe_le_coe.mp (le_trans hq h7))
      refine ⟨B1, fun kv hkv => hB1 kv.2 (Stored.of_mem hkv), le_trans hB1w hBw,
        fun p hp hps hpv => ?_⟩
      simp only [setVisited_path]
      by_cases hpu : p = u
      · rw [hpu, hB1u, h1]
      · rw [setVisited_visited_other _ _ _ _ hpu] at hpv
        exact hB1a p hp hps hpv

theorem primLoop_inv (extractMin : Graph W → List Nat → Option (Nat × List Nat))
    (hex : IsExtractMin extractMin) (g0 : Graph W) (hm : MapOk g0) (hcl : Closed g0)
    (start : Nat) :
    ∀ (fuel : Nat) (st : PrimState W), PrimInv g0 start (fun _ _ => False) st →
      (unvisitedKeys st.g).length ≤ fuel →
      ∃ g1, primLoop extractMin fuel st = some g1 ∧
        PrimInv g0 start (fun _ _ => False) { g := g1, q := [] } := by
  intro fuel
  induction fuel with
  | zero =>
    intro st h hfuel
    unfold primLoop
    by_cases hq : st.q = []
    · rw [if_pos hq]
      exact ⟨st.g, rfl, by rw [← hq]; exact h⟩
    · exfalso
      obtain ⟨u, rest, _, hperm, _⟩ := hex st.g st.q hq
      have huq : u ∈ st.q := hperm.subset (List.mem_cons_self _ _)
      obtain ⟨hus, huv, _⟩ := (h.qSpec u).mp huq
      obtain ⟨kv, hkv, hku⟩ := hus.exists
      have hm1 := h.shape.mapOk hm
      have := (unvisitedKeys_mark st.g hm1 kv (by rw [h.shape.1]; exact hkv)
        (by rw [hku]; exact huv)).length_eq
      simp only [List.length_cons] at this
      omega
  | succ fuel ih =>
    intro st h hfuel
    unfold primLoop
    by_cases hq : st.q = []
    · rw [if_pos hq]
      exact ⟨st.g, rfl, by rw [← hq]; exact h⟩
    · rw [if_neg hq]
      obtain ⟨u, rest, hext, hperm, hminq⟩ := hex st.g st.q hq
      have huq : u ∈ st.q := hperm.subset (List.mem_cons_self _ _)
      obtain ⟨hus, huv, _⟩ := (h.qSpec u).mp huq
      obtain ⟨hinv, hsv⟩ := h.extract hm hcl u rest hperm hminq
      have hadj : ((setVisited st.g u true).mem u).adj = (g0.mem u).adj := by
        rw [setVisited_adj]; exact (h.shape.2 u).2.1
      obtain ⟨st1, hloop, hst1, hsame⟩ := primEdgeLoop_inv g0 hcl start u hus
        (g0.mem u).adj 0 _ (by simp) hinv (by simp) hsv
      simp only [hext, hadj, hloop]
      apply ih st1
      · refine ⟨hst1.shape, hst1.qNodup, hst1.qSpec, hst1.startPath, hst1.infPath, hst1.parent,
          hst1.tree, ?_, hst1.startVis, hst1.promise⟩
        intro a ha hav j e he
        rcases hst1.edgeOk a ha hav j e he with ⟨hau, hj⟩ | h1
        · exfalso
          subst hau
          have : j < (g0.mem a).adj.length := by
            by_contra hc
            rw [List.getElem?_eq_none (by omega)] at he
            exact absurd he (by simp)
          omega
        · exact Or.inr h1
      · obtain ⟨kv, hkv, hku⟩ := hus.exists
        have hm1 := h.shape.mapOk hm
        have h1 := (unvisitedKeys_mark st.g hm1 kv (by rw [h.shape.1]; exact hkv)
          (by rw [hku]; exact huv)).length_eq
        simp only [List.length_cons] at h1
        have h2 : unvisitedKeys st1.g = unvisitedKeys (setVisited st.g kv.2 true) := by
          apply unvisitedKeys_congr
          · rw [hst1.shape.1, setVisited_vertexSet, h.shape.1]
          · intro p; rw [hsame p, hku]
        rw [h2]
        omega

/-- The invariant holds when the loop of `prim` is entered, and the fuel is enough. -/
theorem primStart_inv (g : Graph W) (start : Nat) (hs : Stored g start) :
    PrimInv g start (fun _ _ => False) { g := setDist (primInit g) start 0, q := [start] } ∧
      (unvisitedKeys (setDist (primInit g) start 0)).length ≤ g.vertexSet.length := by
  obtain ⟨hshape, hinit⟩ := primInit_spec g
  have hshape1 : SameShape g (setDist (primInit g) start 0) :=
    hshape.comp (SameShape.of_setDist _ _ _)
  have h0 : PrimInv g start (fun _ _ => False)
      { g := setDist (primInit g) start 0, q := [start] } := by
    refine ⟨hshape1, List.nodup_singleton _, ?_, ?_, ?_, ?_, ?_, ?_, ?_, ?_⟩
    · intro p
      simp only [List.mem_singleton, setDist_visited, setDist_dist]
      by_cases hp : p = start
      · subst hp
        simp only [if_true, true_iff]
        exact ⟨hs, (hinit p hs).2.2, WithTop.zero_ne_top⟩
      · simp only [hp, if_false, false_iff]
        intro ⟨h1, _, h3⟩
        exact h3 (hinit p h1).1
    · simp only [setDist_path, setDist_dist, if_true]
      exact ⟨(hinit start hs).2.1, trivial⟩
    · intro p hp _
      simp only [setDist_path, setDist_visited]
      exact ⟨(hinit p hp).2.1, (hinit p hp).2.2⟩
    · intro p hp hps hd
      simp only [setDist_dist, hps, if_false] at hd
      exact absurd (hinit p hp).1 hd
    · intro p hp hv
      simp only [setDist_visited] at hv
      rw [(hinit p hp).2.2] at hv
      exact absurd hv (by simp)
    · intro a ha hv
      simp only [setDist_visited] at hv
      rw [(hinit a ha).2.2] at hv
      exact absurd hv (by simp)
    · right
      exact ⟨rfl, fun p hp => by simp only [setDist_visited]; exact (hinit p hp).2.2⟩
    · intro _ _ A hA
      refine ⟨A, hA, le_refl _, fun p hp _ hpv => ?_⟩
      simp only [setDist_visited] at hpv
      rw [(hinit p hp).2.2] at hpv
      exact absurd hpv (by simp)
  have hfuel : (unvisitedKeys (setDist (primInit g) start 0)).length ≤ g.vertexSet.length := by
    have := visitedKeys_unvisitedKeys_length (setDist (primInit g) start 0)
    rw [hshape1.1] at this
    omega
  exact ⟨h0, hfuel⟩

theorem prim_inv (extractMin : Graph W → List Nat → Option (Nat × List Nat))
    (hex : IsExtractMin extractMin) (g : Graph W) (hm : MapOk g) (hcl : Closed g)
    (start : Nat) (hs : Stored g start) :
    ∃ g1, prim extractMin g start = some g1 ∧
      PrimInv g start (fun _ _ => False) { g := g1, q := [] } := by
  have hne : g.vertexSet ≠ [] := by
    intro hc
    unfold Stored at hs
    rw [hc] at hs
    simp at hs
  obtain ⟨h0, hfuel⟩ := primStart_inv g start hs
  obtain ⟨g1, hrun, hinv⟩ := primLoop_inv extractMin hex g hm hcl start g.vertexSet.length _ h0
    hfuel
  exact ⟨g1, by unfold prim; rw [if_neg hne]; exact hrun, hinv⟩

/-- After `prim`, every vertex that can be reached from `start` is stored and visited. -/
theorem PrimInv.reached {g : Graph W} {start : Nat} {g1 : Graph W}
    (h : PrimInv g start (fun _ _ => False) { g := g1, q := [] }) (hcl : Closed g)
    (hs : Stored g start) {p : Nat} (hp : Reachable g start p) :
    Stored g p ∧ (g1.mem p).visited = true := by
  induction hp with
  | refl =>
    refine ⟨hs, ?_⟩
    rcases h.startVis with h1 | ⟨h1, _⟩
    · exact h1
    · exact absurd h1 (by simp)
  | @step a e _ he ih =>
    obtain ⟨ha, hav⟩ := ih
    have hd : Stored g e.dest := hcl.stored ha he
    refine ⟨hd, ?_⟩
    obtain ⟨j, hj⟩ := List.getElem?_of_mem he
    rcases h.edgeOk a ha hav j e hj with h1 | h1 | h1
    · exact absurd h1 id
    · exact h1
    · by_contra hv
      have hv1 : (g1.mem e.dest).visited = false := by simpa using hv
      have hne : (g1.mem e.dest).dist ≠ ⊤ := by
        intro hc
        rw [hc] at h1
        exact absurd (top_le_iff.mp h1) WithTop.coe_ne_top
      have := (h.qSpec e.dest).mpr ⟨hd, hv1, hne⟩
      simp at this

end PrimProofs

/-! ## Walks and tours -/

theorem lastOr_cons (v b : Int) (body : List Int) : lastOr v (b :: body) = lastOr b body := by
  unfold lastOr
  rw [List.getLast?_cons]
  rfl

theorem lastOr_append_cons (v c : Int) (body bodyC : List Int) :
    lastOr v (body ++ c :: bodyC) = lastOr c bodyC := by
  induction body generalizing v with
  | nil => exact lastOr_cons v c bodyC
  | cons b body ih => rw [List.cons_append, lastOr_cons, ih]

theorem lastOr_mem (v : Int) (body : List Int) : lastOr v body ∈ v :: body := by
  induction body generalizing v with
  | nil => simp [lastOr]
  | cons b body ih =>
    rw [lastOr_cons]
    exact List.mem_cons_of_mem _ (ih b)

theorem walkCost_append_cons [AddMonoid W] (D : Int → Int → W) (c : Int) (bodyC : List Int) :
    ∀ (v : Int) (body : List Int),
      walkCost D (v :: (body ++ c :: bodyC)) =
        walkCost D (v :: body) + D (lastOr v body) c + walkCost D (c :: bodyC)
  | v, [] => by simp [walkCost, lastOr]
  | v, b :: body => by
    rw [List.cons_append, walkCost, walkCost_append_cons D c bodyC b body, lastOr_cons, walkCost]
    simp only [add_assoc]

theorem tourCost_extend [LinearOrderedAddCommMonoid W] (D : Int → Int → W) (pw : Int → W)
    (v c : Int) (body bodyC : List Int)
    (h1 : tourCost D v body ≤ (body.map pw).sum + (body.map pw).sum)
    (h2 : tourCost D c bodyC ≤ (bodyC.map pw).sum + (bodyC.map pw).sum)
    (hvc : D v c = pw c) (hcv : D c v = pw c)
    (tri1 : lastOr v body ≠ v → D (lastOr v body) c ≤ D (lastOr v body) v + D v c)
    (tri2 : lastOr c bodyC ≠ c → D (lastOr c bodyC) v ≤ D (lastOr c bodyC) c + D c v)
    (hne : lastOr c bodyC ≠ v) :
    tourCost D v (body ++ c :: bodyC) ≤
      ((body ++ c :: bodyC).map pw).sum + ((body ++ c :: bodyC).map pw).sum := by
  have e1 : D (lastOr v body) c ≤
      (if lastOr v body = v then 0 else D (lastOr v body) v) + pw c := by
    by_cases h : lastOr v body = v
    · rw [if_pos h, h, hvc, zero_add]
    · rw [if_neg h, ← hvc]; exact tri1 h
  have e2 : D (lastOr c bodyC) v ≤
      (if lastOr c bodyC = c then 0 else D (lastOr c bodyC) c) + pw c := by
    by_cases h : lastOr c bodyC = c
    · rw [if_pos h, h, hcv, zero_add]
    · rw [if_neg h, ← hcv]; exact tri2 h
  unfold tourCost at h1 h2 ⊢
  rw [walkCost_append_cons, lastOr_append_cons, if_neg hne]
  simp only [List.map_append, List.map_cons, List.sum_append, List.sum_cons]
  calc walkCost D (v :: body) + D (lastOr v body) c + walkCost D (c :: bodyC) +
        D (lastOr c bodyC) v
      ≤ walkCost D (v :: body) +
          ((if lastOr v body = v then 0 else D (lastOr v body) v) + pw c) +
          walkCost D (c :: bodyC) +
          ((if lastOr c bodyC = c then 0 else D (lastOr c bodyC) c) + pw c) :=
        add_le_add (add_le_add (add_le_add (le_refl _) e1) (le_refl _)) e2
    _ = (walkCost D (v :: body) + (if lastOr v body = v then 0 else D (lastOr v body) v)) +
          (walkCost D (c :: bodyC) + (if lastOr c bodyC = c then 0 else D (lastOr c bodyC) c)) +
          (pw c + pw c) := by abel
    _ ≤ ((body.map pw).sum + (body.map pw).sum) + ((bodyC.map pw).sum + (bodyC.map pw).sum) +
          (pw c + pw c) := add_le_add (add_le_add h1 h2) (le_refl _)
    _ = _ := by abel

theorem Complete.distance {g : Graph W} (hc : Complete g)
    (haversineDistance : Coordinates W → Coordinates W → W) (a b : Int × Nat)
    (ha : a ∈ g.vertexSet) (hb : b ∈ g.vertexSet) (hne : a.2 ≠ b.2) (e : Edge W)
    (he : e ∈ (g.mem a.2).adj) (hd : e.dest = b.2) :
    calculateDistance haversineDistance g a.2 b.2 = e.distance := by
  obtain ⟨e1, he1, hd1, hcalc⟩ := calculateDistance_edge haversineDistance g a.2 b.2 e he hd
  rw [hcalc]
  have h := hc a ha b hb hne
  have hm : e ∈ (g.mem a.2).adj.filter (fun e => e.dest = b.2) := by
    rw [List.mem_filter]; exact ⟨he, by simpa using hd⟩
  have hm1 : e1 ∈ (g.mem a.2).adj.filter (fun e => e.dest = b.2) := by
    rw [List.mem_filter]; exact ⟨he1, by simpa using hd1⟩
  obtain ⟨x, hx⟩ := List.length_eq_one.mp h
  rw [hx, List.mem_singleton] at hm hm1
  rw [hm, hm1]

theorem idDistance_entries [Zero W] (haversineDistance : Coordinates W → Coordinates W → W)
    {g : Graph W} (hm : MapOk g) (a b : Int × Nat) (ha : a ∈ g.vertexSet)
    (hb : b ∈ g.vertexSet) :
    idDistance haversineDistance g a.1 b.1 = calculateDistance haversineDistance g a.2 b.2 := by
  unfold idDistance
  rw [hm.findVertex_entry a ha, hm.findVertex_entry b hb]

theorem MapOk.ptr_ne {g : Graph W} (hm : MapOk g) (a b : Int × Nat) (ha : a ∈ g.vertexSet)
    (hb : b ∈ g.vertexSet) (h : a.1 ≠ b.1) : a.2 ≠ b.2 := by
  intro hc
  exact h (congrArg Prod.fst (hm.ptr_inj a b ha hb hc))

section MetricProofs
variable [LinearOrderedAddCommMonoid W]

theorem Metric.idDistance_edge {g : Graph W} (hmet : Metric g) (hm : MapOk g)
    (haversineDistance : Coordinates W → Coordinates W → W) (a b : Int × Nat)
    (ha : a ∈ g.vertexSet) (hb : b ∈ g.vertexSet) (hne : a.1 ≠ b.1) (e : Edge W)
    (he : e ∈ (g.mem a.2).adj) (hd : e.dest = b.2) :
    idDistance haversineDistance g a.1 b.1 = e.distance ∧
      idDistance haversineDistance g b.1 a.1 = e.distance := by
  have hp := hm.ptr_ne a b ha hb hne
  rw [idDistance_entries haversineDistance hm a b ha hb,
    idDistance_entries haversineDistance hm b a hb ha]
  refine ⟨hmet.complete.distance haversineDistance a b ha hb hp e he hd, ?_⟩
  obtain ⟨e1, he1, hd1, hw1⟩ := hmet.symmetric a ha e he
  rw [hd] at he1
  rw [← hw1]
  exact hmet.complete.distance haversineDistance b a hb ha (Ne.symm hp) e1 he1 hd1

theorem Metric.idDistance_triangle {g : Graph W} (hmet : Metric g) (hm : MapOk g)
    (haversineDistance : Coordinates W → Coordinates W → W) (a b c : Int × Nat)
    (ha : a ∈ g.vertexSet) (hb : b ∈ g.vertexSet) (hc : c ∈ g.vertexSet) (hab : a.1 ≠ b.1)
    (hbc : b.1 ≠ c.1) (hac : a.1 ≠ c.1) :
    idDistance haversineDistance g a.1 c.1 ≤
      idDistance haversineDistance g a.1 b.1 + idDistance haversineDistance g b.1 c.1 := by
  have pab := hm.ptr_ne a b ha hb hab
  have pbc := hm.ptr_ne b c hb hc hbc
  have pac := hm.ptr_ne a c ha hc hac
  obtain ⟨eab, heab, hdab⟩ := hmet.complete.edge a b ha hb pab
  obtain ⟨ebc, hebc, hdbc⟩ := hmet.complete.edge b c hb hc pbc
  obtain ⟨eac, heac, hdac⟩ := hmet.complete.edge a c ha hc pac
  rw [(hmet.idDistance_edge hm haversineDistance a b ha hb hab eab heab hdab).1,
    (hmet.idDistance_edge hm haversineDistance b c hb hc hbc ebc hebc hdbc).1,
    (hmet.idDistance_edge hm haversineDistance a c ha hc hac eac heac hdac).1]
  exact hmet.triangle a ha eab heab ebc (by rw [hdab]; exact hebc) eac heac
    (by rw [hdab]; exact pab) (by rw [hdab, hdbc]; exact pbc) (by rw [hdbc]; exact pac)
    (by rw [hdac, hdbc])

end MetricProofs

theorem visitedKeys_nodup (g : Graph W) (hm : MapOk g) : (visitedKeys g).Nodup := by
  unfold visitedKeys
  exact List.Nodup.sublist (List.Sublist.map _ (List.filter_sublist _)) hm.1

theorem visitedKeys_subset (g : Graph W) (k : Int) (h : k ∈ visitedKeys g) :
    ∃ kv ∈ g.vertexSet, kv.1 = k := by
  unfold visitedKeys at h
  obtain ⟨kv, hkv, hk⟩ := List.mem_map.mp h
  exact ⟨kv, (List.mem_filter.mp hkv).1, hk⟩

/-! ## Preorder walk -/

theorem take_succ_set {α : Type} (x : α) : ∀ (l : List α) (n : Nat), n < l.length →
    (l.set n x).take (n + 1) = l.take n ++ [x]
  | [], _, h => by simp at h
  | _ :: _, 0, _ => by simp
  | a :: l, n + 1, h => by
    simp only [List.length_cons, Nat.add_lt_add_iff_right] at h
    simp [take_succ_set x l n h]

theorem take_of_take_le {α : Type} (l l1 : List α) (n m : Nat) (hnm : n ≤ m)
    (h : l.take m = l1.take m) : l.take n = l1.take n := by
  have h1 := congrArg (List.take n) h
  rw [List.take_take, List.take_take, Nat.min_eq_left hnm] at h1
  exact h1

theorem PreInv.unvisited_length {g0 : Graph W} {par : Nat → Option EdgePtr} {st : PreState W}
    (h : PreInv g0 par st) : st.pathNum + (unvisitedKeys st.g).length = g0.vertexSet.length := by
  have := visitedKeys_unvisitedKeys_length st.g
  rw [h.shape.1] at this
  rw [h.num]
  exact this

theorem PrePost.start {g0 : Graph W} {par : Nat → Option EdgePtr} {st : PreState W}
    (h : PreInv g0 par st) : PrePost g0 par st st :=
  ⟨h, fun _ hp => hp, rfl, le_refl _, fun p _ h1 h2 => by rw [h1] at h2; exact absurd h2 (by simp)⟩

theorem PrePost.chain {g0 : Graph W} {par : Nat → Option EdgePtr} {st st1 st2 : PreState W}
    (h1 : PrePost g0 par st st1) (h2 : PrePost g0 par st1 st2) : PrePost g0 par st st2 := by
  refine ⟨h2.inv, fun p hp => h2.mono p (h1.mono p hp), ?_, le_trans h1.numLe h2.numLe, ?_⟩
  · rw [take_of_take_le _ _ _ _ h1.numLe h2.keep]
    exact h1.keep
  · intro p hp hv2 hv i e he hpar
    cases hv1 : (st1.g.mem p).visited with
    | true => exact h2.mono _ (h1.closed p hp hv1 hv i e he hpar)
    | false => exact h2.closed p hp hv2 hv1 i e he hpar

theorem PreInv.written_nodup {g0 : Graph W} {par : Nat → Option EdgePtr} {st : PreState W}
    (h : PreInv g0 par st) (hm : MapOk g0) : (st.path.take st.pathNum).Nodup :=
  h.written.nodup_iff.mpr (visitedKeys_nodup st.g (h.shape.mapOk hm))

theorem PreInv.written_entry {g0 : Graph W} {par : Nat → Option EdgePtr} {st : PreState W}
    (h : PreInv g0 par st) (k : Int) (hk : k ∈ st.path.take st.pathNum) :
    ∃ kv ∈ g0.vertexSet, kv.1 = k := by
  obtain ⟨kv, hkv, hk1⟩ := visitedKeys_subset st.g k (h.written.subset hk)
  exact ⟨kv, by rw [← h.shape.1]; exact hkv, hk1⟩

/-- The walk of a child's subtree extends the tour of the parent within twice the weight of
the tree edges. -/
theorem SegCost.extend [LinearOrderedAddCommMonoid W]
    (haversineDistance : Coordinates W → Coordinates W → W) (g0 : Graph W) (hm : MapOk g0)
    (hmet : Metric g0) (par : Nat → Option EdgePtr) (n0 v c i : Nat) (e : Edge W)
    (st st1 : PreState W) (hpost : PrePost g0 par st st1) (hv : Stored g0 v)
    (hc : Stored g0 c) (hpar : par c = some (v, i)) (he : (g0.mem v).adj[i]? = some e)
    (hd : e.dest = c) (hseg : SegCost haversineDistance g0 par n0 v st)
    (hcall : SegCost haversineDistance g0 par st.pathNum c st1) :
    SegCost haversineDistance g0 par n0 v st1 := by
  obtain ⟨body, hb, hbc⟩ := hseg
  obtain ⟨bodyC, hC, hCc⟩ := hcall
  have htake : (st1.path.take st1.pathNum).take st.pathNum = st.path.take st.pathNum := by
    rw [List.take_take, Nat.min_eq_left hpost.numLe]
    exact hpost.keep
  have hn0 : n0 ≤ (st.path.take st.pathNum).length := by
    by_contra hcon
    rw [List.drop_eq_nil_of_le (by omega)] at hb
    exact absurd hb (by simp)
  have hsplit : (st1.path.take st1.pathNum).drop n0 =
      (g0.mem v).id :: (body ++ (g0.mem c).id :: bodyC) := by
    have h1 := List.take_append_drop st.pathNum (st1.path.take st1.pathNum)
    rw [htake] at h1
    rw [← h1, List.drop_append_of_le_length hn0, hb, hC]
    rfl
  have hnd : ((g0.mem v).id :: (body ++ (g0.mem c).id :: bodyC)).Nodup := by
    rw [← hsplit]
    exact List.Nodup.sublist (List.drop_sublist _ _) (hpost.inv.written_nodup hm)
  have hentry : ∀ k, k ∈ (g0.mem v).id :: (body ++ (g0.mem c).id :: bodyC) →
      ∃ kv ∈ g0.vertexSet, kv.1 = k := by
    intro k hk
    rw [← hsplit] at hk
    exact hpost.inv.written_entry k (List.mem_of_mem_drop hk)
  obtain ⟨kvv, hkvv, hkv2⟩ := hv.exists
  obtain ⟨kvc, hkvc, hkc2⟩ := hc.exists
  have hidv : (g0.mem v).id = kvv.1 := by rw [← hkv2]; exact hm.2 kvv hkvv
  have hidc : (g0.mem c).id = kvc.1 := by rw [← hkc2]; exact hm.2 kvc hkvc
  rw [List.nodup_cons] at hnd
  have hvc : kvv.1 ≠ kvc.1 := by
    intro hcon
    apply hnd.1
    rw [hidv, hidc, hcon]
    simp
  have hdist := hmet.idDistance_edge hm haversineDistance kvv kvc hkvv hkvc hvc e
    (by rw [hkv2]; exact List.getElem?_mem he) (by rw [hkc2]; exact hd)
  have hpw : idParWeight g0 par kvc.1 = e.distance := by
    unfold idParWeight
    rw [hm.findVertex_entry kvc hkvc, hkc2]
    exact parWeight_edge g0 par c v i e hpar he
  have hlc_mem : lastOr (g0.mem c).id bodyC ∈ (g0.mem c).id :: bodyC := lastOr_mem _ _
  have hlc_ne_v : lastOr (g0.mem c).id bodyC ≠ (g0.mem v).id := by
    intro hcon
    apply hnd.1
    rw [← hcon]
    exact List.mem_append_right _ hlc_mem
  refine ⟨body ++ (g0.mem c).id :: bodyC, hsplit, ?_⟩
  apply tourCost_extend (idDistance haversineDistance g0) (idParWeight g0 par) (g0.mem v).id
    (g0.mem c).id body bodyC hbc hCc
  · rw [hidv, hidc, hdist.1, hpw]
  · rw [hidv, hidc, hdist.2, hpw]
  · intro hl
    have hl_mem : lastOr (g0.mem v).id body ∈ body := by
      rcases List.mem_cons.mp (lastOr_mem (g0.mem v).id body) with h1 | h1
      · exact absurd h1 hl
      · exact h1
    obtain ⟨kvl, hkvl, hkl⟩ := hentry _ (List.mem_cons_of_mem _ (List.mem_append_left _ hl_mem))
    have hlc : lastOr (g0.mem v).id body ≠ (g0.mem c).id := by
      intro hcon
      have := (List.nodup_append.mp hnd.2).2.2
      exact this hl_mem (by rw [hcon]; simp)
    rw [← hkl] at hl hlc ⊢
    rw [hidv] at hl ⊢
    rw [hidc] at hlc ⊢
    exact hmet.idDistance_triangle hm haversineDistance kvl kvv kvc hkvl hkvv hkvc hl hvc hlc
  · intro hl
    obtain ⟨kvl, hkvl, hkl⟩ := hentry _ (List.mem_cons_of_mem _ (List.mem_append_right _ hlc_mem))
    have hlv := hlc_ne_v
    rw [← hkl] at hl hlv ⊢
    rw [hidc] at hl ⊢
    rw [hidv] at hlv ⊢
    exact hmet.idDistance_triangle hm haversineDistance kvl kvc kvv hkvl hkvc hkvv hl
      (Ne.symm hvc) hlv
  · exact hlc_ne_v

theorem preEdgeLoop_post [LinearOrderedAddCommMonoid W]
    (haversineDistance : Coordinates W → Coordinates W → W) (g0 : Graph W) (hm : MapOk g0)
    (hcl : Closed g0) (par : Nat → Option EdgePtr)
    (rec : Nat → PreState W → Option (PreState W)) (fuel : Nat) (v : Nat) (hv : Stored g0 v)
    (n0 : Nat)
    (hrec : ∀ (d : Nat) (st : PreState W), PreInv g0 par st → Stored g0 d →
      (st.g.mem d).visited = false → (unvisitedKeys st.g).length ≤ fuel →
      ∃ st1, rec d st = some st1 ∧ PrePost g0 par st st1 ∧ (st1.g.mem d).visited = true ∧
        (Metric g0 → SegCost haversineDistance g0 par st.pathNum d st1)) :
    ∀ (es : List (Edge W)) (i : Nat) (st : PreState W), (g0.mem v).adj.drop i = es →
      PreInv g0 par st → (unvisitedKeys st.g).length ≤ fuel →
      (∀ j e, j < i → (g0.mem v).adj[j]? = some e → par e.dest = some (v, j) →
        (st.g.mem e.dest).visited = true) →
      (Metric g0 → SegCost haversineDistance g0 par n0 v st) →
      ∃ st1, preEdgeLoop rec v i es st = some st1 ∧ PrePost g0 par st st1 ∧
        (∀ j e, (g0.mem v).adj[j]? = some e → par e.dest = some (v, j) →
          (st1.g.mem e.dest).visited = true) ∧
        (Metric g0 → SegCost haversineDistance g0 par n0 v st1)
  | [], i, st, hes, h, _, hdone, hcost => by
    refine ⟨st, rfl, PrePost.start h, fun j e he hpar => ?_, hcost⟩
    have hlen : (g0.mem v).adj.length ≤ i := List.drop_eq_nil_iff.mp hes
    have hj : j < (g0.mem v).adj.length := by
      by_contra hc
      rw [List.getElem?_eq_none (by omega)] at he
      exact absurd he (by simp)
    exact hdone j e (by omega) he hpar
  | e :: rest, i, st, hes, h, hfuel, hdone, hcost => by
    have he : (g0.mem v).adj[i]? = some e := by
      have := List.getElem?_drop (g0.mem v).adj i 0
      rw [hes] at this
      simpa using this.symm
    have hrest : (g0.mem v).adj.drop (i + 1) = rest := by
      have := congrArg (List.drop 1) hes
      rw [List.drop_drop] at this
      simpa [Nat.add_comm] using this
    have hd : Stored g0 e.dest := hcl.stored hv (List.getElem?_mem he)
    rw [preEdgeLoop]
    by_cases hc : (st.g.mem e.dest).visited = false ∧ (st.g.mem e.dest).path = some (v, i)
    · rw [if_pos hc]
      obtain ⟨st1, hr, hpost, hvis, hcall⟩ := hrec e.dest st h hd hc.1 hfuel
      rw [hr]
      simp only []
      have hfuel1 : (unvisitedKeys st1.g).length ≤ fuel := by
        have h1 := h.unvisited_length
        have h2 := hpost.inv.unvisited_length
        have h3 := hpost.numLe
        omega
      obtain ⟨st2, hr2, hpost2, hall, hcost2⟩ := preEdgeLoop_post haversineDistance g0 hm hcl
        par rec fuel v hv n0 hrec rest (i + 1) st1 hrest hpost.inv hfuel1 (by
          intro j e2 hj he2 hpar
          by_cases hji : j = i
          · subst hji
            rw [he] at he2
            cases Option.some.inj he2
            exact hvis
          · exact hpost.mono _ (hdone j e2 (by omega) he2 hpar))
        (fun hmet => SegCost.extend haversineDistance g0 hm hmet par n0 v e.dest i e st st1
          hpost hv hd (by rw [← h.paths]; exact hc.2) he rfl (hcost hmet) (hcall hmet))
      exact ⟨st2, hr2, hpost.chain hpost2, hall, hcost2⟩
    · rw [if_neg hc]
      exact preEdgeLoop_post haversineDistance g0 hm hcl par rec fuel v hv n0 hrec rest (i + 1)
        st hrest h hfuel (by
        intro j e2 hj he2 hpar
        by_cases hji : j = i
        · subst hji
          rw [he] at he2
          cases Option.some.inj he2
          by_contra hvis
          exact hc ⟨by simpa using hvis, by rw [h.paths]; exact hpar⟩
        · exact hdone j e2 (by omega) he2 hpar) hcost

theorem preOrderTraversal_post [LinearOrderedAddCommMonoid W]
    (haversineDistance : Coordinates W → Coordinates W → W) (g0 : Graph W) (hm : MapOk g0)
    (hcl : Closed g0) (par : Nat → Option EdgePtr) :
    ∀ (fuel : Nat) (v : Nat) (st : PreState W), PreInv g0 par st → Stored g0 v →
      (st.g.mem v).visited = false → (unvisitedKeys st.g).length ≤ fuel →
      ∃ st1, preOrderTraversal fuel v st = some st1 ∧ PrePost g0 par st st1 ∧
        (st1.g.mem v).visited = true ∧
        st1.path.take (st.pathNum + 1) = st.path.take st.pathNum ++ [(g0.mem v).id] ∧
        (Metric g0 → SegCost haversineDistance g0 par st.pathNum v st1) := by
  intro fuel
  induction fuel with
  | zero =>
    intro v st h hv hvis hfuel
    exfalso
    obtain ⟨kv, hkv, hkp⟩ := hv.exists
    have := (unvisitedKeys_mark st.g (h.shape.mapOk hm) kv (by rw [h.shape.1]; exact hkv)
      (by rw [hkp]; exact hvis)).length_eq
    simp only [List.length_cons] at this
    omega
  | succ fuel ih =>
    intro v st h hv hvis hfuel
    obtain ⟨kv, hkv, hkp⟩ := hv.exists
    have hm1 := h.shape.mapOk hm
    have hkv1 : kv ∈ st.g.vertexSet := by rw [h.shape.1]; exact hkv
    have hkvis : (st.g.mem kv.2).visited = false := by rw [hkp]; exact hvis
    have hunv := (unvisitedKeys_mark st.g hm1 kv hkv1 hkvis).length_eq
    simp only [List.length_cons] at hunv
    have hvisk := visitedKeys_mark st.g hm1 kv hkv1 hkvis
    rw [hkp] at hunv hvisk
    have hlt : st.pathNum < st.path.length := by
      have := h.unvisited_length
      rw [h.len]
      omega
    have hid : (st.g.mem v).id = kv.1 := by rw [← hkp]; exact hm1.2 kv hkv1
    have hid0 : (g0.mem v).id = kv.1 := by rw [← (h.shape.2 v).1]; exact hid
    have hinv0 : PreInv g0 par
        { g := setVisited st.g v true, path := st.path.set st.pathNum kv.1,
          pathNum := st.pathNum + 1 } := by
      refine ⟨h.shape.comp (SameShape.of_setVisited _ _ _), fun p => by simp [h.paths], by
        simp [h.len], ?_, ?_⟩
      · show ((st.path.set st.pathNum kv.1).take (st.pathNum + 1)).Perm
          (visitedKeys (setVisited st.g v true))
        rw [take_succ_set _ _ _ hlt]
        have h2 : (st.path.take st.pathNum ++ [kv.1]).Perm (kv.1 :: st.path.take st.pathNum) :=
          List.perm_append_singleton _ _
        exact h2.trans ((List.Perm.cons kv.1 h.written).trans hvisk.symm)
      · show st.pathNum + 1 = (visitedKeys (setVisited st.g v true)).length
        rw [hvisk.length_eq, List.length_cons, ← h.num]
    have hadj : ((setVisited st.g v true).mem v).adj = (g0.mem v).adj := by
      rw [setVisited_adj]; exact (h.shape.2 v).2.1
    obtain ⟨st1, hrun, hpost, hall, hcost⟩ := preEdgeLoop_post haversineDistance g0 hm hcl par
      (preOrderTraversal fuel) fuel v hv st.pathNum (fun d st2 h2 hd hdv hf => by
        obtain ⟨st3, h3, h4, h5, _, h7⟩ := ih d st2 h2 hd hdv hf
        exact ⟨st3, h3, h4, h5, h7⟩)
      (g0.mem v).adj 0 _ (by simp) hinv0 (by
        show (unvisitedKeys (setVisited st.g v true)).length ≤ fuel
        omega) (fun j e hj => absurd hj (Nat.not_lt_zero _))
      (fun _ => by
        refine ⟨[], ?_, by simp [tourCost, walkCost, lastOr]⟩
        show ((st.path.set st.pathNum kv.1).take (st.pathNum + 1)).drop st.pathNum = _
        rw [take_succ_set _ _ _ hlt, hid0]
        have hl : (st.path.take st.pathNum).length = st.pathNum := by
          rw [List.length_take]; omega
        rw [List.drop_append_of_le_length (by omega), List.drop_eq_nil_of_le (by omega)]
        rfl)
    refine ⟨st1, ?_, ⟨hpost.inv, ?_, ?_, ?_, ?_⟩, ?_, ?_, hcost⟩
    · rw [preOrderTraversal]
      simp only [writePath, setVisited_id, hid, hlt, if_true, hadj]
      exact hrun
    · intro p hp
      apply hpost.mono
      show ((setVisited st.g v true).mem p).visited = true
      rw [setVisited_visited]; split
      · rfl
      · exact hp
    · have h1 := take_of_take_succ _ _ _ hpost.keep
      rw [h1]
      exact take_set_self _ _ _
    · have := hpost.numLe
      simp only at this
      omega
    · intro p hp hv1 hv0 i e he hpar
      by_cases hpv : p = v
      · subst hpv
        exact hall i e he hpar
      · exact hpost.closed p hp hv1 (by
          show ((setVisited st.g v true).mem p).visited = false
          rw [setVisited_visited_other _ _ _ _ hpv]; exact hv0) i e he hpar
    · apply hpost.mono
      simp
    · rw [hpost.keep, hid0]
      exact take_succ_set _ _ _ hlt

theorem clearVisited_path_aux (vs : List (Int × Nat)) (g : Graph W) (p : Nat) :
    ((vs.foldl (fun acc v => setVisited acc v.2 false) g).mem p).path = (g.mem p).path := by
  induction vs generalizing g with
  | nil => rfl
  | cons v vs ih => simp [ih]

theorem clearVisited_path (g : Graph W) (p : Nat) :
    ((clearVisited g).mem p).path = (g.mem p).path :=
  clearVisited_path_aux g.vertexSet g p

theorem unvisitedKeys_nil_of_all (g : Graph W)
    (h : ∀ kv ∈ g.vertexSet, (g.mem kv.2).visited = true) : unvisitedKeys g = [] := by
  unfold unvisitedKeys
  rw [List.map_eq_nil_iff, List.filter_eq_nil_iff]
  intro a ha
  simp [h a ha]

/-- The walk started at the root of a spanning tree of `path` edges, on cleared marks, returns
and leaves in the vector the ids of all vertices, the id of the root first. -/
theorem preOrderTraversal_run [LinearOrderedAddCommMonoid W]
    (haversineDistance : Coordinates W → Coordinates W → W) (g : Graph W) (hm : MapOk g)
    (hcl : Closed g) (g1 : Graph W)
    (start : Nat) (hs : Stored g start) (hshape : SameShape g g1)
    (htree : ∀ p, Stored g p → ∃ n, TreeDepth g start (fun q => (g1.mem q).path) p n)
    (path : List Int) (hlen : path.length = g.vertexSet.length) :
    ∃ st1, preOrderTraversal (g1.vertexSet.length + 1) start
        { g := clearVisited g1, path := path, pathNum := 0 } = some st1 ∧
      PreInv g (fun q => (g1.mem q).path) st1 ∧ st1.path.Perm (g.vertexSet.map Prod.fst) ∧
      st1.path.take 1 = [(g.mem start).id] ∧
      (Metric g → ∃ body, st1.path = (g.mem start).id :: body ∧
        tourCost (idDistance haversineDistance g) (g.mem start).id body ≤
          (body.map (idParWeight g (fun q => (g1.mem q).path))).sum +
          (body.map (idParWeight g (fun q => (g1.mem q).path))).sum) := by
  have hcs := clearVisited_sameShape g1
  have hshape2 : SameShape g (clearVisited g1) := hshape.comp hcs
  have hinit : PreInv g (fun q => (g1.mem q).path)
      { g := clearVisited g1, path := path, pathNum := 0 } :=
    ⟨hshape2, fun p => clearVisited_path g1 p, hlen, by
      show (path.take 0).Perm (visitedKeys (clearVisited g1))
      rw [visitedKeys_clearVisited]; simp, by
      show 0 = (visitedKeys (clearVisited g1)).length
      rw [visitedKeys_clearVisited]; rfl⟩
  have hunvis : ∀ p, Stored g p → ((clearVisited g1).mem p).visited = false := by
    intro p hp
    obtain ⟨kv, hkv, hkp⟩ := hp.exists
    rw [← hkp]
    exact clearVisited_visited g1 kv (by rw [hshape.1]; exact hkv)
  obtain ⟨st1, hrun, hpost, hvis, htake, hcost⟩ := preOrderTraversal_post haversineDistance g hm
    hcl (fun q => (g1.mem q).path) (g1.vertexSet.length + 1) start _ hinit hs (hunvis start hs) (by
      show (unvisitedKeys (clearVisited g1)).length ≤ g1.vertexSet.length + 1
      have := hinit.unvisited_length
      rw [hshape.1]
      simp only at this
      omega)
  have hall : ∀ p n, TreeDepth g start (fun q => (g1.mem q).path) p n →
      Stored g p ∧ (st1.g.mem p).visited = true := by
    intro p n hd
    induction hd with
    | root => exact ⟨hs, hvis⟩
    | @node v a i n e _ hp he hed _ _ ih =>
      obtain ⟨ha, hav⟩ := ih
      have hv : Stored g v := hed ▸ hcl.stored ha (List.getElem?_mem he)
      refine ⟨hv, ?_⟩
      have := hpost.closed a ha hav (hunvis a ha) i e he (by rw [hed]; exact hp)
      rw [hed] at this
      exact this
  have hnil : unvisitedKeys st1.g = [] := by
    apply unvisitedKeys_nil_of_all
    intro kv hkv
    rw [hpost.inv.shape.1] at hkv
    obtain ⟨n, hn⟩ := htree kv.2 (Stored.of_mem hkv)
    exact (hall kv.2 n hn).2
  have hnum : st1.pathNum = st1.path.length := by
    have := hpost.inv.unvisited_length
    rw [hnil, hpost.inv.len.symm] at this
    simpa using this
  refine ⟨st1, hrun, hpost.inv, ?_, ?_, ?_⟩
  · have h1 := hpost.inv.written
    rw [hnum, List.take_length, visitedKeys_all st1.g hnil, hpost.inv.shape.1] at h1
    exact h1
  · simpa using htake
  · intro hmet
    obtain ⟨body, hb, hbc⟩ := hcost hmet
    rw [hnum, List.take_length] at hb
    exact ⟨body, by simpa using hb, hbc⟩

theorem pathCostLoop_isSome [LinearOrderedAddCommMonoid W]
    (add : WithTop W → WithTop W → WithTop W)
    (haversineDistance : Coordinates W → Coordinates W → W) (g : Graph W) :
    ∀ (l : List Int) (cost : WithTop W), (∀ x ∈ l, (findVertex g x).isSome = true) →
      (pathCostLoop add haversineDistance g cost l).isSome = true
  | [], _, _ => rfl
  | [_], _, _ => rfl
  | a :: b :: rest, cost, h => by
    obtain ⟨pa, hpa⟩ := Option.isSome_iff_exists.mp (h a (by simp))
    obtain ⟨pb, hpb⟩ := Option.isSome_iff_exists.mp (h b (by simp))
    rw [pathCostLoop]
    simp only [hpa, hpb]
    exact pathCostLoop_isSome add haversineDistance g (b :: rest) _
      (fun x hx => h x (List.mem_cons_of_mem _ hx))

theorem Complete.reachable {g : Graph W} (hc : Complete g) (a : Int × Nat)
    (ha : a ∈ g.vertexSet) : ∀ kv ∈ g.vertexSet, Reachable g a.2 kv.2 := by
  intro kv hkv
  by_cases h : a.2 = kv.2
  · rw [← h]; exact Reachable.refl
  · obtain ⟨e, he, hed⟩ := hc.edge a kv ha hkv h
    rw [← hed]
    exact Reachable.step Reachable.refl he

section TriangularProofs
variable [LinearOrderedAddCommMonoid W]

theorem extractMinFirst_isExtractMin :
    IsExtractMin (extractMinFirst : Graph W → List Nat → Option (Nat × List Nat)) := by
  intro g q
  induction q with
  | nil => intro h; exact absurd rfl h
  | cons x rest ih =>
    intro _
    by_cases hr : rest = []
    · subst hr
      exact ⟨x, [], by simp [extractMinFirst], List.Perm.refl _, fun y hy => by
        simp only [List.mem_singleton] at hy
        rw [hy]⟩
    · obtain ⟨y, rest1, hy, hperm, hmin⟩ := ih hr
      by_cases hlt : (g.mem y).dist < (g.mem x).dist
      · refine ⟨y, x :: rest1, by simp [extractMinFirst, hy, hlt], ?_, ?_⟩
        · exact (List.Perm.swap x y rest1).trans (List.Perm.cons x hperm)
        · intro z hz
          rcases List.mem_cons.mp hz with h | h
          · rw [h]; exact le_of_lt hlt
          · exact hmin z h
      · refine ⟨x, rest, by simp [extractMinFirst, hy, hlt], List.Perm.refl _, ?_⟩
        intro z hz
        rcases List.mem_cons.mp hz with h | h
        · rw [h]
        · exact le_trans (not_lt.mp hlt) (hmin z h)

/-- Spanning tree of `path` edges that `prim` leaves behind when every stored vertex can be
reached from `start`. -/
theorem prim_tree (extractMin : Graph W → List Nat → Option (Nat × List Nat))
    (hex : IsExtractMin extractMin) (g : Graph W) (hm : MapOk g) (hcl : Closed g)
    (start : Nat) (hs : Stored g start) (hreach : ∀ kv ∈ g.vertexSet, Reachable g start kv.2) :
    ∃ g1, prim extractMin g start = some g1 ∧
      PrimInv g start (fun _ _ => False) { g := g1, q := [] } ∧
      (∀ p, Stored g p → (g1.mem p).visited = true) ∧
      ∀ p, Stored g p → ∃ n, TreeDepth g start (fun q => (g1.mem q).path) p n := by
  obtain ⟨g1, hrun, hinv⟩ := prim_inv extractMin hex g hm hcl start hs
  have hvis : ∀ p, Stored g p → (g1.mem p).visited = true := by
    intro p hp
    obtain ⟨kv, hkv, hkp⟩ := hp.exists
    rw [← hkp]
    exact (hinv.reached hcl hs (hreach kv hkv)).2
  refine ⟨g1, hrun, hinv, hvis, fun p hp => ?_⟩
  obtain ⟨n, hn⟩ := hinv.tree p hp (hvis p hp)
  refine ⟨n, hn.mono ?_⟩
  intro q x hq
  unfold primPar at hq
  split at hq
  · exact hq
  · exact absurd hq (by simp)

theorem treeWeight_congr (g g1 : Graph W) (hs : SameShape g g1) (start : Nat)
    (B B1 : Nat → Option EdgePtr) (h : ∀ p, Stored g p → p ≠ start → B p = B1 p) :
    treeWeight g start B = treeWeight g1 start B1 := by
  unfold treeWeight
  rw [hs.1]
  congr 1
  apply List.map_congr_left
  intro kv hkv
  by_cases hks : kv.2 = start
  · simp [hks]
  · simp only [hks, if_false]
    unfold parWeight
    rw [h kv.2 (Stored.of_mem hkv) hks]
    cases B1 kv.2 with
    | none => rfl
    | some ep => simp only [(hs.2 ep.1).2.1]

end TriangularProofs

section PrimMinimum
variable [LinearOrderedCancelAddCommMonoid W]

/-- Claim C4: in a well-formed graph whose edges come in opposite pairs of equal weight and in
which every vertex can be reached from the stored vertex `start`, `prim(start)` returns and
changes scratch fields only, the `path` edges it leaves form a spanning tree rooted at `start`,
and the sum of their weights over the vertices other than `start` is at most the weight of every
spanning tree: it is the minimum spanning tree weight.  The queue is any whose `extractMin`
returns a vertex of smallest `dist`. -/
theorem prim_minimum (extractMin : Graph W → List Nat → Option (Nat × List Nat))
    (hex : IsExtractMin extractMin) (g : Graph W) (hm : MapOk g) (hcl : Closed g)
    (hsym : Symmetric g) (start : Nat) (hs : Stored g start)
    (hreach : ∀ kv ∈ g.vertexSet, Reachable g start kv.2) :
    ∃ g1, prim extractMin g start = some g1 ∧ SameShape g g1 ∧
      IsSpanningTree g start (fun p => (g1.mem p).path) ∧
      ∀ A, IsSpanningTree g start A →
        treeWeight g start (fun p => (g1.mem p).path) ≤ treeWeight g start A := by
  obtain ⟨g1, hrun, hinv, hvis, htree⟩ := prim_tree extractMin hex g hm hcl start hs hreach
  refine ⟨g1, hrun, hinv.shape, ?_, fun A hA => ?_⟩
  · intro kv hkv
    exact htree kv.2 (Stored.of_mem hkv)
  · obtain ⟨B, _, hBw, hBa⟩ := hinv.promise hsym
      (fun a b c h => le_of_add_le_add_right h) A hA
    have := treeWeight_congr g g (SameShape.same g) start B (fun p => (g1.mem p).path)
      (fun p hp hps => hBa p hp hps (hvis p hp))
    rw [← this]
    exact hBw

/-- Witness for claim C4: the four-vertex scenario with the first-in queue. -/
theorem prim_minimum_witness :
    ∃ g1, prim extractMinFirst k4 0 = some g1 ∧ SameShape k4 g1 ∧
      IsSpanningTree k4 0 (fun p => (g1.mem p).path) ∧
      ∀ A, IsSpanningTree k4 0 A →
        treeWeight k4 0 (fun p => (g1.mem p).path) ≤ treeWeight k4 0 A :=
  prim_minimum extractMinFirst extractMinFirst_isExtractMin k4 (by decide) (by decide)
    (by decide) 0 (by decide) (Complete.reachable (by decide) (0, 0) (by decide))

end PrimMinimum

section TriangularProofs
variable [LinearOrderedAddCommMonoid W]

/-- Claim C6: in a well-formed graph that stores vertex 0 and in which every vertex can be
reached from vertex 0 by direct edges, `tspTriangularApproximation(path)`, called with `path`
pre-sized to the number of vertices, returns (so the walk never writes outside `path`), and
afterwards `path` has one entry more than there are vertices, starts and ends with 0, and
without its last entry lists every stored id exactly once. -/
theorem tspTriangularApproximation_path (add : WithTop W → WithTop W → WithTop W)
    (extractMin : Graph W → List Nat → Option (Nat × List Nat)) (hex : IsExtractMin extractMin)
    (haversineDistance : Coordinates W → Coordinates W → W) (g : Graph W) (path : List Int)
    (hm : MapOk g) (hcl : Closed g) (v0 : Nat) (h0 : findVertex g 0 = some v0)
    (hreach : ∀ kv ∈ g.vertexSet, Reachable g v0 kv.2)
    (hlen : path.length = g.vertexSet.length) :
    ∃ c path1 g1, tspTriangularApproximation add extractMin haversineDistance g path =
        some (c, path1, g1) ∧
      path1.length = g.vertexSet.length + 1 ∧ path1.head? = some 0 ∧
      path1.getLast? = some 0 ∧ path1.dropLast.Perm (g.vertexSet.map Prod.fst) := by
  have hmem0 := findVertex_mem g 0 v0 h0
  have hs : Stored g v0 := Stored.of_mem hmem0
  obtain ⟨g1, hprim, hinv, _, htree⟩ := prim_tree extractMin hex g hm hcl v0 hs hreach
  obtain ⟨st1, hwalk, hpre, hperm, htake, _⟩ := preOrderTraversal_run haversineDistance g hm
    hcl g1 v0 hs hinv.shape htree path hlen
  have hid0 : (g.mem v0).id = 0 := hm.2 (0, v0) hmem0
  rw [hid0] at htake
  have hsome : (pathCostLoop add haversineDistance st1.g 0 (st1.path ++ [0])).isSome = true := by
    apply pathCostLoop_isSome
    intro x hx
    rw [hpre.shape.findVertex_eq]
    rcases List.mem_append.mp hx with h | h
    · have hx1 : x ∈ g.vertexSet.map Prod.fst := hperm.subset h
      obtain ⟨kv, hkv, hkx⟩ := List.mem_map.mp hx1
      rw [← hkx, hm.findVertex_entry kv hkv]
      rfl
    · simp only [List.mem_singleton] at h
      rw [h, h0]; rfl
  obtain ⟨c, hc⟩ := Option.isSome_iff_exists.mp hsome
  refine ⟨c, st1.path ++ [0], st1.g, ?_, ?_, ?_, by simp, by simpa using hperm⟩
  · simp only [tspTriangularApproximation, h0, hprim, hwalk, hc]
  · have := hperm.length_eq
    simp only [List.length_map] at this
    simp [this]
  · cases hp : st1.path with
    | nil => rw [hp] at htake; simp at htake
    | cons a rest =>
      rw [hp] at htake
      simp only [List.take_succ_cons, List.take_zero, List.cons.injEq, and_true] at htake
      simp [htake]

/-- Witness for claim C6: the four-vertex scenario with the first-in queue. -/
theorem tspTriangularApproximation_path_witness :
    ∃ c path1 g1, tspTriangularApproximation doubleAdd extractMinFirst (fun _ _ => 0) k4
        [0, 0, 0, 0] =
        some (c, path1, g1) ∧
      path1.length = k4.vertexSet.length + 1 ∧ path1.head? = some 0 ∧
      path1.getLast? = some 0 ∧ path1.dropLast.Perm (k4.vertexSet.map Prod.fst) :=
  tspTriangularApproximation_path doubleAdd extractMinFirst extractMinFirst_isExtractMin
    (fun _ _ => 0) k4
    [0, 0, 0, 0] (by decide) (by decide) 0 (by decide)
    (Complete.reachable (by decide) (0, 0) (by decide)) (by decide)

end TriangularProofs

/-! ## Backtracking solver on fixed graphs -/

/-- Claim C1, evaluated on the triangle 0, 1, 2 whose edge 1-2 was inserted first: the graph is
well formed and has the Hamiltonian cycle 0, 1, 2, 0 of total weight 3, yet
`tspBacktracking` returns `INF` and leaves `path` as it was. -/
theorem tspBacktracking_triangleLate :
    MapOk triangleLate ∧ Closed triangleLate ∧
    IsHamiltonianCycle triangleLate [0, 1, 2, 0]
      [⟨1, 1, some (1, 1)⟩, ⟨2, 1, some (2, 0)⟩, ⟨0, 1, some (0, 1)⟩] ∧
    totalWeight ([⟨1, 1, some (1, 1)⟩, ⟨2, 1, some (2, 0)⟩, ⟨0, 1, some (0, 1)⟩] :
      List (Edge ℕ)) = 3 ∧
    (tspBacktracking doubleAdd triangleLate [0, 0, 0]).map (fun r => (r.1, r.2.1)) =
      some (⊤, [0, 0, 0, 0]) := by
  refine ⟨by decide, by decide, ⟨rfl, rfl, by decide, ?_⟩, by decide, by decide⟩
  exact ⟨⟨0, by decide, by decide, by decide⟩, ⟨1, by decide, by decide, by decide⟩,
    ⟨2, by decide, by decide, by decide⟩, trivial⟩

/-- Claim C3: on the complete graph 0, 1, 2, 3 built from the six bidirectional edges 0-1:10,
0-2:15, 0-3:20, 1-2:35, 1-3:25, 2-3:30 in this order, `tspBacktracking` called with
`path = [0,0,0,0]` returns 80 and leaves `path` as `[0,1,3,2,0]` or `[0,2,3,1,0]`, in whatever
order the vertex map is iterated. -/
theorem tspBacktracking_k4 (vs : List (Int × Nat)) (hvs : vs.Perm k4.vertexSet) :
    (tspBacktracking doubleAdd (withOrder k4 vs) [0, 0, 0, 0]).map (fun r => (r.1, r.2.1)) =
        some (((80 : ℕ) : WithTop ℕ), [0, 1, 3, 2, 0]) ∨
    (tspBacktracking doubleAdd (withOrder k4 vs) [0, 0, 0, 0]).map (fun r => (r.1, r.2.1)) =
        some (((80 : ℕ) : WithTop ℕ), [0, 2, 3, 1, 0]) := by
  have hall : ∀ l ∈ k4.vertexSet.permutations',
      (tspBacktracking doubleAdd (withOrder k4 l) [0, 0, 0, 0]).map (fun r => (r.1, r.2.1)) =
          some (((80 : ℕ) : WithTop ℕ), [0, 1, 3, 2, 0]) ∨
      (tspBacktracking doubleAdd (withOrder k4 l) [0, 0, 0, 0]).map (fun r => (r.1, r.2.1)) =
          some (((80 : ℕ) : WithTop ℕ), [0, 2, 3, 1, 0]) := by
    set_option maxRecDepth 1000000 in decide
  exact hall vs (List.mem_permutations'.mpr hvs)

/-- Witness for claim C3: the order in which the vertices were inserted. -/
theorem tspBacktracking_k4_witness :
    (tspBacktracking doubleAdd (withOrder k4 [(0, 0), (1, 1), (2, 2), (3, 3)]) [0, 0, 0, 0]).map
        (fun r => (r.1, r.2.1)) = some (((80 : ℕ) : WithTop ℕ), [0, 1, 3, 2, 0]) ∨
    (tspBacktracking doubleAdd (withOrder k4 [(0, 0), (1, 1), (2, 2), (3, 3)]) [0, 0, 0, 0]).map
        (fun r => (r.1, r.2.1)) = some (((80 : ℕ) : WithTop ℕ), [0, 2, 3, 1, 0]) :=
  tspBacktracking_k4 [(0, 0), (1, 1), (2, 2), (3, 3)] (by decide)

/-! ## Edge insertion -/

theorem modify_append_right {α : Type} (f : α → α) (l2 : List α) (n : Nat) :
    ∀ l : List α, (l ++ l2).modify f (l.length + n) = l ++ l2.modify f n
  | [] => by simp
  | a :: l => by
    have h := modify_append_right f l2 n l
    have hn : (a :: l).length + n = (l.length + n) + 1 := by simp only [List.length_cons]; omega
    rw [hn, List.cons_append, List.modify_succ_cons, h]
    rfl

/-- Claim C11, as the code behaves: for all vertex objects `p1`, `p2` and every weight,
`addBidirectionalEdge` returns true, leaves the vertex map and every other vertex object as they
were, appends the edge `p1 -> p2` to the adjacency of `p1` and then the edge `p2 -> p1` to the
adjacency of `p2`, each new edge referring to the other as its reverse, and changes no edge that
was there before.  When `p1` and `p2` are different objects each adjacency gains exactly its one
edge at the end; when they are the same object its adjacency gains the two edges, `p1 -> p2`
first. -/
theorem addBidirectionalEdge_spec (g : Graph W) (p1 p2 : Nat) (w : W) :
    (addBidirectionalEdge g (some p1) (some p2) w).1 = true ∧
    (addBidirectionalEdge g (some p1) (some p2) w).2.vertexSet = g.vertexSet ∧
    (∀ p, p ≠ p1 → p ≠ p2 →
      (addBidirectionalEdge g (some p1) (some p2) w).2.mem p = g.mem p) ∧
    (p1 ≠ p2 →
      (addBidirectionalEdge g (some p1) (some p2) w).2.mem p1 =
        { g.mem p1 with
          adj := (g.mem p1).adj ++ [⟨p2, w, some (p2, (g.mem p2).adj.length)⟩] } ∧
      (addBidirectionalEdge g (some p1) (some p2) w).2.mem p2 =
        { g.mem p2 with
          adj := (g.mem p2).adj ++ [⟨p1, w, some (p1, (g.mem p1).adj.length)⟩] }) ∧
    (p1 = p2 →
      (addBidirectionalEdge g (some p1) (some p2) w).2.mem p1 =
        { g.mem p1 with
          adj := (g.mem p1).adj ++ [⟨p1, w, some (p1, (g.mem p1).adj.length + 1)⟩,
            ⟨p1, w, some (p1, (g.mem p1).adj.length)⟩] }) := by
  refine ⟨rfl, rfl, fun p h1 h2 => ?_, fun hne => ⟨?_, ?_⟩, fun heq => ?_⟩
  · simp only [addBidirectionalEdge, setReverse, vertexAddEdge, Function.update_noteq h1,
      Function.update_noteq h2]
  · have h21 : p2 ≠ p1 := fun h => hne h.symm
    simp only [addBidirectionalEdge, setReverse, vertexAddEdge, Function.update_noteq hne,
      Function.update_noteq h21, Function.update_same]
    have := modify_append_right (fun ed : Edge W => { ed with reverse := some (p2, (g.mem p2).adj.length) })
      [⟨p2, w, none⟩] 0 (g.mem p1).adj
    simp only [Nat.add_zero] at this
    rw [this]
    rfl
  · have h21 : p2 ≠ p1 := fun h => hne h.symm
    simp only [addBidirectionalEdge, setReverse, vertexAddEdge, Function.update_noteq hne,
      Function.update_noteq h21, Function.update_same]
    have := modify_append_right (fun ed : Edge W => { ed with reverse := some (p1, (g.mem p1).adj.length) })
      [⟨p1, w, none⟩] 0 (g.mem p2).adj
    simp only [Nat.add_zero] at this
    rw [this]
    rfl
  · subst heq
    simp only [addBidirectionalEdge, setReverse, vertexAddEdge, Function.update_same,
      List.length_append, List.length_singleton, List.append_assoc, List.singleton_append]
    have h1 := modify_append_right
      (fun ed : Edge W => { ed with reverse := some (p1, (g.mem p1).adj.length + 1) })
      [⟨p1, w, none⟩, ⟨p1, w, none⟩] 0 (g.mem p1).adj
    simp only [Nat.add_zero] at h1
    rw [h1]
    have h2 := modify_append_right
      (fun ed : Edge W => { ed with reverse := some (p1, (g.mem p1).adj.length) })
      ([⟨p1, w, none⟩, ⟨p1, w, none⟩].modify
        (fun ed : Edge W => { ed with reverse := some (p1, (g.mem p1).adj.length + 1) }) 0) 1
      (g.mem p1).adj
    rw [h2]
    rfl

/-- Witness for claim C11: the edge 0-1 of weight 5 on two fresh vertices, and the edge 0-0. -/
theorem addBidirectionalEdge_spec_witness :
    ((addBidirectionalEdge freshGraph (some 0) (some 1) 5).2.mem 0).adj = [⟨1, 5, some (1, 0)⟩] ∧
    ((addBidirectionalEdge freshGraph (some 0) (some 1) 5).2.mem 1).adj = [⟨0, 5, some (0, 0)⟩] ∧
    ((addBidirectionalEdge freshGraph (some 0) (some 0) 5).2.mem 0).adj =
      [⟨0, 5, some (0, 1)⟩, ⟨0, 5, some (0, 0)⟩] :=
  ⟨congrArg Vertex.adj ((addBidirectionalEdge_spec freshGraph 0 1 5).2.2.2.1 (by decide)).1,
   congrArg Vertex.adj ((addBidirectionalEdge_spec freshGraph 0 1 5).2.2.2.1 (by decide)).2,
   congrArg Vertex.adj ((addBidirectionalEdge_spec freshGraph 0 0 5).2.2.2.2 rfl)⟩

/-- Claim C11 as stated fails when both arguments are the same vertex object: the adjacency of
vertex 0 gains two edges, so it is not its old adjacency followed by exactly one edge, and the
edge `v1 -> v2` is not the last one. -/
theorem addBidirectionalEdge_selfLoop :
    ((addBidirectionalEdge freshGraph (some 0) (some 0) 5).2.mem 0).adj =
      [⟨0, 5, some (0, 1)⟩, ⟨0, 5, some (0, 0)⟩] ∧
    ¬ ∃ e : Edge ℕ, ((addBidirectionalEdge freshGraph (some 0) (some 0) 5).2.mem 0).adj =
      (freshGraph.mem 0).adj ++ [e] := by
  have h0 : ((addBidirectionalEdge freshGraph (some 0) (some 0) 5).2.mem 0).adj =
      [⟨0, 5, some (0, 1)⟩, ⟨0, 5, some (0, 0)⟩] := by decide
  refine ⟨h0, ?_⟩
  rintro ⟨e, he⟩
  rw [h0] at he
  have := congrArg List.length he
  simp [freshGraph, newVertex] at this

/-- Claim C12: `addEdge` and `addBidirectionalEdge` with a null first or second argument return
false and leave the graph, every adjacency included, as it was. -/
theorem addEdge_null (g : Graph W) (v1 v2 : Option Nat) (w : W) (h : v1 = none ∨ v2 = none) :
    addEdge g v1 v2 w = (false, g) ∧ addBidirectionalEdge g v1 v2 w = (false, g) := by
  cases v1 with
  | none => exact ⟨rfl, rfl⟩
  | some p1 =>
    cases v2 with
    | none => exact ⟨rfl, rfl⟩
    | some p2 => simp at h

/-- Witness for claim C12: a null first argument, and a null second argument on the four-vertex
scenario, where the vertex with id 7 is absent. -/
theorem addEdge_null_witness :
    (addEdge freshGraph none (some 0) 1 = (false, freshGraph) ∧
      addBidirectionalEdge freshGraph none (some 0) 1 = (false, freshGraph)) ∧
    (addEdge k4 (findVertex k4 0) (findVertex k4 7) 1 = (false, k4) ∧
      addBidirectionalEdge k4 (findVertex k4 0) (findVertex k4 7) 1 = (false, k4)) :=
  ⟨addEdge_null freshGraph none (some 0) 1 (Or.inl rfl),
   addEdge_null k4 (findVertex k4 0) (findVertex k4 7) 1 (Or.inr (by decide))⟩

/-! ## Single calls of the recursive backtracking solver -/

section BacktrackingCalls
variable [LinearOrderedAddCommMonoid W]

theorem foldlM_option_some_inv {α β : Type} (f : β → α → Option β) (P : β → Prop) :
    ∀ (l : List α) (b b1 : β), P b → (∀ b a b2, a ∈ l → P b → f b a = some b2 → P b2) →
      l.foldlM f b = some b1 → P b1
  | [], b, b1, hb, _, h => by
    simp only [List.foldlM_nil] at h
    have hbb : b = b1 := Option.some.inj h
    rw [← hbb]
    exact hb
  | a :: l, b, b1, hb, hstep, h => by
    simp only [List.foldlM_cons] at h
    cases hf : f b a with
    | none => rw [hf] at h; simp at h
    | some b2 =>
      rw [hf] at h
      exact foldlM_option_some_inv f P l b2 b1 (hstep b a b2 (List.mem_cons_self _ _) hb hf)
        (fun b a b3 ha => hstep b a b3 (List.mem_cons_of_mem _ ha)) h

/-- Claim C13, evaluated on the triangle 0, 1, 2 whose edge 1-2 was inserted first, at the call
reached along 0, 1, 2 with `sum = 2`: `step` equals the number of vertices, every vertex is
marked, and the current vertex 2 has an edge of weight 1 to vertex 0, which would close the
cycle at cost 3; the call returns the bound `INF` it was given, because the first edge of
vertex 2 leads to vertex 1. -/
theorem tspBacktrackingRec_triangleLate :
    triangleLateMarked.vertexSet.length = 3 ∧
    (∀ kv ∈ triangleLateMarked.vertexSet, (triangleLateMarked.mem kv.2).visited = true) ∧
    findVertex triangleLateMarked 2 = some 2 ∧
    (∃ e ∈ (triangleLateMarked.mem 2).adj,
      findVertex triangleLateMarked 0 = some e.dest ∧ e.distance = 1) ∧
    (tspBacktrackingRec doubleAdd 1 triangleLateMarked [0, 0, 0] 2 2 ⊤ 3).map (fun r => r.bestSum) =
      some ⊤ := by
  refine ⟨by decide, by decide, by decide, ⟨⟨0, 1, some (0, 1)⟩, by decide, by decide, rfl⟩,
    by decide⟩

/-- Claim C14: in a well-formed graph, a call of the recursive `tspBacktracking` with `step`
equal to the number of vertices and every vertex marked, whose current vertex has no edge to
vertex 0 (its adjacency may be empty), returns exactly the `bestSum` it was given and leaves
`path` and the memory, the visited marks included, as they were. -/
theorem tspBacktrackingRec_notClosable (add : WithTop W → WithTop W → WithTop W)
    (fuel : Nat) (g : Graph W) (path : List Int)
    (vertexId : Int) (vertex : Nat) (sum : WithTop W) (bestSum : WithTop W)
    (hm : MapOk g) (hcl : Closed g) (hv : findVertex g vertexId = some vertex)
    (hall : ∀ kv ∈ g.vertexSet, (g.mem kv.2).visited = true)
    (hno : ∀ e ∈ (g.mem vertex).adj, findVertex g 0 ≠ some e.dest) :
    tspBacktrackingRec add (fuel + 1) g path vertexId sum bestSum g.vertexSet.length =
      some ⟨bestSum, path, g⟩ := by
  have hid : ∀ e ∈ (g.mem vertex).adj, (g.mem e.dest).id ≠ 0 := by
    intro e he h0
    obtain ⟨kv, hkv, hkd⟩ := List.mem_map.mp
      (hcl (vertexId, vertex) (findVertex_mem g vertexId vertex hv) e he)
    have hk0 : kv.1 = 0 := by rw [← hm.2 kv hkv, hkd]; exact h0
    have := hm.findVertex_entry kv hkv
    rw [hk0, hkd] at this
    exact hno e he this
  simp only [tspBacktrackingRec, hv, if_true]
  cases hadj : (g.mem vertex).adj with
  | nil =>
    simp only [closeCycleLoop]
    have hfold : ∀ (l : List (Int × Nat)), (∀ kv ∈ l, (g.mem kv.2).visited = true) →
        l.foldlM (btVertexBody add (tspBacktrackingRec add fuel) vertex sum g.vertexSet.length)
          ⟨bestSum, path, g⟩ = some ⟨bestSum, path, g⟩ := by
      intro l
      induction l with
      | nil => intro _; rfl
      | cons kv l ih =>
        intro hl
        have hkv := hl kv (List.mem_cons_self _ _)
        simp only [List.foldlM_cons, btVertexBody, hkv, if_true]
        exact ih (fun x hx => hl x (List.mem_cons_of_mem _ hx))
    exact hfold g.vertexSet hall
  | cons e rest =>
    have he : (g.mem e.dest).id ≠ 0 := hid e (by rw [hadj]; exact List.mem_cons_self _ _)
    simp only [closeCycleLoop, if_neg he]

/-- Witness for claim C14: the chain 0 - 1 - 2 at the call reached along 0, 1, 2. -/
theorem tspBacktrackingRec_notClosable_witness :
    tspBacktrackingRec doubleAdd 1 chain3Marked [0, 1, 2] 2 2 ⊤ chain3Marked.vertexSet.length =
      some ⟨⊤, [0, 1, 2], chain3Marked⟩ :=
  tspBacktrackingRec_notClosable doubleAdd 0 chain3Marked [0, 1, 2] 2 2 2 ⊤ (by decide)
    (by decide)
    (by decide) (by decide) (by decide)

theorem btEdgeBody_mem (add : WithTop W → WithTop W → WithTop W)
    (rec : Graph W → List Int → Int → WithTop W → WithTop W → Nat → Option (BtState W))
    (hrec : ∀ g path vertexId sum bestSum step r,
      rec g path vertexId sum bestSum step = some r → r.g = g)
    (g0 : Graph W) (v : Int × Nat) (hvis : (g0.mem v.2).visited = false) (sum : WithTop W) (step : Nat)
    (st : BtState W) (e : Edge W) (st1 : BtState W) (hst : st.g = g0)
    (h : btEdgeBody add rec v sum step st e = some st1) : st1.g = g0 := by
  unfold btEdgeBody at h
  by_cases hd : e.dest = v.2
  swap
  · rw [if_neg hd] at h
    rw [← Option.some.inj h]; exact hst
  rw [if_pos hd] at h
  by_cases hlt : add sum e.distance < st.bestSum
  swap
  · rw [if_neg hlt] at h
    rw [← Option.some.inj h]; exact hst
  rw [if_pos hlt] at h
  cases hr : rec (setVisited st.g v.2 true) st.path (st.g.mem v.2).id (add sum e.distance)
      st.bestSum (step + 1) with
  | none => rw [hr] at h; simp at h
  | some r =>
    rw [hr] at h
    have hrg : setVisited r.g v.2 false = g0 := by
      rw [hrec _ _ _ _ _ _ r hr, hst]
      exact setVisited_undo g0 v.2 hvis
    simp only [] at h
    by_cases himp : r.bestSum < st.bestSum
    · rw [if_pos himp] at h
      cases hw : writePath r.path step v.1 with
      | none => rw [hw] at h; simp at h
      | some path1 =>
        rw [hw] at h
        rw [← Option.some.inj h]
        exact hrg
    · rw [if_neg himp] at h
      rw [← Option.some.inj h]
      exact hrg

/-- A call of the recursive `tspBacktracking` that returns leaves the memory as it was. -/
theorem tspBacktrackingRec_mem (add : WithTop W → WithTop W → WithTop W) :
    ∀ (fuel : Nat) (g : Graph W) (path : List Int) (vertexId : Int) (sum : WithTop W)
      (bestSum : WithTop W) (step : Nat) (r : BtState W),
      tspBacktrackingRec add fuel g path vertexId sum bestSum step = some r → r.g = g
  | 0, _, _, _, _, _, _, _, h => by simp [tspBacktrackingRec] at h
  | fuel + 1, g, path, vertexId, sum, bestSum, step, r, h => by
    rw [tspBacktrackingRec] at h
    cases hv : findVertex g vertexId with
    | none => rw [hv] at h; simp at h
    | some vertex =>
      rw [hv] at h
      simp only [] at h
      generalize hc : (if step = g.vertexSet.length then
        closeCycleLoop add g sum bestSum (g.mem vertex).adj else none) = c at h
      cases c with
      | some x =>
        simp only [] at h
        rw [← Option.some.inj h]
      | none =>
        simp only [] at h
        refine foldlM_option_some_inv _ (fun st => st.g = g) g.vertexSet ⟨bestSum, path, g⟩ r
          rfl ?_ h
        intro st v st1 _ hst hbody
        unfold btVertexBody at hbody
        cases hvis : (st.g.mem v.2).visited with
        | true =>
          rw [hvis] at hbody
          simp only [if_true] at hbody
          rw [← Option.some.inj hbody]; exact hst
        | false =>
          rw [hvis] at hbody
          simp only [Bool.false_eq_true, if_false] at hbody
          refine foldlM_option_some_inv _ (fun s => s.g = g) _ st st1 hst ?_ hbody
          intro s e s1 _ hs hes
          exact btEdgeBody_mem add (tspBacktrackingRec add fuel)
            (tspBacktrackingRec_mem add fuel) g v (by rw [← hst]; exact hvis) sum step s e s1 hs hes

/-- Claim C15: for every graph and all arguments, when a call of the recursive
`tspBacktracking` returns, every vertex has the visited mark it had when the call started. -/
theorem tspBacktrackingRec_visited (add : WithTop W → WithTop W → WithTop W)
    (fuel : Nat) (g : Graph W) (path : List Int)
    (vertexId : Int) (sum : WithTop W) (bestSum : WithTop W) (step : Nat) (r : BtState W)
    (h : tspBacktrackingRec add fuel g path vertexId sum bestSum step = some r) (p : Nat) :
    (r.g.mem p).visited = (g.mem p).visited := by
  rw [tspBacktrackingRec_mem add fuel g path vertexId sum bestSum step r h]

end BacktrackingCalls

/-- Witness for claim C15: the outermost recursive call on the four-vertex scenario returns,
and the marks are as they were. -/
theorem tspBacktrackingRec_visited_witness :
    ∃ r, tspBacktrackingRec doubleAdd 5 (setVisited (clearVisited k4) 0 true) [0, 0, 0, 0] 0 0
        ⊤ 1 = some r ∧
      ∀ p, (r.g.mem p).visited = ((setVisited (clearVisited k4) 0 true).mem p).visited := by
  obtain ⟨r, hr, _⟩ := tspBacktrackingRec_post doubleAdd 5
    (setVisited (clearVisited k4) 0 true)
    [0, 0, 0, 0] 0 0 0 ⊤ 1 (by decide) (by decide) (by decide) (by decide) (by decide)
    (by decide)
  exact ⟨r, hr, tspBacktrackingRec_visited doubleAdd 5 _ _ 0 0 ⊤ 1 r hr⟩

/-! ## The scan for the nearest neighbour -/

section NearestScan
variable [LinearOrderedAddCommMonoid W]

theorem nearestBody_skip (haversineDistance : Coordinates W → Coordinates W → W) (g : Graph W)
    (source : Nat) (acc : WithTop W × Option Nat) (v : Int × Nat)
    (h : ¬ Candidate g source v.2) : nearestBody haversineDistance g source acc v = acc := by
  unfold nearestBody
  by_cases hskip : (g.mem v.2).id = (g.mem source).id ∨ (g.mem v.2).visited = true
  · rw [if_pos hskip]
  · exfalso
    apply h
    refine ⟨fun hid => hskip (Or.inl hid), ?_⟩
    cases hv : (g.mem v.2).visited with
    | false => rfl
    | true => exact absurd (Or.inr hv) hskip

theorem nearestBody_candidate (haversineDistance : Coordinates W → Coordinates W → W)
    (g : Graph W) (source : Nat) (acc : WithTop W × Option Nat) (v : Int × Nat)
    (h : Candidate g source v.2) :
    nearestBody haversineDistance g source acc v =
      if ((calculateDistance haversineDistance g source v.2 : W) : WithTop W) < acc.1 then
        (((calculateDistance haversineDistance g source v.2 : W) : WithTop W), some v.2)
      else acc := by
  unfold nearestBody
  have hskip : ¬ ((g.mem v.2).id = (g.mem source).id ∨ (g.mem v.2).visited = true) := by
    rintro (h1 | h1)
    · exact h.1 h1
    · rw [h.2] at h1; exact absurd h1 (by simp)
  rw [if_neg hskip]

/-- The scan over a list of map entries, started with (`INF`, null): without a candidate it
ends as it started; otherwise it ends with the first candidate of smallest resolver distance. -/
theorem nearest_scan (haversineDistance : Coordinates W → Coordinates W → W) (g : Graph W)
    (source : Nat) (vs : List (Int × Nat)) :
    ((∀ kv ∈ vs, ¬ Candidate g source kv.2) ∧
      vs.foldl (nearestBody haversineDistance g source) (⊤, none) = (⊤, none)) ∨
    ∃ pre kv post, vs = pre ++ kv :: post ∧ Candidate g source kv.2 ∧
      vs.foldl (nearestBody haversineDistance g source) (⊤, none) =
        (((calculateDistance haversineDistance g source kv.2 : W) : WithTop W), some kv.2) ∧
      (∀ x ∈ pre, Candidate g source x.2 →
        calculateDistance haversineDistance g source kv.2 <
          calculateDistance haversineDistance g source x.2) ∧
      (∀ x ∈ post, Candidate g source x.2 →
        calculateDistance haversineDistance g source kv.2 ≤
          calculateDistance haversineDistance g source x.2) := by
  induction vs using List.reverseRecOn with
  | nil => exact Or.inl ⟨fun _ h => absurd h (List.not_mem_nil _), rfl⟩
  | append_singleton l v ih =>
    rw [List.foldl_append, List.foldl_cons, List.foldl_nil]
    by_cases hc : Candidate g source v.2
    swap
    · rw [nearestBody_skip haversineDistance g source _ v hc]
      rcases ih with ⟨hno, hres⟩ | ⟨pre, kv, post, hl, hkv, hres, hpre, hpost⟩
      · left
        refine ⟨fun x hx => ?_, hres⟩
        rcases List.mem_append.mp hx with h | h
        · exact hno x h
        · rw [List.mem_singleton] at h; rw [h]; exact hc
      · right
        refine ⟨pre, kv, post ++ [v], by rw [hl]; simp, hkv, hres, hpre, fun x hx hxc => ?_⟩
        rcases List.mem_append.mp hx with h | h
        · exact hpost x h hxc
        · rw [List.mem_singleton] at h; rw [h] at hxc; exact absurd hxc hc
    · rw [nearestBody_candidate haversineDistance g source _ v hc]
      rcases ih with ⟨hno, hres⟩ | ⟨pre, kv, post, hl, hkv, hres, hpre, hpost⟩
      · right
        rw [hres, if_pos (WithTop.coe_lt_top _)]
        exact ⟨l, v, [], rfl, hc, rfl, fun x hx hxc => absurd hxc (hno x hx),
          fun x hx => absurd hx (List.not_mem_nil _)⟩
      · right
        rw [hres]
        by_cases hlt : calculateDistance haversineDistance g source v.2 <
            calculateDistance haversineDistance g source kv.2
        · rw [if_pos (WithTop.coe_lt_coe.mpr hlt)]
          refine ⟨l, v, [], rfl, hc, rfl, fun x hx hxc => ?_,
            fun x hx => absurd hx (List.not_mem_nil _)⟩
          rw [hl] at hx
          rcases List.mem_append.mp hx with h | h
          · exact lt_trans hlt (hpre x h hxc)
          · rcases List.mem_cons.mp h with h1 | h1
            · rw [h1]; exact hlt
            · exact lt_of_lt_of_le hlt (hpost x h1 hxc)
        · rw [if_neg (fun h => hlt (WithTop.coe_lt_coe.mp h))]
          refine ⟨pre, kv, post ++ [v], by rw [hl]; simp, hkv, rfl, hpre, fun x hx hxc => ?_⟩
          rcases List.mem_append.mp hx with h | h
          · exact hpost x h hxc
          · rw [List.mem_singleton] at h; rw [h]; exact not_lt.mp hlt

/-- Claim C16: `findNearestNeighbour(source)` returns null exactly when no stored vertex is a
candidate (unvisited, with an id other than that of `source`); otherwise it returns a candidate
`u` whose resolver distance from `source` is at most that of every candidate, and strictly
smaller than that of every candidate that comes before `u` in the iteration order of the vertex
map: `u` is the first vertex that attains the minimum. -/
theorem findNearestNeighbour_spec (haversineDistance : Coordinates W → Coordinates W → W)
    (g : Graph W) (source : Nat) :
    (findNearestNeighbour haversineDistance g source = none ↔
      ∀ kv ∈ g.vertexSet, ¬ Candidate g source kv.2) ∧
    ∀ u, findNearestNeighbour haversineDistance g source = some u →
      Candidate g source u ∧
      ∃ pre k post, g.vertexSet = pre ++ (k, u) :: post ∧
        (∀ x ∈ pre, Candidate g source x.2 →
          calculateDistance haversineDistance g source u <
            calculateDistance haversineDistance g source x.2) ∧
        (∀ x ∈ post, Candidate g source x.2 →
          calculateDistance haversineDistance g source u ≤
            calculateDistance haversineDistance g source x.2) := by
  unfold findNearestNeighbour
  rcases nearest_scan haversineDistance g source g.vertexSet with
    ⟨hno, hres⟩ | ⟨pre, kv, post, hl, hkv, hres, hpre, hpost⟩
  · rw [hres]
    exact ⟨⟨fun _ => hno, fun _ => rfl⟩, fun u hu => by simp at hu⟩
  · rw [hres]
    refine ⟨⟨fun h => by simp at h, fun h => ?_⟩, fun u hu => ?_⟩
    · exact absurd hkv (h kv (by rw [hl]; simp))
    · have hu1 : kv.2 = u := Option.some.inj hu
      rw [← hu1]
      exact ⟨hkv, pre, kv.1, post, hl, hpre, hpost⟩

/-- Witness for claim C16: in the four-vertex scenario with vertex 0 marked, the scan from
vertex 0 returns vertex 1; with every vertex marked it returns null. -/
theorem findNearestNeighbour_spec_witness :
    (Candidate (setVisited k4 0 true) 0 1 ∧
      ∃ pre k post, (setVisited k4 0 true).vertexSet = pre ++ (k, 1) :: post ∧
        (∀ x ∈ pre, Candidate (setVisited k4 0 true) 0 x.2 →
          calculateDistance (fun _ _ => 7) (setVisited k4 0 true) 0 1 <
            calculateDistance (fun _ _ => 7) (setVisited k4 0 true) 0 x.2) ∧
        (∀ x ∈ post, Candidate (setVisited k4 0 true) 0 x.2 →
          calculateDistance (fun _ _ => 7) (setVisited k4 0 true) 0 1 ≤
            calculateDistance (fun _ _ => 7) (setVisited k4 0 true) 0 x.2)) ∧
    findNearestNeighbour (fun _ _ => 7) chain3Marked 2 = none :=
  ⟨(findNearestNeighbour_spec (fun _ _ => 7) (setVisited k4 0 true) 0).2 1 (by decide),
   (findNearestNeighbour_spec (fun _ _ => 7) chain3Marked 2).1.mpr (by decide)⟩

end NearestScan

/-! ## The state that `prim` leaves -/

theorem TreeDepth.toReachable {g : Graph W} {start : Nat} {par : Nat → Option EdgePtr}
    {v n : Nat} (h : TreeDepth g start par v n) : Reachable g start v := by
  induction h with
  | root => exact Reachable.refl
  | node _ _ he hd _ _ ih =>
    rw [← hd]
    exact Reachable.step ih (List.getElem?_mem he)

/-- Following the parent edges of a tree from a vertex arrives at `start` without meeting a
vertex twice. -/
theorem TreeDepth.toChain {g : Graph W} {start : Nat} {par : Nat → Option EdgePtr}
    {v n : Nat} (h : TreeDepth g start par v n) :
    ∃ chain, TreeChain g start par v chain ∧ chain.Nodup ∧
      ∀ x ∈ chain, ∃ m, m ≤ n ∧ TreeDepth g start par x m := by
  induction h with
  | root =>
    refine ⟨[start], TreeChain.root, List.nodup_singleton _, fun x hx => ?_⟩
    rw [List.mem_singleton] at hx
    rw [hx]
    exact ⟨0, le_refl _, TreeDepth.root⟩
  | @node v a i n e hne hp he hd hs ha ih =>
    obtain ⟨chain, hc, hnd, hdepth⟩ := ih
    have hv : TreeDepth g start par v (n + 1) := TreeDepth.node hne hp he hd hs ha
    refine ⟨v :: chain, TreeChain.node hne hp he hd hs hc, ?_, fun x hx => ?_⟩
    · rw [List.nodup_cons]
      refine ⟨fun hmem => ?_, hnd⟩
      obtain ⟨m, hm, hvm⟩ := hdepth v hmem
      have := hv.unique hvm
      omega
    · rcases List.mem_cons.mp hx with h1 | h1
      · rw [h1]; exact ⟨n + 1, le_refl _, hv⟩
      · obtain ⟨m, hm, hxm⟩ := hdepth x h1
        exact ⟨m, by omega, hxm⟩

section PrimResult
variable [LinearOrderedAddCommMonoid W]

/-- Claim C17: in a well-formed graph, after `prim(start)` on a stored vertex `start`, which
returns and changes scratch fields only: `start` has no path edge and `dist` 0; every other
vertex that can be reached from `start` is visited, its path edge is an edge into it that
leaves a visited vertex, and its `dist` is the weight of that edge; following the path edges
from any reached vertex arrives at `start` without meeting a vertex twice; and every stored
vertex that cannot be reached from `start` is not visited, has no path edge and has `dist`
`INF`.  The queue is any whose `extractMin` returns a vertex of smallest `dist`. -/
theorem prim_spec (extractMin : Graph W → List Nat → Option (Nat × List Nat))
    (hex : IsExtractMin extractMin) (g : Graph W) (hm : MapOk g) (hcl : Closed g)
    (start : Nat) (hs : Stored g start) :
    ∃ g1, prim extractMin g start = some g1 ∧ SameShape g g1 ∧
      ((g1.mem start).path = none ∧ (g1.mem start).dist = 0) ∧
      (∀ p, Reachable g start p → p ≠ start →
        (g1.mem p).visited = true ∧
        ∃ a i e, (g1.mem p).path = some (a, i) ∧ (g.mem a).adj[i]? = some e ∧ e.dest = p ∧
          (g1.mem a).visited = true ∧ (g1.mem p).dist = e.distance) ∧
      (∀ p, Reachable g start p →
        ∃ chain, TreeChain g start (fun q => (g1.mem q).path) p chain ∧ chain.Nodup) ∧
      (∀ p, Stored g p → ¬ Reachable g start p →
        (g1.mem p).visited = false ∧ (g1.mem p).path = none ∧ (g1.mem p).dist = ⊤) := by
  obtain ⟨g1, hrun, hinv⟩ := prim_inv extractMin hex g hm hcl start hs
  have hfin : ∀ p, Stored g p → (g1.mem p).visited = true → (g1.mem p).dist ≠ ⊤ :=
    fun p hp hv hd => by
      have := (hinv.infPath p hp hd).2
      rw [hv] at this
      exact absurd this (by simp)
  have hpar : ∀ q x, primPar g1 q = some x → (fun q => (g1.mem q).path) q = some x := by
    intro q x hq
    unfold primPar at hq
    split at hq
    · exact hq
    · exact absurd hq (by simp)
  refine ⟨g1, hrun, hinv.shape, hinv.startPath, fun p hp hps => ?_, fun p hp => ?_,
    fun p hp hnr => ?_⟩
  · obtain ⟨hst, hv⟩ := hinv.reached hcl hs hp
    obtain ⟨a, i, e, h1, h2, h3, h4, _, h6⟩ := hinv.parent p hst hps (hfin p hst hv)
    exact ⟨hv, a, i, e, h1, h2, h3, h6, h4⟩
  · obtain ⟨hst, hv⟩ := hinv.reached hcl hs hp
    obtain ⟨n, hn⟩ := hinv.tree p hst hv
    obtain ⟨chain, hc, hnd, _⟩ := (hn.mono hpar).toChain
    exact ⟨chain, hc, hnd⟩
  · have htop : (g1.mem p).dist = ⊤ := by
      by_contra hd
      apply hnr
      by_cases hps : p = start
      · rw [hps]; exact Reachable.refl
      · obtain ⟨a, i, e, _, h2, h3, _, h5, h6⟩ := hinv.parent p hp hps hd
        obtain ⟨n, hn⟩ := hinv.tree a h5 h6
        rw [← h3]
        exact Reachable.step hn.toReachable (List.getElem?_mem h2)
    obtain ⟨h1, h2⟩ := hinv.infPath p hp htop
    exact ⟨h2, h1, htop⟩

end PrimResult

/-- Witness for claim C17: the graph `detour` with the first-in queue, from vertex 0; its
vertex 3 cannot be reached. -/
theorem prim_spec_witness :
    ∃ g1, prim extractMinFirst detour 0 = some g1 ∧ SameShape detour g1 ∧
      ((g1.mem 0).path = none ∧ (g1.mem 0).dist = 0) ∧
      (∀ p, Reachable detour 0 p → p ≠ 0 →
        (g1.mem p).visited = true ∧
        ∃ a i e, (g1.mem p).path = some (a, i) ∧ (detour.mem a).adj[i]? = some e ∧
          e.dest = p ∧ (g1.mem a).visited = true ∧ (g1.mem p).dist = e.distance) ∧
      (∀ p, Reachable detour 0 p →
        ∃ chain, TreeChain detour 0 (fun q => (g1.mem q).path) p chain ∧ chain.Nodup) ∧
      (∀ p, Stored detour p → ¬ Reachable detour 0 p →
        (g1.mem p).visited = false ∧ (g1.mem p).path = none ∧ (g1.mem p).dist = ⊤) :=
  prim_spec extractMinFirst extractMinFirst_isExtractMin detour (by decide) (by decide) 0
    (by decide)

/-! ## The calls of the queue in `prim` -/

theorem legal_snoc {g0 : Graph W} {log : List (QueueCall W)} {c : QueueCall W}
    (hlog : ∀ x ∈ log, QueueCall.Legal g0 x) (hc : QueueCall.Legal g0 c) :
    ∀ x ∈ log ++ [c], QueueCall.Legal g0 x := by
  intro x hx
  rcases List.mem_append.mp hx with h | h
  · exact hlog x h
  · rw [List.mem_singleton] at h; rw [h]; exact hc

section PrimQueue
variable [LinearOrderedAddCommMonoid W]

/-- The recording loop over an adjacency runs as `primEdgeLoop` does, and records legal calls
only. -/
theorem primEdgeLoopLog_inv (g0 : Graph W) (hcl : Closed g0) (start u : Nat)
    (hu : Stored g0 u) :
    ∀ (es : List (Edge W)) (i : Nat) (st : PrimState W) (log : List (QueueCall W)),
      (g0.mem u).adj.drop i = es →
      PrimInv g0 start (fun a j => a = u ∧ i ≤ j) st → (st.g.mem u).visited = true →
      (st.g.mem start).visited = true → (∀ x ∈ log, QueueCall.Legal g0 x) →
      ∃ st1 log1, primEdgeLoopLog u i es st log = some (st1, log1) ∧
        primEdgeLoop u i es st = some st1 ∧ ∀ x ∈ log1, QueueCall.Legal g0 x
  | [], i, st, log, _, _, _, _, hlog => ⟨st, log, rfl, rfl, hlog⟩
  | e :: rest, i, st, log, hes, h, huv, hsv, hlog => by
    have he : (g0.mem u).adj[i]? = some e := by
      have := List.getElem?_drop (g0.mem u).adj i 0
      rw [hes] at this
      simpa using this.symm
    have hrest : (g0.mem u).adj.drop (i + 1) = rest := by
      have := congrArg (List.drop 1) hes
      rw [List.drop_drop] at this
      simpa [Nat.add_comm] using this
    have hmem : e ∈ (g0.mem u).adj := List.getElem?_mem he
    have hd : Stored g0 e.dest := hcl.stored hu hmem
    rw [primEdgeLoopLog, primEdgeLoop]
    simp only []
    cases hvis : (st.g.mem e.dest).visited with
    | true =>
      simp only [Bool.true_eq_false, if_false]
      exact primEdgeLoopLog_inv g0 hcl start u hu rest (i + 1) st log hrest
        (h.skip e he (Or.inl hvis)) huv hsv hlog
    | false =>
      simp only [if_true]
      by_cases hlt : (e.distance : WithTop W) < (st.g.mem e.dest).dist
      swap
      · rw [if_neg hlt, if_neg hlt]
        exact primEdgeLoopLog_inv g0 hcl start u hu rest (i + 1) st log hrest
          (h.skip e he (Or.inr (not_lt.mp hlt))) huv hsv hlog
      rw [if_pos hlt, if_pos hlt]
      have hnew := h.relaxed hu huv hsv e he hd hvis hlt
      by_cases htop : (st.g.mem e.dest).dist = ⊤
      · rw [if_pos htop, if_pos htop]
        rw [if_pos htop] at hnew
        have hins : QueueCall.Legal g0 (QueueCall.insert st.q e.dest) :=
          fun hq => ((h.qSpec e.dest).mp hq).2.2 htop
        exact primEdgeLoopLog_inv g0 hcl start u hu rest (i + 1) _ _ hrest
          hnew (by simpa using huv) (by simpa using hsv) (legal_snoc hlog hins)
      · rw [if_neg htop, if_neg htop]
        rw [if_neg htop] at hnew
        have hq : e.dest ∈ st.q := (h.qSpec e.dest).mpr ⟨hd, hvis, htop⟩
        rw [if_pos hq, if_pos hq]
        have hdec : QueueCall.Legal g0 (QueueCall.decreaseKey st.q e.dest) := hq
        exact primEdgeLoopLog_inv g0 hcl start u hu rest (i + 1) _ _ hrest
          hnew (by simpa using huv) (by simpa using hsv) (legal_snoc hlog hdec)

/-- The recording loop of `prim` runs as `primLoop` does, and records legal calls only. -/
theorem primLoopLog_inv (extractMin : Graph W → List Nat → Option (Nat × List Nat))
    (hex : IsExtractMin extractMin) (g0 : Graph W) (hm : MapOk g0) (hcl : Closed g0)
    (start : Nat) :
    ∀ (fuel : Nat) (st : PrimState W) (log : List (QueueCall W)),
      PrimInv g0 start (fun _ _ => False) st → (unvisitedKeys st.g).length ≤ fuel →
      (∀ x ∈ log, QueueCall.Legal g0 x) →
      ∃ g1 log1, primLoopLog extractMin fuel st log = some (g1, log1) ∧
        primLoop extractMin fuel st = some g1 ∧ ∀ x ∈ log1, QueueCall.Legal g0 x := by
  intro fuel
  induction fuel with
  | zero =>
    intro st log h hfuel hlog
    obtain ⟨g1, hrun, _⟩ := primLoop_inv extractMin hex g0 hm hcl start 0 st h hfuel
    unfold primLoop at hrun
    unfold primLoopLog
    by_cases hq : st.q = []
    · rw [if_pos hq] at hrun ⊢
      exact ⟨st.g, log, rfl, by unfold primLoop; rw [if_pos hq], hlog⟩
    · rw [if_neg hq] at hrun
      simp at hrun
  | succ fuel ih =>
    intro st log h hfuel hlog
    unfold primLoop primLoopLog
    by_cases hq : st.q = []
    · rw [if_pos hq, if_pos hq]
      exact ⟨st.g, log, rfl, rfl, hlog⟩
    · rw [if_neg hq, if_neg hq]
      obtain ⟨u, rest, hext, hperm, hminq⟩ := hex st.g st.q hq
      have huq : u ∈ st.q := hperm.subset (List.mem_cons_self _ _)
      obtain ⟨hus, huv, _⟩ := (h.qSpec u).mp huq
      obtain ⟨hinv, hsv⟩ := h.extract hm hcl u rest hperm hminq
      have hadj : ((setVisited st.g u true).mem u).adj = (g0.mem u).adj := by
        rw [setVisited_adj]; exact (h.shape.2 u).2.1
      have hext1 : QueueCall.Legal g0 (QueueCall.extractMin st) := ⟨hq, h.qNodup, h.qSpec⟩
      obtain ⟨st1, log1, hlogrun, hloop, hlog1⟩ := primEdgeLoopLog_inv g0 hcl start u hus
        (g0.mem u).adj 0 _ (log ++ [QueueCall.extractMin st]) (by simp) hinv (by simp) hsv
        (legal_snoc hlog hext1)
      obtain ⟨st2, hloop2, hst1, hsame⟩ := primEdgeLoop_inv g0 hcl start u hus
        (g0.mem u).adj 0 _ (by simp) hinv (by simp) hsv
      have hst : st2 = st1 := Option.some.inj (hloop2.symm.trans hloop)
      rw [hst] at hst1 hsame
      simp only [hext, hadj, hloop, hlogrun]
      apply ih st1 log1 _ _ hlog1
      · refine ⟨hst1.shape, hst1.qNodup, hst1.qSpec, hst1.startPath, hst1.infPath, hst1.parent,
          hst1.tree, ?_, hst1.startVis, hst1.promise⟩
        intro a ha hav j e he
        rcases hst1.edgeOk a ha hav j e he with ⟨hau, hj⟩ | h1
        · exfalso
          subst hau
          have : j < (g0.mem a).adj.length := by
            by_contra hc
            rw [List.getElem?_eq_none (by omega)] at he
            exact absurd he (by simp)
          omega
        · exact Or.inr h1
      · obtain ⟨kv, hkv, hku⟩ := hus.exists
        have hm1 := h.shape.mapOk hm
        have h1 := (unvisitedKeys_mark st.g hm1 kv (by rw [h.shape.1]; exact hkv)
          (by rw [hku]; exact huv)).length_eq
        simp only [List.length_cons] at h1
        have h2 : unvisitedKeys st1.g = unvisitedKeys (setVisited st.g kv.2 true) := by
          apply unvisitedKeys_congr
          · rw [hst1.shape.1, setVisited_vertexSet, h.shape.1]
          · intro p; rw [hsame p, hku]
        rw [h2]
        omega

/-- Claim C18: in a well-formed graph, `prim(start)` on a stored vertex `start` returns, and
every call of the queue it makes is legal: at every iteration of the loop the queue is not
empty when `extractMin` is called and holds, each once, exactly the stored vertices that are
not visited and have a finite `dist`; `insert` is never called with a vertex the queue holds;
`decreaseKey` is never called with a vertex the queue does not hold.  The queue is any whose
`extractMin` returns a vertex of smallest `dist`. -/
theorem prim_queue (extractMin : Graph W → List Nat → Option (Nat × List Nat))
    (hex : IsExtractMin extractMin) (g : Graph W) (hm : MapOk g) (hcl : Closed g)
    (start : Nat) (hs : Stored g start) :
    ∃ g1 log, primLog extractMin g start = some (g1, log) ∧
      prim extractMin g start = some g1 ∧ ∀ c ∈ log, QueueCall.Legal g c := by
  have hne : g.vertexSet ≠ [] := by
    intro hc
    unfold Stored at hs
    rw [hc] at hs
    simp at hs
  obtain ⟨h0, hfuel⟩ := primStart_inv g start hs
  have hfirst : ∀ x ∈ [QueueCall.insert [] start], QueueCall.Legal g (x : QueueCall W) := by
    intro x hx
    rw [List.mem_singleton] at hx
    rw [hx]
    exact List.not_mem_nil _
  obtain ⟨g1, log1, hlog, hrun, hlegal⟩ := primLoopLog_inv extractMin hex g hm hcl start
    g.vertexSet.length _ _ h0 hfuel hfirst
  exact ⟨g1, log1, by unfold primLog; rw [if_neg hne]; exact hlog,
    by unfold prim; rw [if_neg hne]; exact hrun, hlegal⟩

end PrimQueue

/-- Witness for claim C18: the graph `detour` with the first-in queue, from vertex 0; the run
calls `decreaseKey` for vertex 1. -/
theorem prim_queue_witness :
    ∃ g1 log, primLog extractMinFirst detour 0 = some (g1, log) ∧
      prim extractMinFirst detour 0 = some g1 ∧ ∀ c ∈ log, QueueCall.Legal detour c :=
  prim_queue extractMinFirst extractMinFirst_isExtractMin detour (by decide) (by decide) 0
    (by decide)

/-! ## Depth of the recursion of the backtracking solver -/

theorem foldlM_option_congr {α β : Type} (f1 f : β → α → Option β) (P : β → Prop) :
    ∀ (l : List α) (b : β), P b → (∀ b a, a ∈ l → P b → f1 b a = f b a) →
      (∀ b a, a ∈ l → P b → ∃ b1, f b a = some b1 ∧ P b1) → l.foldlM f1 b = l.foldlM f b
  | [], _, _, _, _ => rfl
  | a :: l, b, hb, heq, hstep => by
    obtain ⟨b1, hf, hb1⟩ := hstep b a (List.mem_cons_self _ _) hb
    simp only [List.foldlM_cons, heq b a (List.mem_cons_self _ _) hb, hf]
    exact foldlM_option_congr f1 f P l b1 hb1
      (fun b a ha => heq b a (List.mem_cons_of_mem _ ha))
      (fun b a ha => hstep b a (List.mem_cons_of_mem _ ha))

section BacktrackingDepth
variable [LinearOrderedAddCommMonoid W]

/-- The assertion before the write holds: the checked body of the edge loop runs as the
unchecked one. -/
theorem btEdgeBodyChecked_eq (add : WithTop W → WithTop W → WithTop W)
    (rec1 rec : Graph W → List Int → Int → WithTop W → WithTop W → Nat →
      Option (BtState W))
    (g : Graph W) (hm : MapOk g) (path0 : List Int) (uid : Int) (sum : WithTop W)
    (best : WithTop W) (step : Nat) (v : Int × Nat)
    (hstep : step + (unvisitedKeys g).length = g.vertexSet.length) (h1 : 1 ≤ step)
    (hv : v ∈ g.vertexSet) (hvis : (g.mem v.2).visited = false)
    (hrec : ∀ (path : List Int) (s : WithTop W) (b : WithTop W), path.length = g.vertexSet.length →
      ∃ r, rec (setVisited g v.2 true) path v.1 s b (step + 1) = some r ∧
        BtPost add (setVisited g v.2 true) path v.1 s b (step + 1) r)
    (hreceq : ∀ (path : List Int) (s : WithTop W) (b : WithTop W), path.length = g.vertexSet.length →
      rec1 (setVisited g v.2 true) path v.1 s b (step + 1) =
        rec (setVisited g v.2 true) path v.1 s b (step + 1))
    (hlen : path0.length = g.vertexSet.length)
    (st : BtState W) (e : Edge W) (hst : BtInv add g path0 uid sum best step st) :
    btEdgeBodyChecked add rec1 v sum step st e = btEdgeBody add rec v sum step st e := by
  unfold btEdgeBodyChecked btEdgeBody
  by_cases hd : e.dest = v.2
  swap
  · rw [if_neg hd, if_neg hd]
  rw [if_pos hd, if_pos hd]
  by_cases hlt : add sum e.distance < st.bestSum
  swap
  · rw [if_neg hlt, if_neg hlt]
  rw [if_pos hlt, if_pos hlt]
  have hid : (st.g.mem v.2).id = v.1 := by rw [hst.mem]; exact hm.2 v hv
  have hplen : st.path.length = g.vertexSet.length := hst.len.trans hlen
  obtain ⟨r, hr, hpost⟩ := hrec st.path (add sum e.distance) st.bestSum hplen
  rw [hid, hst.mem, hreceq st.path (add sum e.distance) st.bestSum hplen, hr]
  simp only []
  by_cases himp : r.bestSum < st.bestSum
  swap
  · rw [if_neg himp, if_neg himp]
  rw [if_pos himp, if_pos himp]
  have hunv := (unvisitedKeys_mark g hm v hv hvis).length_eq
  simp only [List.length_cons] at hunv
  have hassert : 1 ≤ step ∧ step + 1 ≤ r.g.vertexSet.length := by
    rw [hpost.mem, setVisited_vertexSet]
    omega
  rw [if_pos hassert]

/-- The checked body of the loop over the vertex map runs as the unchecked one. -/
theorem btVertexBodyChecked_eq (add : WithTop W → WithTop W → WithTop W)
    (rec1 rec : Graph W → List Int → Int → WithTop W → WithTop W → Nat →
      Option (BtState W))
    (g : Graph W) (hm : MapOk g) (path0 : List Int) (uid : Int) (u : Nat) (sum : WithTop W)
    (best : WithTop W) (step : Nat)
    (hu : findVertex g uid = some u) (hlen : path0.length = g.vertexSet.length)
    (hstep : step + (unvisitedKeys g).length = g.vertexSet.length) (h1 : 1 ≤ step)
    (hrec : ∀ v ∈ g.vertexSet, (g.mem v.2).visited = false →
      ∀ (path : List Int) (s : WithTop W) (b : WithTop W), path.length = g.vertexSet.length →
      ∃ r, rec (setVisited g v.2 true) path v.1 s b (step + 1) = some r ∧
        BtPost add (setVisited g v.2 true) path v.1 s b (step + 1) r)
    (hreceq : ∀ v ∈ g.vertexSet, (g.mem v.2).visited = false →
      ∀ (path : List Int) (s : WithTop W) (b : WithTop W), path.length = g.vertexSet.length →
      rec1 (setVisited g v.2 true) path v.1 s b (step + 1) =
        rec (setVisited g v.2 true) path v.1 s b (step + 1))
    (st : BtState W) (v : Int × Nat) (hv : v ∈ g.vertexSet)
    (hst : BtInv add g path0 uid sum best step st) :
    btVertexBodyChecked add rec1 u sum step st v = btVertexBody add rec u sum step st v := by
  unfold btVertexBodyChecked btVertexBody
  cases hvis : (g.mem v.2).visited with
  | true =>
    rw [hst.mem, hvis]
    rfl
  | false =>
    rw [hst.mem, hvis]
    simp only [Bool.false_eq_true, if_false]
    exact foldlM_option_congr _ _ (BtInv add g path0 uid sum best step) _ st hst
      (fun b e _ hb => btEdgeBodyChecked_eq add rec1 rec g hm path0 uid sum best step v hstep h1
        hv hvis (hrec v hv hvis) (hreceq v hv hvis) hlen b e hb)
      (fun b e he hb => btEdgeBody_inv add rec g hm path0 uid u sum best step v hu hlen hstep hv
        hvis (hrec v hv hvis) b e he hb)

/-- Every assertion holds: the checked recursion runs as the unchecked one whenever `step`
counts the visited vertices, the call is nested at most `step` deep, and the fuel exceeds the
number of vertices not visited. -/
theorem tspBacktrackingRecChecked_eq (add : WithTop W → WithTop W → WithTop W) :
    ∀ (fuel depth : Nat) (g : Graph W) (path : List Int) (uid : Int) (u : Nat) (sum : WithTop W)
      (best : WithTop W) (step : Nat), MapOk g → Closed g → findVertex g uid = some u →
      path.length = g.vertexSet.length →
      step + (unvisitedKeys g).length = g.vertexSet.length →
      (unvisitedKeys g).length < fuel → 1 ≤ step → depth ≤ step →
      tspBacktrackingRecChecked add fuel depth g path uid sum best step =
        tspBacktrackingRec add fuel g path uid sum best step
  | 0, _, _, _, _, _, _, _, _, _, _, _, _, _, hf, _, _ => absurd hf (Nat.not_lt_zero _)
  | fuel + 1, depth, g, path, uid, u, sum, best, step, hm, hcl, hu, hlen, hstep, hf, h1,
      hdepth => by
    have hcount : (g.vertexSet.filter (fun kv => (g.mem kv.2).visited)).length = step := by
      have := visitedKeys_unvisitedKeys_length g
      unfold visitedKeys at this
      rw [List.length_map] at this
      omega
    have hassert : depth ≤ g.vertexSet.length ∧ 1 ≤ step ∧ step ≤ g.vertexSet.length ∧
        (g.vertexSet.filter (fun kv => (g.mem kv.2).visited)).length = step :=
      ⟨by omega, h1, by omega, hcount⟩
    have hrec : ∀ v ∈ g.vertexSet, (g.mem v.2).visited = false →
        ∀ (path : List Int) (s : WithTop W) (b : WithTop W), path.length = g.vertexSet.length →
        ∃ r, tspBacktrackingRec add fuel (setVisited g v.2 true) path v.1 s b (step + 1) = some r ∧
          BtPost add (setVisited g v.2 true) path v.1 s b (step + 1) r := by
      intro v hv hvis path1 s b hl
      have hunv := (unvisitedKeys_mark g hm v hv hvis).length_eq
      simp only [List.length_cons] at hunv
      have hs := SameShape.of_setVisited g v.2 true
      exact tspBacktrackingRec_post add fuel (setVisited g v.2 true) path1 v.1 v.2 s b (step + 1)
        (hs.mapOk hm) (hs.closed hcl) (hm.findVertex_entry v hv) hl
        (by simp only [setVisited_vertexSet]; omega) (by omega)
    have hreceq : ∀ v ∈ g.vertexSet, (g.mem v.2).visited = false →
        ∀ (path : List Int) (s : WithTop W) (b : WithTop W), path.length = g.vertexSet.length →
        tspBacktrackingRecChecked add fuel (depth + 1) (setVisited g v.2 true) path v.1 s b
            (step + 1) =
          tspBacktrackingRec add fuel (setVisited g v.2 true) path v.1 s b (step + 1) := by
      intro v hv hvis path1 s b hl
      have hunv := (unvisitedKeys_mark g hm v hv hvis).length_eq
      simp only [List.length_cons] at hunv
      have hs := SameShape.of_setVisited g v.2 true
      exact tspBacktrackingRecChecked_eq add fuel (depth + 1) (setVisited g v.2 true) path1 v.1 v.2
        s b (step + 1) (hs.mapOk hm) (hs.closed hcl) (hm.findVertex_entry v hv) hl
        (by simp only [setVisited_vertexSet]; omega) (by omega) (by omega) (by omega)
    have hinit : BtInv add g path uid sum best step ⟨best, path, g⟩ :=
      ⟨⟨rfl, rfl, fun h => absurd h (lt_irrefl _), fun _ => rfl⟩, le_refl _⟩
    have hfold := foldlM_option_congr
      (btVertexBodyChecked add (tspBacktrackingRecChecked add fuel (depth + 1)) u sum step)
      (btVertexBody add (tspBacktrackingRec add fuel) u sum step) (BtInv add g path uid sum best step)
      g.vertexSet ⟨best, path, g⟩ hinit
      (fun b v hv hb => btVertexBodyChecked_eq add _ _ g hm path uid u sum best step hu hlen hstep
        h1 hrec hreceq b v hv hb)
      (fun b v hv hb => btVertexBody_inv add (tspBacktrackingRec add fuel) g hm path uid u sum best
        step hu hlen hstep hrec b v hv hb)
    rw [tspBacktrackingRecChecked, tspBacktrackingRec, if_pos hassert]
    simp only [hu, hfold]

/-- Claim C19: in a well-formed graph that stores vertex 0, with `path` pre-sized to the number
V of vertices, `tspBacktracking(path)` returns, and it runs as the solver with assertions does:
every recursive call is nested at most V deep, is entered with `1 ≤ step ≤ V` and with exactly
`step` vertices marked visited, and every write to `path` is at an index among 1, ..., V - 1. -/
theorem tspBacktracking_depth (add : WithTop W → WithTop W → WithTop W)
    (g : Graph W) (path : List Int) (hm : MapOk g) (hcl : Closed g)
    (h0 : (findVertex g 0).isSome = true) (hlen : path.length = g.vertexSet.length) :
    ∃ r, tspBacktrackingChecked add g path = some r ∧ tspBacktracking add g path = some r := by
  obtain ⟨v0, hv0⟩ := Option.isSome_iff_exists.mp h0
  obtain ⟨hs, _, hunv, _⟩ := start_marks g hm v0 hv0
  have hcs := clearVisited_sameShape g
  have h01 : findVertex (clearVisited g) 0 = some v0 := by rw [hcs.findVertex_eq]; exact hv0
  have hul := hunv.length_eq
  simp only [List.length_map, List.length_cons] at hul
  obtain ⟨r, hr, _⟩ := tspBacktrackingRec_post add ((clearVisited g).vertexSet.length + 1)
    (setVisited (clearVisited g) v0 true) path 0 v0 0 ⊤ 1 (hs.mapOk hm) (hs.closed hcl)
    (by rw [hs.findVertex_eq]; exact hv0) (by rw [hs.1]; exact hlen)
    (by rw [hs.1]; omega) (by rw [hcs.1]; omega)
  have heq := tspBacktrackingRecChecked_eq add ((clearVisited g).vertexSet.length + 1) 1
    (setVisited (clearVisited g) v0 true) path 0 v0 0 ⊤ 1 (hs.mapOk hm) (hs.closed hcl)
    (by rw [hs.findVertex_eq]; exact hv0) (by rw [hs.1]; exact hlen)
    (by rw [hs.1]; omega) (by rw [hcs.1]; omega) (le_refl _) (le_refl _)
  refine ⟨(r.bestSum, r.path ++ [0], r.g), ?_, ?_⟩
  · simp only [tspBacktrackingChecked, h01, heq, hr]
  · simp only [tspBacktracking, h01, hr]

/-- Witness for claim C19: the four-vertex scenario. -/
theorem tspBacktracking_depth_witness :
    ∃ r, tspBacktrackingChecked doubleAdd k4 [0, 0, 0, 0] = some r ∧
      tspBacktracking doubleAdd k4 [0, 0, 0, 0] = some r :=
  tspBacktracking_depth doubleAdd k4 [0, 0, 0, 0] (by decide) (by decide) (by decide)
    (by decide)

end BacktrackingDepth

/-! ## Haversine distance over the real numbers -/

theorem sin_sq_half_sub_add (A B : ℝ) :
    Real.sin ((B - A) / 2) ^ 2 + Real.cos A * Real.cos B = Real.cos ((A + B) / 2) ^ 2 := by
  rw [Real.sin_sq_eq_half_sub, Real.cos_sq]
  have e1 : 2 * ((B - A) / 2) = B - A := by ring
  have e2 : 2 * ((A + B) / 2) = A + B := by ring
  rw [e1, e2, Real.cos_sub, Real.cos_add]
  ring

theorem haversineA_range (c1 c2 : Coordinates ℝ) :
    0 ≤ haversineA Real.sin Real.cos Real.pi c1 c2 ∧
      haversineA Real.sin Real.cos Real.pi c1 c2 ≤ 1 := by
  unfold haversineA
  simp only []
  have hx : (c2.latitude - c1.latitude) * Real.pi / 180 / 2 =
      (c2.latitude * Real.pi / 180 - c1.latitude * Real.pi / 180) / 2 := by ring
  rw [hx]
  have key := sin_sq_half_sub_add (c1.latitude * Real.pi / 180) (c2.latitude * Real.pi / 180)
  have hs0 := sq_nonneg (Real.sin ((c2.longitude - c1.longitude) * Real.pi / 180 / 2))
  have hs1 := Real.sin_sq_le_one ((c2.longitude - c1.longitude) * Real.pi / 180 / 2)
  have ht0 := sq_nonneg
    (Real.sin ((c2.latitude * Real.pi / 180 - c1.latitude * Real.pi / 180) / 2))
  have ht1 := Real.sin_sq_le_one
    ((c2.latitude * Real.pi / 180 - c1.latitude * Real.pi / 180) / 2)
  have hk0 := sq_nonneg
    (Real.cos ((c1.latitude * Real.pi / 180 + c2.latitude * Real.pi / 180) / 2))
  have hk1 := Real.cos_sq_le_one
    ((c1.latitude * Real.pi / 180 + c2.latitude * Real.pi / 180) / 2)
  generalize Real.sin ((c2.longitude - c1.longitude) * Real.pi / 180 / 2) ^ 2 = s at *
  generalize Real.sin ((c2.latitude * Real.pi / 180 - c1.latitude * Real.pi / 180) / 2) ^ 2 = t
    at *
  generalize Real.cos ((c1.latitude * Real.pi / 180 + c2.latitude * Real.pi / 180) / 2) ^ 2 = k
    at *
  generalize Real.cos (c1.latitude * Real.pi / 180) = cA at *
  generalize Real.cos (c2.latitude * Real.pi / 180) = cB at *
  have hab : s * cA * cB = s * (k - t) := by rw [← key]; ring
  rw [hab]
  constructor
  · nlinarith [mul_nonneg hs0 hk0, mul_nonneg (sub_nonneg.mpr hs1) ht0]
  · nlinarith [mul_nonneg hs0 (sub_nonneg.mpr hk1), mul_nonneg (sub_nonneg.mpr hs1)
      (sub_nonneg.mpr ht1)]

/-- Claim C20: over the real numbers, for all coordinates in degrees, the intermediate value `a`
of `haversineDistance` lies in [0, 1], so that `sqrt` gets a non-negative argument and `asin` an
argument in [0, 1], and the returned distance lies in [0, pi * 6371000]. -/
theorem haversineDistance_range (c1 c2 : Coordinates ℝ) :
    (0 ≤ haversineA Real.sin Real.cos Real.pi c1 c2 ∧
      haversineA Real.sin Real.cos Real.pi c1 c2 ≤ 1) ∧
    (0 ≤ Real.sqrt (haversineA Real.sin Real.cos Real.pi c1 c2) ∧
      Real.sqrt (haversineA Real.sin Real.cos Real.pi c1 c2) ≤ 1) ∧
    (0 ≤ haversineDistance Real.sin Real.cos Real.arcsin Real.sqrt Real.pi c1 c2 ∧
      haversineDistance Real.sin Real.cos Real.arcsin Real.sqrt Real.pi c1 c2 ≤
        Real.pi * 6371000) := by
  obtain ⟨ha0, ha1⟩ := haversineA_range c1 c2
  have hq0 := Real.sqrt_nonneg (haversineA Real.sin Real.cos Real.pi c1 c2)
  have hq1 : Real.sqrt (haversineA Real.sin Real.cos Real.pi c1 c2) ≤ 1 :=
    Real.sqrt_le_one.mpr ha1
  refine ⟨⟨ha0, ha1⟩, ⟨hq0, hq1⟩, ?_⟩
  unfold haversineDistance
  simp only []
  have hc0 := Real.arcsin_nonneg.mpr hq0
  have hc1 := Real.arcsin_le_pi_div_two
    (Real.sqrt (haversineA Real.sin Real.cos Real.pi c1 c2))
  constructor
  · positivity
  · nlinarith

/-! ## Rounding and overflow of the returned costs -/

/-- The graph `lopsided` has one Hamiltonian cycle, 0, 1, 0, and its edges weigh
`2 ^ 53 + 1`. -/
theorem lopsided_cycles (p : List Int) (es : List (Edge ℕ))
    (h : IsHamiltonianCycle lopsided p es) :
    p = [0, 1, 0] ∧ totalWeight es = 9007199254740993 := by
  obtain ⟨hhead, hlast, hperm, halong⟩ := h
  have hkeys : lopsided.vertexSet.map Prod.fst = [0, 1] := by decide
  rw [hkeys] at hperm
  have hp : p = [0, 1, 0] := by
    match p, hhead, hlast, hperm with
    | [], hhead, _, _ => simp at hhead
    | [a], _, _, hperm => simp at hperm
    | [a, b], _, _, hperm =>
      have := hperm.length_eq
      simp at this
    | [a, b, c], hhead, hlast, hperm =>
      have ha : a = 0 := by simpa using hhead
      have hc : c = 0 := by simpa using hlast
      have hb : b = 1 := by
        have h1 : [a, b].Perm [0, 1] := by simpa using hperm
        rw [ha] at h1
        have h2 := (List.perm_cons 0).mp h1
        exact List.perm_singleton.mp h2 |> fun h3 => (List.cons.inj h3).1
      rw [ha, hb, hc]
    | a :: b :: c :: d :: rest, _, _, hperm =>
      have := hperm.length_eq
      simp at this
  refine ⟨hp, ?_⟩
  rw [hp] at halong
  have h0 : ∀ e ∈ (lopsided.mem 0).adj, e.distance = 9007199254740992 := by decide
  have h1 : ∀ e ∈ (lopsided.mem 1).adj, e.distance = 1 := by decide
  have hf0 : findVertex lopsided 0 = some 0 := by decide
  have hf1 : findVertex lopsided 1 = some 1 := by decide
  match es, halong with
  | [], halong => simp [EdgesAlong] at halong
  | [_], halong => simp [EdgesAlong] at halong
  | [e1, e2], halong =>
    simp only [EdgesAlong, hf0, hf1, Option.some.injEq, and_true] at halong
    obtain ⟨⟨pa, hpa, he1, _⟩, pb, hpb, he2, _⟩ := halong
    rw [← hpa] at he1
    rw [← hpb] at he2
    simp only [totalWeight, List.map_cons, List.map_nil, List.sum_cons, List.sum_nil,
      h0 e1 he1, h1 e2 he2]
    decide
  | _ :: _ :: _ :: _, halong => simp [EdgesAlong] at halong

/-- On the triangle with the weights 0.3, 0.1 and 0.2 the addition of doubles gives the cost
0.59999999999999998 (`21617278211378380` units) with the path 0, 1, 2, 0, where exact addition
gives `21617278211378381` units with the path 0, 2, 1, 0: rounding changes the returned cost
and the tour that wins. -/
theorem tspBacktracking_tenths :
    (tspBacktracking doubleAdd tenths [0, 0, 0]).map (fun r => (r.1, r.2.1)) =
      some (((21617278211378380 : ℕ) : WithTop ℕ), [0, 1, 2, 0]) ∧
    (tspBacktracking (fun a b => a + b) tenths [0, 0, 0]).map (fun r => (r.1, r.2.1)) =
      some (((21617278211378381 : ℕ) : WithTop ℕ), [0, 2, 1, 0]) := by
  refine ⟨by decide, by decide⟩

/-- On the triangle with the weights 0.1, 0.2 and 0.2 the addition of doubles gives the cost 0.5
(`18014398509481984` units), where the three weights sum to `18014398509481985` units. -/
theorem tspNearestNeighbour_fifths :
    (tspNearestNeighbour doubleAdd (fun _ _ => 0) fifths []).map (fun r => (r.1, r.2.1)) =
      some (((18014398509481984 : ℕ) : WithTop ℕ), [0, 1, 2, 0]) ∧
    (tspNearestNeighbour (fun a b => a + b) (fun _ _ => 0) fifths []).map
      (fun r => (r.1, r.2.1)) = some (((18014398509481985 : ℕ) : WithTop ℕ), [0, 1, 2, 0]) := by
  refine ⟨by decide, by decide⟩

/-- Claim C2 as stated fails on the graph `lopsided` with the addition of doubles: the graph is
well formed, `tspBacktracking` called with `path = [0, 0]` returns the finite cost `2 ^ 53` and
leaves `path` as `[0, 1, 0]`, but no choice of edges along this path has weights that sum to
`2 ^ 53`: they sum to `2 ^ 53 + 1`. -/
theorem tspBacktracking_rounded :
    MapOk lopsided ∧ Closed lopsided ∧
    (tspBacktracking doubleAdd lopsided [0, 0]).map (fun r => (r.1, r.2.1)) =
      some (((9007199254740992 : ℕ) : WithTop ℕ), [0, 1, 0]) ∧
    ¬ ∃ es, IsHamiltonianCycle lopsided [0, 1, 0] es ∧ totalWeight es = 9007199254740992 := by
  refine ⟨by decide, by decide, by decide, ?_⟩
  rintro ⟨es, h, hw⟩
  rw [(lopsided_cycles _ es h).2] at hw
  exact absurd hw (by decide)

/-- Claim C8 as stated fails on the graph `lopsided` with the addition of doubles: every ordered
pair of distinct vertices has exactly one direct edge, `tspNearestNeighbour` returns the cost
`2 ^ 53`, and every Hamiltonian cycle through vertex 0 weighs `2 ^ 53 + 1`, which is more. -/
theorem tspNearestNeighbour_rounded :
    MapOk lopsided ∧ Complete lopsided ∧
    (tspNearestNeighbour doubleAdd (fun _ _ => 0) lopsided []).map (fun r => (r.1, r.2.1)) =
      some (((9007199254740992 : ℕ) : WithTop ℕ), [0, 1, 0]) ∧
    ∀ p es, IsHamiltonianCycle lopsided p es → 9007199254740992 < totalWeight es := by
  refine ⟨by decide, by decide, by decide, fun p es h => ?_⟩
  rw [(lopsided_cycles p es h).2]
  decide

end RoutingAlgorithms
